import Mathlib

/-!
Verification of the two-robot warehouse delivery game: the grid state model
(WarehouseEnv), its legal-operator generation and transition operator, and the
adversarial search agents (minimax, alpha-beta, expectimax) with their shared
heuristic.  Python objects are modelled with an explicit heap of Package
objects, so that object identity and sharing (shallow copies of robots keep
their carried-package reference) are represented faithfully.  Machine integers
are Int, Python floats arising in the heuristic are rationals, and the global
pseudo-random stream is an oracle parameter RC: given the current seed and a
count it returns the successor seed and the sampled cells.  Fallible Python
code (list indexing, list.remove, attribute access on None, failed asserts)
is modelled with Option: a none result is an uncaught Python exception.
-/

namespace Warehouse

/-- Board coordinates, Python pairs of ints. -/
abbrev Cell := Int × Int

def board_size : Int := 5

def manhattan_distance (p0 p1 : Cell) : Nat :=
  (p0.1 - p1.1).natAbs + (p0.2 - p1.2).natAbs

/-- A Package object: position, destination and the on_board flag. -/
structure Package where
  position : Cell
  destination : Cell
  on_board : Bool
deriving DecidableEq, Repr

/-- The heap of all allocated Package objects; a Nat is an object reference. -/
abbrev Heap := List Package

def heapGet (h : Heap) (r : Nat) : Package := h.getD r ⟨(0, 0), (0, 0), false⟩

/-- Overwrite the heap cell r (mutation of a Package object in place). -/
def heapSet (h : Heap) (r : Nat) (p : Package) : Heap := h.set r p

/-- A Robot object; package is the reference held in the carried-package
field (None or a Package object reference). -/
structure Robot where
  position : Cell
  battery : Int
  credit : Int
  package : Option Nat
deriving DecidableEq, Repr

structure ChargeStation where
  position : Cell
deriving DecidableEq, Repr

/-- The WarehouseEnv object: robots and charge stations are owned values,
packages is the list of references to Package objects on the heap. -/
structure Env where
  robots : List Robot
  packages : List Nat
  charge_stations : List ChargeStation
  seed : Nat
  num_steps : Int
deriving DecidableEq, Repr

/-- A world: the Package heap together with one environment. -/
structure W where
  heap : Heap
  env : Env
deriving DecidableEq, Repr

/-- The random-stream oracle: from a seed and a sample count, the new seed
(random.randint(0, 255)) and the cells chosen by random.sample. -/
abbrev RCStream := Nat → Nat → Nat × List Cell

def getRobotD (e : Env) (i : Nat) : Robot := e.robots.getD i ⟨(0, 0), 0, 0, none⟩

/-- random_cells: reseed from the stored seed, store the successor seed and
return the sampled cells. -/
def random_cells (RC : RCStream) (e : Env) (count : Nat) : Env × List Cell :=
  let sc := RC e.seed count
  ({ e with seed := sc.1 }, sc.2)

def get_robot_in (e : Env) (pos : Cell) : Option Robot :=
  (e.robots.filter (fun r => decide (r.position = pos))).head?

def get_charge_station_in (e : Env) (pos : Cell) : Option ChargeStation :=
  (e.charge_stations.filter (fun c => decide (c.position = pos))).head?

/-- get_package_in searches only the first two tracked slots packages[0:2]. -/
def get_package_in (h : Heap) (e : Env) (pos : Cell) : Option Nat :=
  ((e.packages.take 2).filter (fun r => decide ((heapGet h r).position = pos))).head?

/-- The four movement operators with their displacement, in source order. -/
def moveTable : List (String × Cell) :=
  [("move north", (0, -1)), ("move south", (0, 1)),
   ("move west", (-1, 0)), ("move east", (1, 0))]

/-- The movement candidates appended by the battery-positive branch: each
in-bounds new position not occupied by a robot contributes its operator, in
source order. -/
def moveBlock (e : Env) (pos : Cell) : List String :=
  moveTable.filterMap (fun md =>
    if pos.1 + md.2.1 < board_size ∧ 0 ≤ pos.1 + md.2.1 ∧
        pos.2 + md.2.2 < board_size ∧ 0 ≤ pos.2 + md.2.2 ∧
        get_robot_in e (pos.1 + md.2.1, pos.2 + md.2.2) = none then
      some md.1
    else none)

/-- The drop off guard: the robot carries a package whose destination is the
robot position. -/
def dropoffCond (h : Heap) (robot : Robot) : Bool :=
  match robot.package with
  | some r => decide ((heapGet h r).destination = robot.position)
  | none => false

/-- The pick up guard: the robot carries nothing and an on_board package of
the tracked pair sits on its cell. -/
def pickupCond (h : Heap) (e : Env) (robot : Robot) : Bool :=
  decide (robot.package = none) &&
    (match get_package_in h e robot.position with
     | some r => (heapGet h r).on_board
     | none => false)

/-- get_legal_operators builds ops by appending, in order: the movement
block (or park when the battery is empty), charge, drop off, pick up. -/
def get_legal_operators (h : Heap) (e : Env) (robot_index : Nat) : List String :=
  let robot := getRobotD e robot_index
  (if 0 < robot.battery then moveBlock e robot.position else ["park"]) ++
    (if get_charge_station_in e robot.position ≠ none ∧ 0 < robot.credit then ["charge"] else []) ++
    (if dropoffCond h robot then ["drop off"] else []) ++
    (if pickupCond h e robot then ["pick up"] else [])

def move_robot (e : Env) (i : Nat) (offset : Cell) : Env :=
  let r := getRobotD e i
  let r2 := { r with position := (r.position.1 + offset.1, r.position.2 + offset.2),
                     battery := r.battery - 1 }
  { e with robots := e.robots.set i r2 }

/-- spawn_package: sample two cells, allocate a fresh Package (on_board is
False at construction) and append its reference; fails if the sample is
shorter than two cells (ps[0] or ps[1] would raise). -/
def spawn_package (RC : RCStream) (w : W) : Option W :=
  let ec := random_cells RC w.env 2
  match ec.2 with
  | p0 :: p1 :: _ =>
      some ⟨w.heap ++ [⟨p0, p1, false⟩],
            { ec.1 with packages := ec.1.packages ++ [w.heap.length] }⟩
  | _ => none

/-- The drop-off tail of apply_operator after the credits were transferred:
spawn the replacement, then mark packages[0] on_board if it is not, else
packages[1] (an out-of-range access is a crash), then clear the carried
package of robot i. -/
def dropoff_respawn (RC : RCStream) (w : W) (i : Nat) : Option W :=
  match spawn_package RC w with
  | none => none
  | some w2 =>
      let flagged : Option W :=
        match w2.env.packages.get? 0 with
        | none => none
        | some q0 =>
            if (heapGet w2.heap q0).on_board = false then
              some ⟨heapSet w2.heap q0 { heapGet w2.heap q0 with on_board := true }, w2.env⟩
            else
              match w2.env.packages.get? 1 with
              | none => none
              | some q1 =>
                  some ⟨heapSet w2.heap q1 { heapGet w2.heap q1 with on_board := true }, w2.env⟩
      match flagged with
      | none => none
      | some w3 =>
          let r2 := { getRobotD w3.env i with package := none }
          some ⟨w3.heap, { w3.env with robots := w3.env.robots.set i r2 }⟩

def apply_operator (RC : RCStream) (w : W) (robot_index : Nat) (op : String) :
    Option W :=
  let e := { w.env with num_steps := w.env.num_steps - 1 }
  match e.robots.get? robot_index, e.robots.get? ((robot_index + 1) % 2) with
  | some robot, some other =>
      if op ∈ get_legal_operators w.heap e robot_index ∧ ¬ e.num_steps < 0 then
        if op = "park" then some ⟨w.heap, e⟩
        else if op = "move north" then some ⟨w.heap, move_robot e robot_index (0, -1)⟩
        else if op = "move south" then some ⟨w.heap, move_robot e robot_index (0, 1)⟩
        else if op = "move east" then some ⟨w.heap, move_robot e robot_index (1, 0)⟩
        else if op = "move west" then some ⟨w.heap, move_robot e robot_index (-1, 0)⟩
        else if op = "pick up" then
          match get_package_in w.heap e robot.position with
          | some r =>
              let r2 := { robot with package := some r }
              some ⟨w.heap, { e with robots := e.robots.set robot_index r2,
                                     packages := e.packages.erase r }⟩
          | none => none
        else if op = "charge" then
          let r2 := { robot with battery := robot.battery + robot.credit, credit := 0 }
          some ⟨w.heap, { e with robots := e.robots.set robot_index r2 }⟩
        else if op = "drop off" then
          match robot.package with
          | some pr =>
              let pkg := heapGet w.heap pr
              let won : Int := (manhattan_distance pkg.position pkg.destination : Int) * 2
              let rUp := { robot with credit := robot.credit + won }
              let oDown := { other with credit := other.credit - won }
              let e2 := { e with robots :=
                (e.robots.set robot_index rUp).set ((robot_index + 1) % 2) oDown }
              dropoff_respawn RC ⟨w.heap, e2⟩ robot_index
          | none => none
        else none
      else none
  | _, _ => none

def done (e : Env) : Bool :=
  (e.robots.filter (fun r => decide (0 < r.battery))).length = 0 || e.num_steps ≤ 0

def get_balances (e : Env) : List Int := e.robots.map (fun r => r.credit)

/-- clone: a fresh WarehouseEnv with shallow copies of every robot (the
carried-package reference is copied as a reference, so it still points to
the original Package object) and a per-object copy of every listed package
(fresh heap cells). -/
def clone (w : W) : W :=
  ⟨w.heap ++ w.env.packages.map (heapGet w.heap),
   { robots := w.env.robots,
     packages := (List.range w.env.packages.length).map (fun k => w.heap.length + k),
     charge_stations := w.env.charge_stations,
     seed := w.env.seed,
     num_steps := w.env.num_steps }⟩

/-- Apply a sequence of (robot_index, operator) pairs; none as soon as one
application raises. -/
def applySeq (RC : RCStream) (w : W) : List (Nat × String) → Option W
  | [] => some w
  | s :: rest =>
      match apply_operator RC w s.1 s.2 with
      | none => none
      | some w2 => applySeq RC w2 rest

/-- A deterministic stand-in for the random stream, used on concrete inputs:
it always yields count pairwise distinct cells, like random.sample. -/
def rcTest : RCStream := fun s n => (s + 1, (List.range n).map (fun k => ((k : Int), 0)))

/-- One inner step of the package comprehension in generate: for a fixed
position p, draw one destination sample and allocate Package(p, d) for each
cell d in it. -/
def genPackInner (RC : RCStream) (p : Cell) (st : Heap × Env) : Heap × Env :=
  let ec := random_cells RC st.2 1
  ec.2.foldl
    (fun st2 d =>
      (st2.1 ++ [⟨p, d, false⟩],
       { st2.2 with packages := st2.2.packages ++ [st2.1.length] }))
    (st.1, ec.1)

/-- One outer iteration of the package comprehension in generate: draw one
position sample, then run the inner comprehension for each cell in it. -/
def genPackOuter (RC : RCStream) (st : Heap × Env) : Heap × Env :=
  let ec := random_cells RC st.2 1
  ec.2.foldl (fun st2 p => genPackInner RC p st2) (st.1, ec.1)

/-- generate: random robots with battery 20 and credit 0, four packages from
the nested comprehension, the first two marked on_board (an out-of-range
access is a crash), then two random charge stations. -/
def generateW (RC : RCStream) (seed : Nat) (num_steps : Int) : Option W :=
  let e0 : Env :=
    { robots := [], packages := [], charge_stations := [], seed := seed,
      num_steps := num_steps }
  let ec1 := random_cells RC e0 2
  let e1 := { ec1.1 with robots := ec1.2.map (fun p => ⟨p, 20, 0, none⟩) }
  let st := (List.range 4).foldl (fun st _ => genPackOuter RC st) (([] : Heap), e1)
  match st.2.packages.get? 0, st.2.packages.get? 1 with
  | some r0, some r1 =>
      let h2 := heapSet st.1 r0 { heapGet st.1 r0 with on_board := true }
      let h3 := heapSet h2 r1 { heapGet h2 r1 with on_board := true }
      let ec2 := random_cells RC st.2 2
      some ⟨h3, { ec2.1 with charge_stations := ec2.2.map (fun p => ⟨p⟩) }⟩
  | _, _ => none

structure MapRobot where
  position : Cell
  battery : Option Int
  credit : Option Int

structure MapPackage where
  position : Cell
  destination : Cell

structure MapData where
  robots : List MapRobot
  packages : List MapPackage
  charge_stations : List Cell

/-- load_from_map_data: robots with defaulted battery 20 and credit 0,
packages built from the map and then every one marked on_board, stations
from the map.  The seed argument models the random.randint(0, 255) draw. -/
def load_from_map_data (data : MapData) (num_steps : Int) (seed : Nat) : W :=
  let heap0 : Heap := data.packages.map (fun p => ⟨p.position, p.destination, false⟩)
  let heap1 := heap0.map (fun p => { p with on_board := true })
  ⟨heap1,
   { robots := data.robots.map (fun r => ⟨r.position, r.battery.getD 20, r.credit.getD 0, none⟩),
     packages := List.range data.packages.length,
     charge_stations := data.charge_stations.map (fun c => ⟨c⟩),
     seed := seed, num_steps := num_steps }⟩

/-- States reachable from a generate construction by successful (hence
legal) apply_operator calls. -/
inductive ReachableFromGenerate (RC : RCStream) : W → Prop where
  | gen : ∀ seed steps w, generateW RC seed steps = some w → ReachableFromGenerate RC w
  | step : ∀ w i op w2, ReachableFromGenerate RC w →
      apply_operator RC w i op = some w2 → ReachableFromGenerate RC w2

/-- Number of packages in the environment list whose on_board flag is set. -/
def countOnBoard (w : W) : Nat :=
  (w.env.packages.filter (fun r => (heapGet w.heap r).on_board)).length

/-!  The heuristic of submission.py.  Python floats are rationals; the
float('inf') initial best cost is the none of an Option. -/

def get_reward (pkg : Package) : ℚ := 2 * (manhattan_distance pkg.position pkg.destination : ℚ)

/-- get_cost: the carried case is recognised by object identity of the
carried package (robot.package is package). -/
def get_cost (h : Heap) (robot : Robot) (pr : Nat) : Nat :=
  if robot.package = some pr then
    manhattan_distance robot.position (heapGet h pr).destination + 1
  else
    manhattan_distance robot.position (heapGet h pr).position +
      manhattan_distance (heapGet h pr).position (heapGet h pr).destination + 2

/-- min over the charge stations; none models the ValueError of min on an
empty sequence. -/
def get_min_charge_distance (e : Env) (robot : Robot) : Option Nat :=
  (e.charge_stations.map (fun cs => manhattan_distance robot.position cs.position)).min?

def is_package_available (h : Heap) (robot : Robot) (pr : Nat) (opponent : Robot)
    (remaining_moves : Int) : Bool :=
  let cost := get_cost h robot pr
  decide ((cost : Int) ≤ remaining_moves) && decide ((cost : Int) ≤ robot.battery) &&
    decide (opponent.package ≠ some pr)

/-- best_cost update min(best_cost, cost) where best_cost may be inf. -/
def costMin (a : Option ℚ) (b : ℚ) : Option ℚ :=
  match a with
  | none => some b
  | some c => some (min c b)

/-- One accumulator step shared by both phases of get_max_package_value:
the running (max_value, best_cost) updated with one candidate. -/
def mvStep (st : ℚ × Option ℚ) (value : ℚ) (cost : Nat) : ℚ × Option ℚ :=
  if st.1 < value then (value, some (cost : ℚ))
  else if value = st.1 then (st.1, costMin st.2 (cost : ℚ))
  else st

/-- get_max_package_value: maximum reward/cost over the on_board available
packages, then the carried package; returns the max value and the cost of
the best candidate (inf, i.e. none, when there is none). -/
def get_max_package_value (h : Heap) (e : Env) (robot opponent : Robot) :
    ℚ × Option ℚ :=
  let remaining_moves : Int := (e.num_steps + 1).fdiv 2
  let st := e.packages.foldl
    (fun st pr =>
      if (heapGet h pr).on_board && is_package_available h robot pr opponent remaining_moves then
        mvStep st (get_reward (heapGet h pr) / (get_cost h robot pr : ℚ)) (get_cost h robot pr)
      else st)
    ((0 : ℚ), (none : Option ℚ))
  match robot.package with
  | some pr =>
      let cost := get_cost h robot pr
      if (cost : Int) ≤ remaining_moves ∧ (cost : Int) ≤ robot.battery ∧ 0 < cost then
        mvStep st (get_reward (heapGet h pr) / (cost : ℚ)) cost
      else st
  | none => st

/-- smart_heuristic; none models the crash of min() when the charge-station
list is empty. -/
def smart_heuristic (h : Heap) (e : Env) (robot_id : Nat) : Option ℚ :=
  let robot := getRobotD e robot_id
  let opponent := getRobotD e ((robot_id + 1) % 2)
  let mvMe := get_max_package_value h e robot opponent
  let mvOpp := get_max_package_value h e opponent robot
  let credit_diff : Int := robot.credit - opponent.credit
  match get_min_charge_distance e robot, get_min_charge_distance e opponent with
  | some dMe, some dOpp =>
      let battery_advantage_me : Int := robot.battery - (dMe : Int)
      let battery_advantage_opp : Int := opponent.battery - (dOpp : Int)
      let proximity_me : ℚ := match mvMe.2 with | none => 0 | some c => -c
      let proximity_opp : ℚ := match mvOpp.2 with | none => 0 | some c => -c
      let carrying_bonus_me : ℚ :=
        match robot.package with
        | some pr => -(manhattan_distance robot.position (heapGet h pr).destination : ℚ)
        | none => 0
      let carrying_bonus_opp : ℚ :=
        match opponent.package with
        | some pr => -(manhattan_distance opponent.position (heapGet h pr).destination : ℚ)
        | none => 0
      some (10 * mvMe.1 - 10 * mvOpp.1 + 10 * (credit_diff : ℚ) +
        (battery_advantage_me : ℚ) - (battery_advantage_opp : ℚ) +
        3 * proximity_me - 1 * proximity_opp +
        3 * carrying_bonus_me - 1 * carrying_bonus_opp)
  | _, _ => none

/-!  The search agents of submission.py.  Search values are Python floats:
rationals extended with the two infinities used as initial bounds (bot is
-inf, top is inf); no computation of the agents ever forms nan.  The wall
clock is a Timer oracle: some k answers false to the next k elapsed-time
checks and true from then on (a deadline that fires between the k-th and
the k+1-th check), none never fires.  Each check consumes one step, so the
deadline is monotone, as real time is. -/

inductive XVal where
  | bot : XVal
  | fin : ℚ → XVal
  | top : XVal
deriving DecidableEq, Repr

def XVal.toW : XVal → WithBot (WithTop ℚ)
  | .bot => ⊥
  | .fin q => ((q : WithTop ℚ) : WithBot (WithTop ℚ))
  | .top => ((⊤ : WithTop ℚ) : WithBot (WithTop ℚ))

theorem XVal.toW_inj : Function.Injective XVal.toW := by
  intro a b h
  cases a <;> cases b <;> simp_all [XVal.toW]

instance : LinearOrder XVal := LinearOrder.lift' XVal.toW XVal.toW_inj

/-- Float addition as used by the expectimax chance node (the mixed-infinity
case never arises there). -/
def xadd : XVal → XVal → XVal
  | .fin a, .fin b => .fin (a + b)
  | .bot, _ => .bot
  | _, .bot => .bot
  | .top, _ => .top
  | _, .top => .top

/-- Multiplication val * weight by a chance-node weight (always 1 or 3). -/
def xscale (c : ℚ) : XVal → XVal
  | .bot => .bot
  | .top => .top
  | .fin a => .fin (c * a)

/-- Division totalScore / totalWeight by a positive total weight. -/
def xdivq : XVal → ℚ → XVal
  | .bot, _ => .bot
  | .top, _ => .top
  | .fin a, c => .fin (a / c)

abbrev Timer := Option Nat

/-- One elapsed-time check: whether the deadline has fired, and the advanced
clock. -/
def tick : Timer → Bool × Timer
  | none => (false, none)
  | some 0 => (true, some 0)
  | some (k + 1) => (false, some k)

/-- Apply a state generator to each operator in turn; the first failing
application aborts the whole list (an uncaught exception). -/
def childrenOf (app : String → Option W) : List String → Option (List W)
  | [] => some []
  | op :: rest =>
      match app op, childrenOf app rest with
      | some c, some cs => some (c :: cs)
      | _, _ => none

/-- Modelled from the spec: the Agent base class (Agent.py) is not among the
sources; per the spec, successor generation enumerates
legal_operators(robot_id) and, for each operator, clones the state and
applies the operator to it, pairing operators with child states.  A failing
application is a crash. -/
def successors (RC : RCStream) (w : W) (robot_id : Nat) :
    Option (List String × List W) :=
  let ops := get_legal_operators w.heap w.env robot_id
  match childrenOf (fun op => apply_operator RC (clone w) robot_id op) ops with
  | some children => some (ops, children)
  | none => none

/-- One child iteration of the minimax (and expectimax maximising) loop: skip
if already stopped, stop on a fired deadline, else recurse into the child and
keep the better (value, move); a crashing recursion aborts everything. -/
def mmStep (rec : W → Timer → Option ((XVal × Option String) × Timer)) (isMax : Bool)
    (acc : Option (XVal × Option String × Timer × Bool)) (oc2 : String × W) :
    Option (XVal × Option String × Timer × Bool) :=
  match acc with
  | none => none
  | some (bv, bo, tcur, stopped) =>
      if stopped then some (bv, bo, tcur, stopped)
      else
        let tu2 := tick tcur
        if tu2.1 then some (bv, bo, tu2.2, true)
        else
          match rec oc2.2 tu2.2 with
          | none => none
          | some ((val, _), t3) =>
              if isMax then
                if bv < val then some (val, some oc2.1, t3, false)
                else some (bv, bo, t3, false)
              else
                if val < bv then some (val, some oc2.1, t3, false)
                else some (bv, bo, t3, false)

/-- AgentMinimax.minimaxSearch.  The result pairs the returned (value, move)
with the advanced clock; none is an uncaught Python exception. -/
def minimaxSearch (RC : RCStream) (agentId : Nat) :
    Nat → Nat → W → Bool → Timer → Option ((XVal × Option String) × Timer)
  | 0, _playerId, w, _isMax, t =>
      let tu := tick t
      if tu.1 then some ((.fin 0, none), tu.2)
      else
        match smart_heuristic w.heap w.env agentId with
        | some q => some ((.fin q, none), tu.2)
        | none => none
  | d + 1, playerId, w, isMax, t =>
      let tu := tick t
      if tu.1 then some ((.fin 0, none), tu.2)
      else if done w.env then
        match smart_heuristic w.heap w.env agentId with
        | some q => some ((.fin q, none), tu.2)
        | none => none
      else
        match successors RC w playerId with
        | none => none
        | some oc =>
            let res := (oc.1.zip oc.2).foldl
              (mmStep (fun w2 t2 =>
                minimaxSearch RC agentId d ((playerId + 1) % 2) w2 (!isMax) t2) isMax)
              (some ((if isMax then XVal.bot else XVal.top), (none : Option String), tu.2, false))
            match res with
            | none => none
            | some (bv, bo, tEnd, _) => some ((bv, bo), tEnd)

/-- Move ordering priority of AgentAlphaBeta (dict get with default 8). -/
def move_priority (op : String) : Nat :=
  if op = "drop off" then 0
  else if op = "pick up" then 1
  else if op = "charge" then 2
  else if op = "move south" then 3
  else if op = "move east" then 4
  else if op = "move west" then 5
  else if op = "move north" then 6
  else if op = "park" then 7
  else 8

/-- Outcome of alphaBetaSearch: a crash, a propagating SearchTimeout carrying
the clock, or a normal return. -/
inductive ABOut where
  | crash : ABOut
  | timedout : Timer → ABOut
  | ok : XVal → Option String → Timer → ABOut
deriving DecidableEq, Repr

/-- Loop accumulator of the alpha-beta children loop: still running (with the
mutable bound), halted by a cutoff, or unwinding an exception. -/
inductive ABAcc where
  | run : XVal → Option String → XVal → Timer → ABAcc
  | halted : XVal → Option String → Timer → ABAcc
  | failed : ABOut → ABAcc

/-- One operator iteration of the alpha-beta maximising loop: lazy child
expansion (clone then apply), recursion with the current window, best-value
update, alpha update and beta cutoff; exceptions unwind through failed. -/
def abStepMax (app : String → Option W) (rec : W → XVal → XVal → Timer → ABOut)
    (beta : XVal) (acc : ABAcc) (op : String) : ABAcc :=
  match acc with
  | ABAcc.failed o => ABAcc.failed o
  | ABAcc.halted bv bo tc => ABAcc.halted bv bo tc
  | ABAcc.run bv bo ca tc =>
      match app op with
      | none => ABAcc.failed .crash
      | some child =>
          match rec child ca beta tc with
          | .crash => ABAcc.failed .crash
          | .timedout t2 => ABAcc.failed (.timedout t2)
          | .ok val _ t2 =>
              let bv2 := if bv < val then val else bv
              let bo2 := if bv < val then some op else bo
              let ca2 := max ca bv2
              if beta ≤ ca2 then ABAcc.halted bv2 bo2 t2
              else ABAcc.run bv2 bo2 ca2 t2

/-- One operator iteration of the alpha-beta minimising loop. -/
def abStepMin (app : String → Option W) (rec : W → XVal → XVal → Timer → ABOut)
    (alpha : XVal) (acc : ABAcc) (op : String) : ABAcc :=
  match acc with
  | ABAcc.failed o => ABAcc.failed o
  | ABAcc.halted bv bo tc => ABAcc.halted bv bo tc
  | ABAcc.run bv bo cb tc =>
      match app op with
      | none => ABAcc.failed .crash
      | some child =>
          match rec child alpha cb tc with
          | .crash => ABAcc.failed .crash
          | .timedout t2 => ABAcc.failed (.timedout t2)
          | .ok val _ t2 =>
              let bv2 := if val < bv then val else bv
              let bo2 := if val < bv then some op else bo
              let cb2 := min cb bv2
              if cb2 ≤ alpha then ABAcc.halted bv2 bo2 t2
              else ABAcc.run bv2 bo2 cb2 t2

/-- AgentAlphaBeta.alphaBetaSearch with its lazy clone-one-child-at-a-time
expansion and priority move ordering (Python list.sort is stable, as is
mergeSort). -/
def alphaBetaSearch (RC : RCStream) (agentId : Nat) :
    Nat → Nat → W → Bool → XVal → XVal → Timer → ABOut
  | 0, _playerId, w, _isMax, _alpha, _beta, t =>
      let tu := tick t
      if tu.1 then .timedout tu.2
      else
        match smart_heuristic w.heap w.env agentId with
        | some q => .ok (.fin q) none tu.2
        | none => .crash
  | d + 1, playerId, w, isMax, alpha, beta, t =>
      let tu := tick t
      if tu.1 then .timedout tu.2
      else if done w.env then
        match smart_heuristic w.heap w.env agentId with
        | some q => .ok (.fin q) none tu.2
        | none => .crash
      else
        let operators := (get_legal_operators w.heap w.env playerId).mergeSort
          (fun a b => decide (move_priority a ≤ move_priority b))
        if isMax then
          let acc := operators.foldl
            (abStepMax (fun op => apply_operator RC (clone w) playerId op)
              (fun child a b t2 =>
                alphaBetaSearch RC agentId d ((playerId + 1) % 2) child false a b t2) beta)
            (ABAcc.run XVal.bot none alpha tu.2)
          match acc with
          | ABAcc.run bv bo _ tc => .ok bv bo tc
          | ABAcc.halted bv bo tc => .ok bv bo tc
          | ABAcc.failed o => o
        else
          let acc := operators.foldl
            (abStepMin (fun op => apply_operator RC (clone w) playerId op)
              (fun child a b t2 =>
                alphaBetaSearch RC agentId d ((playerId + 1) % 2) child true a b t2) alpha)
            (ABAcc.run XVal.top none beta tu.2)
          match acc with
          | ABAcc.run bv bo _ tc => .ok bv bo tc
          | ABAcc.halted bv bo tc => .ok bv bo tc
          | ABAcc.failed o => o

/-- One child iteration of the expectimax chance-node loop: accumulate the
weighted sum of child values and the total weight (weight 3 on move west and
pick up, else 1). -/
def emStep (rec : W → Timer → Option ((XVal × Option String) × Timer))
    (acc : Option (XVal × ℚ × Timer × Bool)) (oc2 : String × W) :
    Option (XVal × ℚ × Timer × Bool) :=
  match acc with
  | none => none
  | some (ts, tw, tcur, stopped) =>
      if stopped then some (ts, tw, tcur, stopped)
      else
        let tu2 := tick tcur
        if tu2.1 then some (ts, tw, tu2.2, true)
        else
          match rec oc2.2 tu2.2 with
          | none => none
          | some ((val, _), t3) =>
              let weight : ℚ := if oc2.1 = "move west" ∨ oc2.1 = "pick up" then 3 else 1
              some (xadd ts (xscale weight val), tw + weight, t3, false)

/-- AgentExpectimax.expectimaxSearch: max nodes as in minimax, opponent
nodes are chance nodes averaging with weight 3 on move west and pick up. -/
def expectimaxSearch (RC : RCStream) (agentId : Nat) :
    Nat → Nat → W → Bool → Timer → Option ((XVal × Option String) × Timer)
  | 0, _playerId, w, _isMax, t =>
      let tu := tick t
      if tu.1 then some ((.fin 0, none), tu.2)
      else
        match smart_heuristic w.heap w.env agentId with
        | some q => some ((.fin q, none), tu.2)
        | none => none
  | d + 1, playerId, w, isMax, t =>
      let tu := tick t
      if tu.1 then some ((.fin 0, none), tu.2)
      else if done w.env then
        match smart_heuristic w.heap w.env agentId with
        | some q => some ((.fin q, none), tu.2)
        | none => none
      else
        match successors RC w playerId with
        | none => none
        | some oc =>
            if isMax then
              let res := (oc.1.zip oc.2).foldl
                (mmStep (fun w2 t2 =>
                  expectimaxSearch RC agentId d ((playerId + 1) % 2) w2 false t2) true)
                (some (XVal.bot, (none : Option String), tu.2, false))
              match res with
              | none => none
              | some (bv, bo, tEnd, _) => some ((bv, bo), tEnd)
            else
              let res := (oc.1.zip oc.2).foldl
                (emStep (fun w2 t2 =>
                  expectimaxSearch RC agentId d ((playerId + 1) % 2) w2 true t2))
                (some (XVal.fin 0, (0 : ℚ), tu.2, false))
              match res with
              | none => none
              | some (ts, tw, tEnd, _) =>
                  if tw = 0 then some ((XVal.fin 0, none), tEnd)
                  else some ((xdivq ts tw, none), tEnd)

/-- Iterative-deepening loop of AgentMinimax.run_step.  The fuel argument
only bounds the loop textually; the deadline always fires first because
every iteration consumes clock steps, and on fuel exhaustion the loop
returns the current best move exactly as on a timeout. -/
def mmLoop (RC : RCStream) (agentId : Nat) (w : W) :
    Nat → Nat → Option String → Timer → Option (Option String)
  | 0, _, best, _ => some best
  | fuel + 1, depth, best, t =>
      let tu := tick t
      if tu.1 then some best
      else
        match minimaxSearch RC agentId depth agentId w true tu.2 with
        | none => none
        | some ((_, mv), t2) =>
            let tu2 := tick t2
            if tu2.1 then some best
            else mmLoop RC agentId w fuel (depth + 1) mv tu2.2

/-- AgentMinimax.run_step with a clock budget: some (some op) is a returned
operator string, some none is a returned Python None, none is a crash. -/
def runStepMM (RC : RCStream) (agentId : Nat) (w : W) (budget : Nat) :
    Option (Option String) :=
  match successors RC w agentId with
  | none => none
  | some oc =>
      match oc.1 with
      | [] => some (some "park")
      | op0 :: _ => mmLoop RC agentId w (budget + 2) 1 (some op0) (some budget)

/-- Iterative-deepening loop of AgentAlphaBeta.run_step: a SearchTimeout
raised by the search or the loop head check is caught and the best move of
the last completed depth is returned. -/
def abLoop (RC : RCStream) (agentId : Nat) (w : W) :
    Nat → Nat → Option String → Timer → Option (Option String)
  | 0, _, best, _ => some best
  | fuel + 1, depth, best, t =>
      let tu := tick t
      if tu.1 then some best
      else
        match alphaBetaSearch RC agentId depth agentId w true XVal.bot XVal.top tu.2 with
        | .crash => none
        | .timedout _ => some best
        | .ok _ mv t2 => abLoop RC agentId w fuel (depth + 1) mv t2

/-- AgentAlphaBeta.run_step with a clock budget. -/
def runStepAB (RC : RCStream) (agentId : Nat) (w : W) (budget : Nat) :
    Option (Option String) :=
  match get_legal_operators w.heap w.env agentId with
  | [] => some (some "park")
  | op0 :: _ => abLoop RC agentId w (budget + 2) 1 (some op0) (some budget)

/-- Iterative-deepening loop of AgentExpectimax.run_step. -/
def emLoop (RC : RCStream) (agentId : Nat) (w : W) :
    Nat → Nat → Option String → Timer → Option (Option String)
  | 0, _, best, _ => some best
  | fuel + 1, depth, best, t =>
      let tu := tick t
      if tu.1 then some best
      else
        match expectimaxSearch RC agentId depth agentId w true tu.2 with
        | none => none
        | some ((_, mv), t2) =>
            let tu2 := tick t2
            if tu2.1 then some best
            else emLoop RC agentId w fuel (depth + 1) mv tu2.2

/-- AgentExpectimax.run_step with a clock budget. -/
def runStepEM (RC : RCStream) (agentId : Nat) (w : W) (budget : Nat) :
    Option (Option String) :=
  match successors RC w agentId with
  | none => none
  | some oc =>
      match oc.1 with
      | [] => some (some "park")
      | op0 :: _ => emLoop RC agentId w (budget + 2) 1 (some op0) (some budget)

/-- In-bounds test for a board cell. -/
def inBoundsB (c : Cell) : Bool :=
  decide (0 ≤ c.1) && decide (c.1 < board_size) && decide (0 ≤ c.2) && decide (c.2 < board_size)

/-- Well-formed game state: exactly two robots, all robots on in-bounds
cells, at least one charge station, and every package reference (tracked or
carried) a valid heap cell. -/
def WfW (w : W) : Prop :=
  w.env.robots.length = 2 ∧
  (∀ r ∈ w.env.robots, inBoundsB r.position = true) ∧
  w.env.charge_stations ≠ [] ∧
  (∀ pr ∈ w.env.packages, pr < w.heap.length) ∧
  (∀ r ∈ w.env.robots, ∀ pr, r.package = some pr → pr < w.heap.length)

/-- The eight operator strings of the interface. -/
def allOps : List String :=
  ["move north", "move south", "move west", "move east",
   "pick up", "charge", "drop off", "park"]

/-- Running-accumulator invariant of the children loops: either still the
initial sentinel value with no move, or a finite value paired with an
already-legal move. -/
def GoodMV (ops : List String) (init : XVal) (bv : XVal) (bo : Option String) : Prop :=
  (bv = init ∧ bo = none) ∨
    ((∃ q, bv = XVal.fin q) ∧ ∃ op, bo = some op ∧ op ∈ ops)

/-- Reference (specification-side) minimax value of a node: the heuristic at
depth 0 or on a done state, else the max (min) over the children obtained by
cloning the state and applying each legal operator in turn.  Crash branches
(a missing heuristic or a failing application), unreachable from well-formed
states, take the junk value fin 0. -/
def mmv (RC : RCStream) (agentId : Nat) : Nat → Nat → W → Bool → XVal
  | 0, _p, w, _isMax =>
      (match smart_heuristic w.heap w.env agentId with
       | some q => XVal.fin q
       | none => XVal.fin 0)
  | d + 1, p, w, isMax =>
      if done w.env then
        (match smart_heuristic w.heap w.env agentId with
         | some q => XVal.fin q
         | none => XVal.fin 0)
      else
        let vals := (get_legal_operators w.heap w.env p).map
          (fun op =>
            match apply_operator RC (clone w) p op with
            | some c => mmv RC agentId d ((p + 1) % 2) c (!isMax)
            | none => XVal.fin 0)
        if isMax then vals.foldl max XVal.bot else vals.foldl min XVal.top

/-! ## Concrete instances used by witnesses and counterexamples -/

def junkW : W := ⟨[], { robots := [], packages := [], charge_stations := [], seed := 0, num_steps := 0 }⟩

/-- A stranded robot (battery 0) standing on a charge station with positive
credit. -/
def wC2 : W :=
  ⟨[], { robots := [⟨(2, 2), 0, 5, none⟩, ⟨(4, 4), 20, 0, none⟩],
         packages := [], charge_stations := [⟨(2, 2)⟩], seed := 0, num_steps := 10 }⟩

/-- The scenario state of claim 4: robot 0 at the origin with battery 5 and
credit 0, one on_board package at (0,1) with destination (0,2). -/
def wC4 : W :=
  ⟨[⟨(0, 1), (0, 2), true⟩],
   { robots := [⟨(0, 0), 5, 0, none⟩, ⟨(4, 4), 20, 0, none⟩],
     packages := [0], charge_stations := [⟨(3, 3)⟩], seed := 0, num_steps := 10 }⟩

def seqC4 : List (Nat × String) :=
  [(0, "move south"), (0, "pick up"), (0, "move south"), (0, "drop off")]

def wC4out : W := (applySeq rcTest wC4 seqC4).getD junkW

/-- A finished game (num_steps 0) that is otherwise well formed. -/
def wC5done : W :=
  ⟨[], { robots := [⟨(0, 0), 5, 0, none⟩, ⟨(4, 4), 20, 0, none⟩],
         packages := [], charge_stations := [⟨(3, 3)⟩], seed := 0, num_steps := 0 }⟩

def rC1 : Robot := ⟨(0, 2), 4, 0, some 0⟩

def oC1 : Robot := ⟨(4, 4), 20, 0, none⟩

/-- Robot 0 carries the heap package 0 (already removed from the tracked
list) and stands on its destination, so drop off is legal. -/
def wC1 : W :=
  ⟨[⟨(0, 1), (0, 2), true⟩],
   { robots := [rC1, oC1], packages := [], charge_stations := [⟨(3, 3)⟩],
     seed := 0, num_steps := 7 }⟩

def wC1out : W := (apply_operator rcTest wC1 0 "drop off").getD junkW

/-- A generate-shaped state: four tracked packages with flags [T, T, F, F],
robot 0 carrying a fifth package (heap cell 4) and standing on its
destination. -/
def wC7 : W :=
  ⟨[⟨(0, 0), (0, 3), true⟩, ⟨(1, 0), (1, 3), true⟩, ⟨(2, 0), (2, 3), false⟩,
    ⟨(3, 0), (3, 3), false⟩, ⟨(2, 1), (2, 2), true⟩],
   { robots := [⟨(2, 2), 5, 0, some 4⟩, ⟨(4, 4), 20, 0, none⟩],
     packages := [0, 1, 2, 3], charge_stations := [⟨(3, 3)⟩],
     seed := 0, num_steps := 9 }⟩

def wC7out : W := (apply_operator rcTest wC7 0 "drop off").getD junkW

/-- A map with a single package, loadable through the public interface. -/
def mapC10 : MapData :=
  { robots := [⟨(0, 0), none, none⟩, ⟨(4, 4), none, none⟩],
    packages := [⟨(0, 1), (0, 2)⟩], charge_stations := [(3, 3)] }

def wC10 : W := load_from_map_data mapC10 10 0

def seqC10 : List (Nat × String) :=
  [(0, "move south"), (0, "pick up"), (0, "move south")]

def wC10mid : W := (applySeq rcTest wC10 seqC10).getD junkW

def wC10out : W := (apply_operator rcTest wC10mid 0 "drop off").getD junkW

/-- The observable content of an environment under a heap: the environment
record itself (robot fields, charge stations, seed, step counter) together
with every Package object it can reach, through the tracked list and
through the robots' carried-package references. -/
def envView (h : Heap) (e : Env) : Env × List Package × List (Option Package) :=
  (e, e.packages.map (heapGet h), e.robots.map (fun rb => rb.package.map (heapGet h)))

/-- All package references of the tracked list are at least n, and the heap
extends past n: the references a clone writes through never reach below the
boundary n. -/
def FreshPack (n : Nat) (w : W) : Prop :=
  (∀ r ∈ w.env.packages, n ≤ r) ∧ n ≤ w.heap.length

/-- Original world for the clone-independence witness: robot 0 carries the
heap package 1 and stands on its destination; tracked list holds package 0. -/
def wC3 : W :=
  ⟨[⟨(1, 1), (1, 2), true⟩, ⟨(0, 1), (0, 2), true⟩],
   { robots := [⟨(0, 2), 4, 0, some 1⟩, ⟨(4, 4), 20, 0, none⟩],
     packages := [0], charge_stations := [⟨(3, 3)⟩], seed := 0, num_steps := 7 }⟩

def seqC3 : List (Nat × String) := [(0, "drop off"), (1, "move north"), (1, "move west")]

def wC3k : W := (applySeq rcTest (clone wC3) seqC3).getD junkW

/-- The package-slot invariant behind the on_board bound: tracked references
are valid and pairwise distinct, and every reference past the first two
slots points to a package that is not on_board. -/
def PackInv (h : Heap) (ps : List Nat) : Prop :=
  (∀ r ∈ ps, r < h.length) ∧ ps.Nodup ∧
    ∀ r ∈ ps.drop 2, (heapGet h r).on_board = false

/-- Invariant of the package-generation fold of generate: the references
built so far are exactly 0..heap-1 and every allocated package still has
on_board = False. -/
def genInv (st : Heap × Env) : Prop :=
  st.2.packages = List.range st.1.length ∧ ∀ p ∈ st.1, p.on_board = false

/-- A map with three packages; load_from_map_data marks all of them
on_board. -/
def mapC8 : MapData :=
  { robots := [⟨(0, 0), none, none⟩, ⟨(4, 4), none, none⟩],
    packages := [⟨(0, 1), (0, 2)⟩, ⟨(1, 1), (1, 2)⟩, ⟨(2, 1), (2, 2)⟩],
    charge_stations := [(3, 3)] }

def wC8 : W := load_from_map_data mapC8 10 0

def wC8gen : W := (generateW rcTest 3 50).getD junkW

/-- Specification-side candidate list of get_max_package_value: the
(value, cost) pair of every available on_board package, in list order,
followed by the carried package when it passes its own guard. -/
def mvCandidates (h : Heap) (e : Env) (robot opponent : Robot) : List (ℚ × Nat) :=
  (e.packages.filter (fun pr => (heapGet h pr).on_board &&
      is_package_available h robot pr opponent ((e.num_steps + 1).fdiv 2))).map
    (fun pr => (get_reward (heapGet h pr) / (get_cost h robot pr : ℚ), get_cost h robot pr))
  ++ (match robot.package with
      | some pr =>
          if (get_cost h robot pr : Int) ≤ (e.num_steps + 1).fdiv 2 ∧
              (get_cost h robot pr : Int) ≤ robot.battery ∧ 0 < get_cost h robot pr then
            [(get_reward (heapGet h pr) / (get_cost h robot pr : ℚ), get_cost h robot pr)]
          else []
      | none => [])

/-- Specification-side opportunity: the maximum candidate value, 0 when
there is none. -/
def specOpportunity (cands : List (ℚ × Nat)) : ℚ := (cands.map Prod.fst).foldl max 0

/-- Specification-side best cost: the minimum cost among the candidates
attaining the maximum value, infinity (none) when there is none. -/
def specBestCost (cands : List (ℚ × Nat)) : Option ℚ :=
  ((cands.filter (fun vc => vc.1 = specOpportunity cands)).map
    (fun vc => (vc.2 : ℚ))).min?

/-- Specification-side proximity: the negated best cost, 0 when no
opportunity exists. -/
def specProximity (cands : List (ℚ × Nat)) : ℚ :=
  match specBestCost cands with
  | none => 0
  | some c => -c

/-- Specification-side carrying bonus: the negated manhattan distance to
the carried destination, 0 when not carrying. -/
def specCarryBonus (h : Heap) (robot : Robot) : ℚ :=
  match robot.package with
  | some pr => -(manhattan_distance robot.position (heapGet h pr).destination : ℚ)
  | none => 0

/-! ## Theorems -/

/-! ### Legality extraction helpers -/

theorem mem_moveBlock_names (e : Env) (pos : Cell) (s : String) (hs : s ∈ moveBlock e pos) :
    s = "move north" ∨ s = "move south" ∨ s = "move west" ∨ s = "move east" := by
  rcases List.mem_filterMap.mp hs with ⟨md, hmd, hf⟩
  rcases Option.ite_none_right_eq_some.mp hf with ⟨-, heq⟩
  injection heq with heq
  subst heq
  simp only [moveTable, List.mem_cons, List.not_mem_nil, or_false] at hmd
  rcases hmd with h | h | h | h <;> subst h <;> simp

theorem mem_legal_iff (h : Heap) (e : Env) (i : Nat) (s : String) :
    s ∈ get_legal_operators h e i ↔
      s ∈ (if 0 < (getRobotD e i).battery then moveBlock e (getRobotD e i).position
           else ["park"]) ∨
      s ∈ (if get_charge_station_in e (getRobotD e i).position ≠ none ∧
              0 < (getRobotD e i).credit then ["charge"] else []) ∨
      s ∈ (if dropoffCond h (getRobotD e i) then ["drop off"] else []) ∨
      s ∈ (if pickupCond h e (getRobotD e i) then ["pick up"] else []) := by
  simp only [get_legal_operators, List.mem_append, or_assoc]

theorem dropoff_legal_spec (h : Heap) (e : Env) (i : Nat)
    (hleg : "drop off" ∈ get_legal_operators h e i) :
    ∃ pr, (getRobotD e i).package = some pr ∧
      (heapGet h pr).destination = (getRobotD e i).position := by
  have hcond : dropoffCond h (getRobotD e i) = true := by
    rcases (mem_legal_iff h e i _).mp hleg with hm | hm | hm | hm
    · split_ifs at hm
      · exact absurd (mem_moveBlock_names e _ _ hm) (by decide)
      · simp at hm
    · split_ifs at hm <;> simp at hm
    · split_ifs at hm with hc
      · exact hc
      · simp at hm
    · split_ifs at hm <;> simp at hm
  unfold dropoffCond at hcond
  rcases hx : (getRobotD e i).package with _ | pr
  · rw [hx] at hcond; simp at hcond
  · rw [hx] at hcond; simp only [decide_eq_true_eq] at hcond
    exact ⟨pr, rfl, hcond⟩

theorem pickup_legal_spec (h : Heap) (e : Env) (i : Nat)
    (hleg : "pick up" ∈ get_legal_operators h e i) :
    (getRobotD e i).package = none ∧
      ∃ r, get_package_in h e (getRobotD e i).position = some r ∧
        (heapGet h r).on_board = true := by
  have hcond : pickupCond h e (getRobotD e i) = true := by
    rcases (mem_legal_iff h e i _).mp hleg with hm | hm | hm | hm
    · split_ifs at hm
      · exact absurd (mem_moveBlock_names e _ _ hm) (by decide)
      · simp at hm
    · split_ifs at hm <;> simp at hm
    · split_ifs at hm <;> simp at hm
    · split_ifs at hm with hc
      · exact hc
      · simp at hm
  unfold pickupCond at hcond
  simp only [Bool.and_eq_true, decide_eq_true_eq] at hcond
  refine ⟨hcond.1, ?_⟩
  rcases hx : get_package_in h e (getRobotD e i).position with _ | r
  · rw [hx] at hcond; simp at hcond
  · rw [hx] at hcond; exact ⟨r, rfl, hcond.2⟩

/-! ### apply_operator evaluation helpers -/

theorem getRobotD_of_get? {e : Env} {i : Nat} {r : Robot}
    (h : e.robots.get? i = some r) : getRobotD e i = r := by
  rw [List.get?_eq_getElem?] at h
  simp [getRobotD, List.getD_eq_getElem?_getD, h]

theorem ne_other_index (i : Nat) : i ≠ (i + 1) % 2 := by omega

theorem apply_dropoff_eq (RC : RCStream) (w : W) (i : Nat) (robot other : Robot) (pr : Nat)
    (hi : w.env.robots.get? i = some robot)
    (ho : w.env.robots.get? ((i + 1) % 2) = some other)
    (hleg : "drop off" ∈ get_legal_operators w.heap w.env i)
    (hst : 1 ≤ w.env.num_steps)
    (hpk : robot.package = some pr) :
    apply_operator RC w i "drop off" =
      dropoff_respawn RC
        ⟨w.heap,
         { w.env with
             num_steps := w.env.num_steps - 1,
             robots := (w.env.robots.set i
               ({ robot with credit := robot.credit +
                  (manhattan_distance (heapGet w.heap pr).position
                    (heapGet w.heap pr).destination : Int) * 2 })).set ((i + 1) % 2)
               ({ other with credit := other.credit -
                  (manhattan_distance (heapGet w.heap pr).position
                    (heapGet w.heap pr).destination : Int) * 2 }) }⟩ i := by
  have hleg2 : "drop off" ∈ get_legal_operators w.heap
      { w.env with num_steps := w.env.num_steps - 1 } i := hleg
  have hst2 : ¬ ({ w.env with num_steps := w.env.num_steps - 1 } : Env).num_steps < 0 := by
    simp only []
    omega
  simp only [apply_operator, hi, ho, hpk]
  rw [if_pos ⟨hleg2, hst2⟩]
  simp

theorem dropoff_respawn_parts (RC : RCStream) (w : W) (i : Nat) (w4 : W)
    (h : dropoff_respawn RC w i = some w4) :
    w4.env.robots = w.env.robots.set i ({ getRobotD w.env i with package := none }) ∧
      w4.env.packages = w.env.packages ++ [w.heap.length] ∧
      w4.env.num_steps = w.env.num_steps ∧
      w4.env.seed = (RC w.env.seed 2).1 ∧
      w4.env.charge_stations = w.env.charge_stations := by
  unfold dropoff_respawn spawn_package random_cells at h
  dsimp only at h
  rcases hrc : (RC w.env.seed 2).2 with _ | ⟨c0, _ | ⟨c1, rest⟩⟩ <;> rw [hrc] at h
  · simp at h
  · simp at h
  · simp only [] at h
    rcases hq0 : (w.env.packages ++ [w.heap.length]).get? 0 with _ | q0 <;> rw [hq0] at h
    · simp at h
    · dsimp only at h
      split_ifs at h with hob
      · dsimp only at h
        simp only [Option.some.injEq] at h
        subst h
        exact ⟨rfl, rfl, rfl, rfl, rfl⟩
      · rcases hq1 : (w.env.packages ++ [w.heap.length]).get? 1 with _ | q1 <;> rw [hq1] at h
        · simp at h
        · dsimp only at h
          simp only [Option.some.injEq] at h
          subst h
          exact ⟨rfl, rfl, rfl, rfl, rfl⟩

theorem lt_length_of_get?_eq_some {α : Type} {l : List α} {i : Nat} {a : α}
    (h : l.get? i = some a) : i < l.length := by
  by_contra hc
  rw [List.get?_eq_none.mpr (by omega)] at h
  cases h

theorem heapGet_append_lt (h : Heap) (ps : List Package) (r : Nat) (hr : r < h.length) :
    heapGet (h ++ ps) r = heapGet h r := by
  simp [heapGet, List.getD_eq_getElem?_getD, List.getElem?_append, hr]

theorem heapGet_append_self (h : Heap) (p : Package) :
    heapGet (h ++ [p]) h.length = p := by
  simp [heapGet, List.getD_eq_getElem?_getD, List.getElem?_append_right (Nat.le_refl _)]

theorem heapGet_set_self (h : Heap) (r : Nat) (p : Package) (hr : r < h.length) :
    heapGet (heapSet h r p) r = p := by
  simp [heapGet, heapSet, List.getD_eq_getElem?_getD, List.getElem?_set_self hr]

theorem heapGet_set_ne (h : Heap) (r r2 : Nat) (p : Package) (hne : r ≠ r2) :
    heapGet (heapSet h r p) r2 = heapGet h r2 := by
  simp [heapGet, heapSet, List.getD_eq_getElem?_getD, List.getElem?_set_ne hne]

theorem dropoff_respawn_isSome (RC : RCStream) (w : W) (i : Nat)
    (hrc : 2 ≤ (RC w.env.seed 2).2.length) :
    ∃ w4, dropoff_respawn RC w i = some w4 := by
  obtain ⟨c0, c1, rest, hrc2⟩ : ∃ c0 c1 rest, (RC w.env.seed 2).2 = c0 :: c1 :: rest := by
    rcases hx : (RC w.env.seed 2).2 with _ | ⟨a, _ | ⟨b, t⟩⟩
    · rw [hx] at hrc
      simp at hrc
    · rw [hx] at hrc
      simp at hrc
    · exact ⟨a, b, t, rfl⟩
  unfold dropoff_respawn spawn_package random_cells
  dsimp only
  rw [hrc2]
  dsimp only
  rcases hp : w.env.packages with _ | ⟨q0, tl⟩
  · have : heapGet (w.heap ++ [⟨c0, c1, false⟩]) w.heap.length = ⟨c0, c1, false⟩ :=
      heapGet_append_self w.heap _
    simp [this]
  · dsimp only [List.cons_append, List.get?]
    split_ifs with hob
    · exact ⟨_, rfl⟩
    · rcases tl with _ | ⟨q1, tl2⟩ <;> simp

/-- apply_operator never raises when it is given a legal operator, the step
budget is not exhausted, the two robot indices resolve, and the random
sample has the two cells a drop off needs. -/
theorem apply_operator_isSome (RC : RCStream) (w : W) (i : Nat) (robot other : Robot)
    (op : String)
    (hi : w.env.robots.get? i = some robot)
    (ho : w.env.robots.get? ((i + 1) % 2) = some other)
    (hleg : op ∈ get_legal_operators w.heap w.env i)
    (hst : 1 ≤ w.env.num_steps)
    (hrc : ∀ s, 2 ≤ (RC s 2).2.length) :
    ∃ w2, apply_operator RC w i op = some w2 := by
  have hcond : op ∈ get_legal_operators w.heap
      { w.env with num_steps := w.env.num_steps - 1 } i ∧
      ¬ ({ w.env with num_steps := w.env.num_steps - 1 } : Env).num_steps < 0 := by
    refine ⟨hleg, ?_⟩
    simp only []
    omega
  have hnames := (mem_legal_iff w.heap w.env i op).mp hleg
  rcases hnames with hm | hm | hm | hm
  · split_ifs at hm with hbat
    · rcases mem_moveBlock_names _ _ _ hm with rfl | rfl | rfl | rfl <;>
        · simp only [apply_operator, hi, ho]
          rw [if_pos hcond]
          simp
    · simp only [List.mem_singleton] at hm
      subst hm
      simp only [apply_operator, hi, ho]
      rw [if_pos hcond]
      simp
  · split_ifs at hm with hch
    · simp only [List.mem_singleton] at hm
      subst hm
      simp only [apply_operator, hi, ho]
      rw [if_pos hcond]
      simp
    · simp at hm
  · split_ifs at hm with hdr
    · simp only [List.mem_singleton] at hm
      subst hm
      obtain ⟨pr, hpk, -⟩ := dropoff_legal_spec _ _ _ hleg
      rw [getRobotD_of_get? hi] at hpk
      rw [apply_dropoff_eq RC w i robot other pr hi ho hleg hst hpk]
      exact dropoff_respawn_isSome RC _ i (hrc _)
    · simp at hm
  · split_ifs at hm with hpu
    · simp only [List.mem_singleton] at hm
      subst hm
      obtain ⟨-, r, hgp, -⟩ := pickup_legal_spec _ _ _ hleg
      rw [getRobotD_of_get? hi] at hgp
      simp only [apply_operator, hi, ho]
      rw [if_pos hcond]
      simp only [reduceIte]
      rw [show get_package_in w.heap
          { w.env with num_steps := w.env.num_steps - 1 } robot.position =
          get_package_in w.heap w.env robot.position from rfl]
      rw [hgp]
      exact ⟨_, rfl⟩
    · simp at hm

/-- C1: a successful drop off transfers exactly
2 * manhattan(carried.position, carried.destination) credits from the other
robot to the acting robot: the acting robot gains that amount and the other
robot loses exactly the same amount. -/
theorem claim1_dropoff_zero_sum (RC : RCStream) (w w2 : W) (i : Nat) (robot other : Robot)
    (hi : w.env.robots.get? i = some robot)
    (ho : w.env.robots.get? ((i + 1) % 2) = some other)
    (happ : apply_operator RC w i "drop off" = some w2) :
    ∃ pr, robot.package = some pr ∧
      (w2.env.robots.get? i).map Robot.credit =
        some (robot.credit +
          2 * (manhattan_distance (heapGet w.heap pr).position
            (heapGet w.heap pr).destination : Int)) ∧
      (w2.env.robots.get? ((i + 1) % 2)).map Robot.credit =
        some (other.credit -
          2 * (manhattan_distance (heapGet w.heap pr).position
            (heapGet w.heap pr).destination : Int)) := by
  have happ2 := happ
  simp only [apply_operator, hi, ho] at happ2
  by_cases hcond : ("drop off" ∈ get_legal_operators w.heap
      { w.env with num_steps := w.env.num_steps - 1 } i ∧
      ¬ w.env.num_steps - 1 < 0)
  case neg =>
    rw [if_neg hcond] at happ2
    cases happ2
  have hleg : "drop off" ∈ get_legal_operators w.heap w.env i := hcond.1
  have hst : 1 ≤ w.env.num_steps := by
    have h2 := hcond.2
    omega
  obtain ⟨pr, hpk, -⟩ := dropoff_legal_spec _ _ _ hleg
  rw [getRobotD_of_get? hi] at hpk
  rw [apply_dropoff_eq RC w i robot other pr hi ho hleg hst hpk] at happ
  obtain ⟨hrob, -, -, -, -⟩ := dropoff_respawn_parts _ _ _ _ happ
  have hilen := lt_length_of_get?_eq_some hi
  have hne : (i + 1) % 2 ≠ i := (ne_other_index i).symm
  refine ⟨pr, hpk, ?_, ?_⟩
  · rw [hrob]
    have hgi : ((w.env.robots.set i
        ({ robot with credit := robot.credit +
           (manhattan_distance (heapGet w.heap pr).position
             (heapGet w.heap pr).destination : Int) * 2 })).set ((i + 1) % 2)
        ({ other with credit := other.credit -
           (manhattan_distance (heapGet w.heap pr).position
             (heapGet w.heap pr).destination : Int) * 2 })).get? i =
        some ({ robot with credit := robot.credit +
          (manhattan_distance (heapGet w.heap pr).position
            (heapGet w.heap pr).destination : Int) * 2 }) := by
      rw [List.get?_eq_getElem?, List.getElem?_set_ne hne,
        List.getElem?_set_self (by simpa using hilen)]
    rw [getRobotD_of_get? hgi]
    rw [List.get?_eq_getElem?]
    rw [List.getElem?_set_self (by simpa using hilen)]
    simp only [Option.map_some']
    congr 1
    ring
  · rw [hrob]
    rw [List.get?_eq_getElem?, List.getElem?_set_ne (ne_other_index i),
      List.getElem?_set_self (by simpa using lt_length_of_get?_eq_some ho)]
    simp only [Option.map_some']
    congr 1
    ring

/-- C1, witness at a concrete state: robot 0 at (0,2) carrying a package
with pickup cell (0,1) and destination (0,2); the drop off moves credits to
2 and -2. -/
theorem claim1_witness :
    wC1.env.robots.get? 0 = some rC1 ∧
      wC1.env.robots.get? 1 = some oC1 ∧
      apply_operator rcTest wC1 0 "drop off" = some wC1out ∧
      (∃ pr, rC1.package = some pr ∧
        (wC1out.env.robots.get? 0).map Robot.credit =
          some (rC1.credit +
            2 * (manhattan_distance (heapGet wC1.heap pr).position
              (heapGet wC1.heap pr).destination : Int)) ∧
        (wC1out.env.robots.get? ((0 + 1) % 2)).map Robot.credit =
          some (oC1.credit -
            2 * (manhattan_distance (heapGet wC1.heap pr).position
              (heapGet wC1.heap pr).destination : Int))) :=
  ⟨by decide, by decide, by decide,
    claim1_dropoff_zero_sum rcTest wC1 wC1out 0 rC1 oC1 (by decide) (by decide) (by decide)⟩

/-- C7, counterexample: dropping off in a generate-shaped state (flags
[T, T, F, F]) appends the newly spawned package at the end of the list with
on_board = False; the flag that is set belongs to one of the two old tracked
slots, so the newly spawned package does not become on_board. -/
theorem claim7_counterexample :
    apply_operator rcTest wC7 0 "drop off" = some wC7out ∧
      wC7out.env.packages = [0, 1, 2, 3, 5] ∧
      heapGet wC7out.heap 5 = ⟨(0, 0), (1, 0), false⟩ ∧
      (heapGet wC7out.heap 5).on_board = false := by decide

/-- C7, amended: a legal drop off spawns one package at the two sampled
cells (sampled from the whole board, with no freeness constraint), appends
its reference at the end of the list with on_board False, and sets
on_board := True on the old slot packages[0] if its flag is False, else on
the old slot packages[1]; the spawned package itself keeps on_board False
at this point. -/
theorem claim7_dropoff_spawn_amended (RC : RCStream) (w : W) (i : Nat)
    (robot other : Robot) (q0 q1 : Nat) (rest : List Nat) (c0 c1 : Cell) (crest : List Cell)
    (hi : w.env.robots.get? i = some robot)
    (ho : w.env.robots.get? ((i + 1) % 2) = some other)
    (hleg : "drop off" ∈ get_legal_operators w.heap w.env i)
    (hst : 1 ≤ w.env.num_steps)
    (hrc2 : (RC w.env.seed 2).2 = c0 :: c1 :: crest)
    (hp : w.env.packages = q0 :: q1 :: rest)
    (hq0 : q0 < w.heap.length) (hq1 : q1 < w.heap.length) (hq01 : q0 ≠ q1) :
    ∃ w2, apply_operator RC w i "drop off" = some w2 ∧
      w2.env.packages = w.env.packages ++ [w.heap.length] ∧
      heapGet w2.heap w.heap.length = ⟨c0, c1, false⟩ ∧
      ((heapGet w.heap q0).on_board = false →
        heapGet w2.heap q0 = { heapGet w.heap q0 with on_board := true } ∧
        heapGet w2.heap q1 = heapGet w.heap q1) ∧
      ((heapGet w.heap q0).on_board = true →
        heapGet w2.heap q0 = heapGet w.heap q0 ∧
        heapGet w2.heap q1 = { heapGet w.heap q1 with on_board := true }) := by
  obtain ⟨pr, hpk, -⟩ := dropoff_legal_spec _ _ _ hleg
  rw [getRobotD_of_get? hi] at hpk
  rw [apply_dropoff_eq RC w i robot other pr hi ho hleg hst hpk]
  unfold dropoff_respawn spawn_package random_cells
  dsimp only
  rw [show ({ w.env with
      num_steps := w.env.num_steps - 1,
      robots := (w.env.robots.set i
        ({ robot with credit := robot.credit +
           (manhattan_distance (heapGet w.heap pr).position
             (heapGet w.heap pr).destination : Int) * 2 })).set ((i + 1) % 2)
        ({ other with credit := other.credit -
           (manhattan_distance (heapGet w.heap pr).position
             (heapGet w.heap pr).destination : Int) * 2 }) } : Env).seed = w.env.seed from rfl,
    hrc2]
  dsimp only
  rw [show ({ w.env with
      num_steps := w.env.num_steps - 1,
      robots := (w.env.robots.set i
        ({ robot with credit := robot.credit +
           (manhattan_distance (heapGet w.heap pr).position
             (heapGet w.heap pr).destination : Int) * 2 })).set ((i + 1) % 2)
        ({ other with credit := other.credit -
           (manhattan_distance (heapGet w.heap pr).position
             (heapGet w.heap pr).destination : Int) * 2 }) } : Env).packages =
      w.env.packages from rfl, hp]
  dsimp only [List.cons_append, List.get?]
  have hnew : heapGet (w.heap ++ [⟨c0, c1, false⟩]) w.heap.length = ⟨c0, c1, false⟩ :=
    heapGet_append_self w.heap _
  have hg0 : heapGet (w.heap ++ [⟨c0, c1, false⟩]) q0 = heapGet w.heap q0 :=
    heapGet_append_lt _ _ _ hq0
  have hg1 : heapGet (w.heap ++ [⟨c0, c1, false⟩]) q1 = heapGet w.heap q1 :=
    heapGet_append_lt _ _ _ hq1
  have hq0len : q0 ≠ w.heap.length := by omega
  have hq1len : q1 ≠ w.heap.length := by omega
  rw [hg0]
  split_ifs with hob
  · refine ⟨_, rfl, ?_, ?_, ?_, ?_⟩
    · simp
    · rw [heapGet_set_ne _ _ _ _ hq0len, hnew]
    · intro _
      constructor
      · rw [heapGet_set_self _ _ _ (by simp; omega)]
      · rw [heapGet_set_ne _ _ _ _ hq01, hg1]
    · intro hcontra
      rw [hob] at hcontra
      cases hcontra
  · have hob2 : (heapGet w.heap q0).on_board = true := by
      revert hob
      cases (heapGet w.heap q0).on_board <;> simp
    refine ⟨_, rfl, ?_, ?_, ?_, ?_⟩
    · simp
    · rw [heapGet_set_ne _ _ _ _ hq1len, hnew]
    · intro hcontra
      rw [hob2] at hcontra
      cases hcontra
    · intro _
      constructor
      · rw [heapGet_set_ne _ _ _ _ (Ne.symm hq01), hg0]
      · rw [heapGet_set_self _ _ _ (by simp; omega), hg1]

/-- C7, witness for the amended theorem at the generate-shaped state. -/
theorem claim7_witness :
    wC7.env.robots.get? 0 = some (getRobotD wC7.env 0) ∧
      wC7.env.robots.get? 1 = some (getRobotD wC7.env 1) ∧
      "drop off" ∈ get_legal_operators wC7.heap wC7.env 0 ∧
      (1 : Int) ≤ wC7.env.num_steps ∧
      (∃ w2, apply_operator rcTest wC7 0 "drop off" = some w2 ∧
        w2.env.packages = wC7.env.packages ++ [wC7.heap.length] ∧
        heapGet w2.heap wC7.heap.length = ⟨(0, 0), (1, 0), false⟩ ∧
        ((heapGet wC7.heap 0).on_board = false →
          heapGet w2.heap 0 = { heapGet wC7.heap 0 with on_board := true } ∧
          heapGet w2.heap 1 = heapGet wC7.heap 1) ∧
        ((heapGet wC7.heap 0).on_board = true →
          heapGet w2.heap 0 = heapGet wC7.heap 0 ∧
          heapGet w2.heap 1 = { heapGet wC7.heap 1 with on_board := true })) :=
  ⟨by decide, by decide, by decide, by decide,
    claim7_dropoff_spawn_amended rcTest wC7 0 (getRobotD wC7.env 0) (getRobotD wC7.env 1) 0 1 [2, 3] (0, 0) (1, 0) []
      (by decide) (by decide) (by decide) (by decide) (by decide) (by decide)
      (by decide) (by decide) (by decide)⟩

/-- C10, counterexample: from a map loaded with a single package, pick it
up and deliver it; the drop off terminates normally although the package
list right after the respawn append has length 1, not at least 2. -/
theorem claim10_counterexample :
    applySeq rcTest wC10 seqC10 = some wC10mid ∧
      "drop off" ∈ get_legal_operators wC10mid.heap wC10mid.env 0 ∧
      apply_operator rcTest wC10mid 0 "drop off" = some wC10out ∧
      wC10out.env.packages.length = 1 ∧ ¬ 2 ≤ wC10out.env.packages.length := by decide

/-- C10, amended: a legal drop off with at least one step left and a
two-cell sample always terminates normally; packages[0] exists after the
append, and packages[1] is read only when packages[0] is already on_board,
which forces the pre-spawn list to be nonempty, so every access is in
bounds; the claimed lower bound of 2 on the list length does not hold in
general (the counterexample has length 1). -/
theorem claim10_dropoff_safe_amended (RC : RCStream) (w : W) (i : Nat)
    (robot other : Robot)
    (hi : w.env.robots.get? i = some robot)
    (ho : w.env.robots.get? ((i + 1) % 2) = some other)
    (hleg : "drop off" ∈ get_legal_operators w.heap w.env i)
    (hst : 1 ≤ w.env.num_steps)
    (hrc : 2 ≤ (RC w.env.seed 2).2.length) :
    ∃ w2, apply_operator RC w i "drop off" = some w2 ∧
      w2.env.packages = w.env.packages ++ [w.heap.length] := by
  obtain ⟨pr, hpk, -⟩ := dropoff_legal_spec _ _ _ hleg
  rw [getRobotD_of_get? hi] at hpk
  have happ := apply_dropoff_eq RC w i robot other pr hi ho hleg hst hpk
  obtain ⟨w4, hw4⟩ := dropoff_respawn_isSome RC
    ⟨w.heap,
     { w.env with
         num_steps := w.env.num_steps - 1,
         robots := (w.env.robots.set i
           ({ robot with credit := robot.credit +
              (manhattan_distance (heapGet w.heap pr).position
                (heapGet w.heap pr).destination : Int) * 2 })).set ((i + 1) % 2)
           ({ other with credit := other.credit -
              (manhattan_distance (heapGet w.heap pr).position
                (heapGet w.heap pr).destination : Int) * 2 }) }⟩ i hrc
  refine ⟨w4, by rw [happ]; exact hw4, ?_⟩
  obtain ⟨-, hpack, -, -, -⟩ := dropoff_respawn_parts _ _ _ _ hw4
  exact hpack

/-- C10, witness for the amended theorem: the single-package load scenario
itself. -/
theorem claim10_witness :
    wC10mid.env.robots.get? 0 = some (getRobotD wC10mid.env 0) ∧
      wC10mid.env.robots.get? 1 = some (getRobotD wC10mid.env 1) ∧
      "drop off" ∈ get_legal_operators wC10mid.heap wC10mid.env 0 ∧
      (1 : Int) ≤ wC10mid.env.num_steps ∧
      (∃ w2, apply_operator rcTest wC10mid 0 "drop off" = some w2 ∧
        w2.env.packages = wC10mid.env.packages ++ [wC10mid.heap.length]) :=
  ⟨by decide, by decide, by decide, by decide,
    claim10_dropoff_safe_amended rcTest wC10mid 0 (getRobotD wC10mid.env 0) (getRobotD wC10mid.env 1)
      (by decide) (by decide) (by decide) (by decide) (by decide)⟩

/-! ### Clone independence (frame) lemmas -/

theorem dropoff_respawn_frame (RC : RCStream) (w : W) (i : Nat) (w4 : W) (n : Nat)
    (h : dropoff_respawn RC w i = some w4)
    (hFp : ∀ r ∈ w.env.packages, n ≤ r) (hFl : n ≤ w.heap.length) :
    (∀ r ∈ w4.env.packages, n ≤ r) ∧ n ≤ w4.heap.length ∧
      ∀ j, j < n → heapGet w4.heap j = heapGet w.heap j := by
  unfold dropoff_respawn spawn_package random_cells at h
  dsimp only at h
  rcases hrc : (RC w.env.seed 2).2 with _ | ⟨c0, _ | ⟨c1, rest⟩⟩ <;> rw [hrc] at h
  · simp at h
  · simp at h
  · dsimp only at h
    rcases hq0 : (w.env.packages ++ [w.heap.length]).get? 0 with _ | q0 <;> rw [hq0] at h
    · simp at h
    · have hq0n : n ≤ q0 := by
        rcases List.mem_append.mp (List.get?_mem hq0) with hm | hm
        · exact hFp _ hm
        · simp only [List.mem_singleton] at hm
          omega
      have hpacknew : ∀ r ∈ w.env.packages ++ [w.heap.length], n ≤ r := by
        intro r hr
        rcases List.mem_append.mp hr with hm | hm
        · exact hFp _ hm
        · simp only [List.mem_singleton] at hm
          omega
      dsimp only at h
      split_ifs at h with hob
      · dsimp only at h
        simp only [Option.some.injEq] at h
        subst h
        refine ⟨hpacknew, ?_, ?_⟩
        · simp only [heapSet, List.length_set, List.length_append]
          omega
        · intro j hj
          rw [heapGet_set_ne _ _ _ _ (by omega), heapGet_append_lt _ _ _ (by omega)]
      · rcases hq1 : (w.env.packages ++ [w.heap.length]).get? 1 with _ | q1 <;> rw [hq1] at h
        · simp at h
        · have hq1n : n ≤ q1 := by
            rcases List.mem_append.mp (List.get?_mem hq1) with hm | hm
            · exact hFp _ hm
            · simp only [List.mem_singleton] at hm
              omega
          dsimp only at h
          simp only [Option.some.injEq] at h
          subst h
          refine ⟨hpacknew, ?_, ?_⟩
          · simp only [heapSet, List.length_set, List.length_append]
            omega
          · intro j hj
            rw [heapGet_set_ne _ _ _ _ (by omega), heapGet_append_lt _ _ _ (by omega)]

theorem apply_operator_frame (RC : RCStream) (n : Nat) (w w2 : W) (i : Nat) (op : String)
    (hFp : ∀ r ∈ w.env.packages, n ≤ r) (hFl : n ≤ w.heap.length)
    (happ : apply_operator RC w i op = some w2) :
    (∀ r ∈ w2.env.packages, n ≤ r) ∧ n ≤ w2.heap.length ∧
      ∀ j, j < n → heapGet w2.heap j = heapGet w.heap j := by
  unfold apply_operator at happ
  dsimp only at happ
  rcases hgi : w.env.robots.get? i with _ | robot <;> rw [hgi] at happ
  · cases happ
  rcases hgo : w.env.robots.get? ((i + 1) % 2) with _ | other <;> rw [hgo] at happ
  · cases happ
  dsimp only at happ
  by_cases hcond : (op ∈ get_legal_operators w.heap
      ({ robots := w.env.robots, packages := w.env.packages,
         charge_stations := w.env.charge_stations, seed := w.env.seed,
         num_steps := w.env.num_steps - 1 } : Env) i ∧ ¬ w.env.num_steps - 1 < 0)
  case neg =>
    rw [if_neg hcond] at happ
    cases happ
  rw [if_pos hcond] at happ
  have hleg : op ∈ get_legal_operators w.heap w.env i := hcond.1
  rcases (mem_legal_iff w.heap w.env i op).mp hleg with hm | hm | hm | hm
  · split_ifs at hm with hbat
    · rcases mem_moveBlock_names _ _ _ hm with rfl | rfl | rfl | rfl
      · rw [if_neg (by decide), if_pos rfl] at happ
        simp only [Option.some.injEq] at happ
        subst happ
        exact ⟨hFp, hFl, fun j hj => rfl⟩
      · rw [if_neg (by decide), if_neg (by decide), if_pos rfl] at happ
        simp only [Option.some.injEq] at happ
        subst happ
        exact ⟨hFp, hFl, fun j hj => rfl⟩
      · rw [if_neg (by decide), if_neg (by decide), if_neg (by decide), if_neg (by decide),
          if_pos rfl] at happ
        simp only [Option.some.injEq] at happ
        subst happ
        exact ⟨hFp, hFl, fun j hj => rfl⟩
      · rw [if_neg (by decide), if_neg (by decide), if_neg (by decide), if_pos rfl] at happ
        simp only [Option.some.injEq] at happ
        subst happ
        exact ⟨hFp, hFl, fun j hj => rfl⟩
    · simp only [List.mem_singleton] at hm
      subst hm
      rw [if_pos rfl] at happ
      simp only [Option.some.injEq] at happ
      subst happ
      exact ⟨hFp, hFl, fun j hj => rfl⟩
  · split_ifs at hm with hch
    · simp only [List.mem_singleton] at hm
      subst hm
      rw [if_neg (by decide), if_neg (by decide), if_neg (by decide), if_neg (by decide),
        if_neg (by decide), if_neg (by decide), if_pos rfl] at happ
      simp only [Option.some.injEq] at happ
      subst happ
      exact ⟨hFp, hFl, fun j hj => rfl⟩
    · simp at hm
  · split_ifs at hm with hdr
    · simp only [List.mem_singleton] at hm
      subst hm
      rw [if_neg (by decide), if_neg (by decide), if_neg (by decide), if_neg (by decide),
        if_neg (by decide), if_neg (by decide), if_neg (by decide), if_pos rfl] at happ
      rcases hpk : robot.package with _ | pr <;> rw [hpk] at happ
      · cases happ
      · dsimp only at happ
        obtain ⟨h1, h2, h3⟩ := dropoff_respawn_frame RC _ i w2 n happ hFp hFl
        exact ⟨h1, h2, h3⟩
    · simp at hm
  · split_ifs at hm with hpu
    · simp only [List.mem_singleton] at hm
      subst hm
      rw [if_neg (by decide), if_neg (by decide), if_neg (by decide), if_neg (by decide),
        if_neg (by decide), if_pos rfl] at happ
      rcases hg : get_package_in w.heap
          { w.env with num_steps := w.env.num_steps - 1 } robot.position with _ | r <;>
        rw [hg] at happ
      · cases happ
      · dsimp only at happ
        simp only [Option.some.injEq] at happ
        subst happ
        refine ⟨?_, hFl, fun j hj => rfl⟩
        intro r2 hr2
        exact hFp _ (List.mem_of_mem_erase hr2)
    · simp at hm

theorem applySeq_frame (RC : RCStream) (n : Nat) :
    ∀ (seq : List (Nat × String)) (w wk : W),
      (∀ r ∈ w.env.packages, n ≤ r) → n ≤ w.heap.length →
      applySeq RC w seq = some wk →
      ∀ j, j < n → heapGet wk.heap j = heapGet w.heap j := by
  intro seq
  induction seq with
  | nil =>
      intro w wk _ _ h j hj
      simp only [applySeq, Option.some.injEq] at h
      subst h
      rfl
  | cons s rest ih =>
      intro w wk hFp hFl h j hj
      simp only [applySeq] at h
      rcases hstep : apply_operator RC w s.1 s.2 with _ | wmid <;> rw [hstep] at h
      · cases h
      · obtain ⟨hFp2, hFl2, hframe⟩ := apply_operator_frame RC n w wmid s.1 s.2 hFp hFl hstep
        rw [ih wmid wk hFp2 hFl2 h j hj]
        exact hframe j hj

/-- C3: running any sequence of legal operators on a clone leaves the
original completely unchanged: the original environment record (robot
fields, charge stations, seed, step counter) and every Package object it
reaches, through the tracked list or through a robot's carried-package
reference, read back exactly as before. -/
theorem claim3_clone_independence (RC : RCStream) (w : W) (seq : List (Nat × String)) (wk : W)
    (hwfPack : ∀ r ∈ w.env.packages, r < w.heap.length)
    (hwfRob : ∀ rb ∈ w.env.robots, ∀ pr, rb.package = some pr → pr < w.heap.length)
    (happ : applySeq RC (clone w) seq = some wk) :
    envView wk.heap w.env = envView w.heap w.env := by
  have hFp : ∀ r ∈ (clone w).env.packages, w.heap.length ≤ r := by
    intro r hr
    simp only [clone, List.mem_map, List.mem_range] at hr
    obtain ⟨k, -, rfl⟩ := hr
    omega
  have hFl : w.heap.length ≤ (clone w).heap.length := by
    simp [clone]
  have hframe := applySeq_frame RC w.heap.length seq (clone w) wk hFp hFl happ
  have hlow : ∀ j, j < w.heap.length → heapGet wk.heap j = heapGet w.heap j := by
    intro j hj
    rw [hframe j hj]
    exact heapGet_append_lt _ _ _ hj
  unfold envView
  refine congrArg (Prod.mk w.env) ?_
  refine congrArg₂ Prod.mk ?_ ?_
  · exact List.map_congr_left (fun r hr => hlow r (hwfPack r hr))
  · refine List.map_congr_left (fun rb hrb => ?_)
    rcases hpk : rb.package with _ | pr
    · rfl
    · simp only [Option.map_some']
      rw [hlow pr (hwfRob rb hrb pr hpk)]

/-- C3, witness: the original carries heap package 1; the clone performs a
drop off (which writes on_board flags through its own copied references)
and two moves, and the original's view is unchanged. -/
theorem claim3_witness :
    (∀ r ∈ wC3.env.packages, r < wC3.heap.length) ∧
      (∀ rb ∈ wC3.env.robots, ∀ pr, rb.package = some pr → pr < wC3.heap.length) ∧
      applySeq rcTest (clone wC3) seqC3 = some wC3k ∧
      envView wC3k.heap wC3.env = envView wC3.heap wC3.env :=
  ⟨by decide, by decide, by decide,
    claim3_clone_independence rcTest wC3 seqC3 wC3k (by decide) (by decide) (by decide)⟩

/-! ### Package-slot invariant lemmas (on_board bound) -/

theorem drop_erase_subset {α : Type} [DecidableEq α] (a : α) :
    ∀ (l : List α) (n : Nat), (l.erase a).drop n ⊆ l.drop n := by
  intro l
  induction l with
  | nil => intro n; simp
  | cons b t ih =>
      intro n
      by_cases hb : b = a
      · subst hb
        rw [List.erase_cons_head]
        cases n with
        | zero => exact List.subset_cons_self b t
        | succ m =>
            rw [List.drop_succ_cons]
            intro x hx
            have hx2 : x ∈ (t.drop m).drop 1 := by
              rw [List.drop_drop]
              exact hx
            exact List.drop_subset 1 (t.drop m) hx2
      · rw [List.erase_cons_tail (by simp [hb])]
        cases n with
        | zero =>
            intro x hx
            rcases List.mem_cons.mp hx with rfl | hx2
            · exact List.mem_cons_self x t
            · exact List.mem_cons_of_mem b (List.mem_of_mem_erase hx2)
        | succ m =>
            rw [List.drop_succ_cons, List.drop_succ_cons]
            exact ih m

theorem dropoff_respawn_PackInv (RC : RCStream) (w : W) (i : Nat) (w4 : W)
    (h : dropoff_respawn RC w i = some w4)
    (hInv : PackInv w.heap w.env.packages) : PackInv w4.heap w4.env.packages := by
  obtain ⟨hlt, hnd, hfl⟩ := hInv
  unfold dropoff_respawn spawn_package random_cells at h
  dsimp only at h
  rcases hrc : (RC w.env.seed 2).2 with _ | ⟨c0, _ | ⟨c1, rest⟩⟩ <;> rw [hrc] at h
  · simp at h
  · simp at h
  dsimp only at h
  rcases hq0 : (w.env.packages ++ [w.heap.length]).get? 0 with _ | q0 <;> rw [hq0] at h
  · simp at h
  have hndapp : (w.env.packages ++ [w.heap.length]).Nodup := by
    rw [List.nodup_append]
    refine ⟨hnd, List.nodup_singleton _, ?_⟩
    intro a ha hb
    simp only [List.mem_singleton] at hb
    subst hb
    exact absurd (hlt _ ha) (lt_irrefl _)
  have hltapp : ∀ r ∈ w.env.packages ++ [w.heap.length], r < w.heap.length + 1 := by
    intro r hr
    rcases List.mem_append.mp hr with hm | hm
    · exact Nat.lt_succ_of_lt (hlt _ hm)
    · simp only [List.mem_singleton] at hm
      omega
  dsimp only at h
  split_ifs at h with hob
  · dsimp only at h
    simp only [Option.some.injEq] at h
    subst h
    refine ⟨?_, hndapp, ?_⟩
    · intro r hr
      have := hltapp r hr
      simp only [heapSet, List.length_set, List.length_append, List.length_singleton]
      omega
    · intro r hr
      have hq0r : q0 ≠ r := by
        rcases hsplit : w.env.packages ++ [w.heap.length] with _ | ⟨x, tl⟩
        · rw [hsplit] at hq0
          cases hq0
        · rw [hsplit] at hq0
          simp only [List.get?_cons_zero, Option.some.injEq] at hq0
          subst hq0
          rw [hsplit] at hr hndapp
          have hxtl := (List.nodup_cons.mp hndapp).1
          intro he
          subst he
          exact hxtl (List.mem_of_mem_drop hr)
      rw [heapGet_set_ne _ _ _ _ hq0r]
      rw [List.drop_append_eq_append_drop] at hr
      rcases List.mem_append.mp hr with hm | hm
      · have hrlt : r < w.heap.length := hlt r (List.mem_of_mem_drop hm)
        rw [heapGet_append_lt _ _ _ hrlt]
        exact hfl r hm
      · have hrlen : r = w.heap.length := by
          have := List.mem_of_mem_drop hm
          simpa using this
        subst hrlen
        rw [heapGet_append_self]
  · rcases hq1 : (w.env.packages ++ [w.heap.length]).get? 1 with _ | q1 <;> rw [hq1] at h
    · simp at h
    dsimp only at h
    simp only [Option.some.injEq] at h
    subst h
    refine ⟨?_, hndapp, ?_⟩
    · intro r hr
      have := hltapp r hr
      simp only [heapSet, List.length_set, List.length_append, List.length_singleton]
      omega
    · intro r hr
      have hq1r : q1 ≠ r := by
        rcases hsplit : w.env.packages ++ [w.heap.length] with _ | ⟨x, _ | ⟨y, tl2⟩⟩
        · rw [hsplit] at hq0
          cases hq0
        · rw [hsplit] at hq1
          cases hq1
        · rw [hsplit] at hq1
          simp only [List.get?_cons_succ, List.get?_cons_zero, Option.some.injEq] at hq1
          subst hq1
          rw [hsplit] at hr hndapp
          have hytl := (List.nodup_cons.mp (List.nodup_cons.mp hndapp).2).1
          intro he
          subst he
          simp only [List.drop_succ_cons, List.drop_one] at hr
          exact hytl hr
      rw [heapGet_set_ne _ _ _ _ hq1r]
      rw [List.drop_append_eq_append_drop] at hr
      rcases List.mem_append.mp hr with hm | hm
      · have hrlt : r < w.heap.length := hlt r (List.mem_of_mem_drop hm)
        rw [heapGet_append_lt _ _ _ hrlt]
        exact hfl r hm
      · have hrlen : r = w.heap.length := by
          have := List.mem_of_mem_drop hm
          simpa using this
        subst hrlen
        rw [heapGet_append_self]

theorem apply_operator_PackInv (RC : RCStream) (w w2 : W) (i : Nat) (op : String)
    (happ : apply_operator RC w i op = some w2)
    (hInv : PackInv w.heap w.env.packages) : PackInv w2.heap w2.env.packages := by
  obtain ⟨hlt, hnd, hfl⟩ := hInv
  unfold apply_operator at happ
  dsimp only at happ
  rcases hgi : w.env.robots.get? i with _ | robot <;> rw [hgi] at happ
  · cases happ
  rcases hgo : w.env.robots.get? ((i + 1) % 2) with _ | other <;> rw [hgo] at happ
  · cases happ
  dsimp only at happ
  by_cases hcond : (op ∈ get_legal_operators w.heap
      ({ robots := w.env.robots, packages := w.env.packages,
         charge_stations := w.env.charge_stations, seed := w.env.seed,
         num_steps := w.env.num_steps - 1 } : Env) i ∧ ¬ w.env.num_steps - 1 < 0)
  case neg =>
    rw [if_neg hcond] at happ
    cases happ
  rw [if_pos hcond] at happ
  have hleg : op ∈ get_legal_operators w.heap w.env i := hcond.1
  rcases (mem_legal_iff w.heap w.env i op).mp hleg with hm | hm | hm | hm
  · split_ifs at hm with hbat
    · rcases mem_moveBlock_names _ _ _ hm with rfl | rfl | rfl | rfl
      · rw [if_neg (by decide), if_pos rfl] at happ
        simp only [Option.some.injEq] at happ
        subst happ
        exact ⟨hlt, hnd, hfl⟩
      · rw [if_neg (by decide), if_neg (by decide), if_pos rfl] at happ
        simp only [Option.some.injEq] at happ
        subst happ
        exact ⟨hlt, hnd, hfl⟩
      · rw [if_neg (by decide), if_neg (by decide), if_neg (by decide), if_neg (by decide),
          if_pos rfl] at happ
        simp only [Option.some.injEq] at happ
        subst happ
        exact ⟨hlt, hnd, hfl⟩
      · rw [if_neg (by decide), if_neg (by decide), if_neg (by decide), if_pos rfl] at happ
        simp only [Option.some.injEq] at happ
        subst happ
        exact ⟨hlt, hnd, hfl⟩
    · simp only [List.mem_singleton] at hm
      subst hm
      rw [if_pos rfl] at happ
      simp only [Option.some.injEq] at happ
      subst happ
      exact ⟨hlt, hnd, hfl⟩
  · split_ifs at hm with hch
    · simp only [List.mem_singleton] at hm
      subst hm
      rw [if_neg (by decide), if_neg (by decide), if_neg (by decide), if_neg (by decide),
        if_neg (by decide), if_neg (by decide), if_pos rfl] at happ
      simp only [Option.some.injEq] at happ
      subst happ
      exact ⟨hlt, hnd, hfl⟩
    · simp at hm
  · split_ifs at hm with hdr
    · simp only [List.mem_singleton] at hm
      subst hm
      rw [if_neg (by decide), if_neg (by decide), if_neg (by decide), if_neg (by decide),
        if_neg (by decide), if_neg (by decide), if_neg (by decide), if_pos rfl] at happ
      rcases hpk : robot.package with _ | pr <;> rw [hpk] at happ
      · cases happ
      · dsimp only at happ
        exact dropoff_respawn_PackInv RC _ i w2 happ ⟨hlt, hnd, hfl⟩
    · simp at hm
  · split_ifs at hm with hpu
    · simp only [List.mem_singleton] at hm
      subst hm
      rw [if_neg (by decide), if_neg (by decide), if_neg (by decide), if_neg (by decide),
        if_neg (by decide), if_pos rfl] at happ
      rcases hg : get_package_in w.heap
          { w.env with num_steps := w.env.num_steps - 1 } robot.position with _ | r <;>
        rw [hg] at happ
      · cases happ
      · dsimp only at happ
        simp only [Option.some.injEq] at happ
        subst happ
        refine ⟨?_, hnd.erase r, ?_⟩
        · intro r2 hr2
          exact hlt _ (List.mem_of_mem_erase hr2)
        · intro r2 hr2
          exact hfl r2 (drop_erase_subset r _ 2 hr2)
    · simp at hm

theorem foldl_genInv {α : Type} (step : Heap × Env → α → Heap × Env)
    (hstep : ∀ st a, genInv st → genInv (step st a)) :
    ∀ (l : List α) (st : Heap × Env), genInv st → genInv (l.foldl step st) := by
  intro l
  induction l with
  | nil => intro st h; exact h
  | cons a t ih => intro st h; exact ih _ (hstep st a h)

theorem genPackInner_inv (RC : RCStream) (p : Cell) (st : Heap × Env) (h : genInv st) :
    genInv (genPackInner RC p st) := by
  unfold genPackInner random_cells
  dsimp only
  refine foldl_genInv _ ?_ _ _ ?_
  · intro st2 d h2
    obtain ⟨hp, hf⟩ := h2
    constructor
    · dsimp only
      rw [hp, List.length_append, List.length_singleton, List.range_succ]
    · intro q hq
      rcases List.mem_append.mp hq with hm | hm
      · exact hf q hm
      · simp only [List.mem_singleton] at hm
        subst hm
        rfl
  · exact ⟨h.1, h.2⟩

theorem genPackOuter_inv (RC : RCStream) (st : Heap × Env) (h : genInv st) :
    genInv (genPackOuter RC st) := by
  unfold genPackOuter random_cells
  dsimp only
  refine foldl_genInv _ ?_ _ _ ?_
  · intro st2 p h2
    exact genPackInner_inv RC p st2 h2
  · exact ⟨h.1, h.2⟩

theorem heapGet_mem (h : Heap) (r : Nat) (hr : r < h.length) : heapGet h r ∈ h := by
  rw [heapGet, List.getD_eq_getElem?_getD, List.getElem?_eq_getElem hr]
  exact List.getElem_mem hr

theorem mem_drop_range_ge (k r n : Nat) (hr : r ∈ (List.range k).drop n) : n ≤ r := by
  rcases List.mem_iff_getElem.mp hr with ⟨j, hj, hget⟩
  rw [List.getElem_drop, List.getElem_range] at hget
  omega

theorem generateW_PackInv (RC : RCStream) (seed : Nat) (steps : Int) (w : W)
    (h : generateW RC seed steps = some w) : PackInv w.heap w.env.packages := by
  unfold generateW random_cells at h
  dsimp only at h
  have hGen : genInv ((List.range 4).foldl
      (fun st _ => genPackOuter RC st)
      (([] : Heap),
       ({ robots := (RC seed 2).2.map (fun p => ⟨p, 20, 0, none⟩), packages := [],
          charge_stations := [], seed := (RC seed 2).1, num_steps := steps } : Env))) := by
    refine foldl_genInv _ ?_ _ _ ?_
    · intro st a h2
      exact genPackOuter_inv RC st h2
    · exact ⟨rfl, by intro p hp; cases hp⟩
  generalize hst : (List.range 4).foldl (fun st _ => genPackOuter RC st)
      (([] : Heap),
       ({ robots := (RC seed 2).2.map (fun p => ⟨p, 20, 0, none⟩), packages := [],
          charge_stations := [], seed := (RC seed 2).1, num_steps := steps } : Env)) = st at h hGen
  obtain ⟨hpk, hfl⟩ := hGen
  rcases hq0 : st.2.packages.get? 0 with _ | r0 <;> rw [hq0] at h
  · cases h
  rcases hq1 : st.2.packages.get? 1 with _ | r1 <;> rw [hq1] at h
  · cases h
  dsimp only at h
  simp only [Option.some.injEq] at h
  subst h
  have hlen0 : 0 < st.1.length := by
    by_contra hc
    rw [hpk] at hq0
    have hnone : (List.range st.1.length).get? 0 = none :=
      List.get?_eq_none.mpr (by simp only [List.length_range]; omega)
    rw [hnone] at hq0
    cases hq0
  have hr0 : r0 = 0 := by
    rw [hpk] at hq0
    rw [List.get?_eq_getElem?, List.getElem?_range hlen0] at hq0
    injection hq0 with hq0
    omega
  have hlen1 : 1 < st.1.length := by
    by_contra hc
    rw [hpk] at hq1
    have hnone : (List.range st.1.length).get? 1 = none :=
      List.get?_eq_none.mpr (by simp only [List.length_range]; omega)
    rw [hnone] at hq1
    cases hq1
  have hr1 : r1 = 1 := by
    rw [hpk] at hq1
    rw [List.get?_eq_getElem?, List.getElem?_range hlen1] at hq1
    injection hq1 with hq1
    omega
  subst hr0
  subst hr1
  refine ⟨?_, ?_, ?_⟩
  · intro r hr
    dsimp only at hr ⊢
    rw [hpk] at hr
    simp only [heapSet, List.length_set]
    exact List.mem_range.mp hr
  · dsimp only
    rw [hpk]
    exact List.nodup_range _
  · intro r hr
    dsimp only at hr ⊢
    rw [hpk] at hr
    have hge : 2 ≤ r := mem_drop_range_ge _ _ _ hr
    have hrlt : r < st.1.length :=
      List.mem_range.mp (List.drop_subset 2 _ hr)
    rw [heapGet_set_ne _ _ _ _ (by omega), heapGet_set_ne _ _ _ _ (by omega)]
    exact hfl _ (heapGet_mem st.1 r hrlt)

theorem countOnBoard_le_two_of_PackInv (w : W)
    (hInv : PackInv w.heap w.env.packages) : countOnBoard w ≤ 2 := by
  unfold countOnBoard
  conv_lhs => rw [← List.take_append_drop 2 w.env.packages]
  rw [List.filter_append, List.length_append]
  have h2 : (w.env.packages.drop 2).filter (fun r => (heapGet w.heap r).on_board) = [] := by
    rw [List.filter_eq_nil_iff]
    intro r hr
    simp [hInv.2.2 r hr]
  rw [h2]
  simp only [List.length_nil, Nat.add_zero]
  exact le_trans (List.length_filter_le _ _) (List.length_take_le 2 _)

/-- C8, counterexample: load_from_map_data marks every supplied package
on_board, so a map with three packages starts with three on_board packages,
violating the bound at construction time. -/
theorem claim8_counterexample : countOnBoard wC8 = 3 ∧ ¬ countOnBoard wC8 ≤ 2 := by decide

/-- C8, amended: in every state reachable from generate by successful
apply_operator calls, at most two packages of the tracked list are
on_board (generate marks exactly the first two; pick up removes from the
front, drop off appends a not-on_board package and only flags slot 0 or 1).
Via load_from_map_data the bound fails, since it marks every package of the
map on_board. -/
theorem claim8_generate_onboard_bound (RC : RCStream) (w : W)
    (h : ReachableFromGenerate RC w) : countOnBoard w ≤ 2 := by
  have hInv : PackInv w.heap w.env.packages := by
    induction h with
    | gen seed steps w hg => exact generateW_PackInv RC seed steps w hg
    | step w i op w2 hre happ ih => exact apply_operator_PackInv RC w w2 i op happ ih
  exact countOnBoard_le_two_of_PackInv w hInv

/-- C8, witness: a freshly generated state is reachable and satisfies the
bound (it has exactly two on_board packages). -/
theorem claim8_witness :
    generateW rcTest 3 50 = some wC8gen ∧ countOnBoard wC8gen ≤ 2 :=
  ⟨by decide,
    claim8_generate_onboard_bound rcTest wC8gen
      (ReachableFromGenerate.gen 3 50 wC8gen (by decide))⟩

/-! ### Heuristic formula lemmas -/

theorem le_foldl_max (l : List ℚ) (m : ℚ) : m ≤ l.foldl max m := by
  induction l generalizing m with
  | nil => exact le_refl m
  | cons a t ih => exact le_trans (le_max_left m a) (ih (max m a))

theorem foldl_costMin_some (t : List ℚ) :
    ∀ x : ℚ, t.foldl costMin (some x) = some (t.foldl min x) := by
  induction t with
  | nil => intro x; rfl
  | cons a t ih => intro x; exact ih (min x a)

theorem foldl_costMin_none (l : List ℚ) : l.foldl costMin none = l.min? := by
  cases l with
  | nil => rfl
  | cons a t =>
      show t.foldl costMin (costMin none a) = _
      rw [show costMin none a = some a from rfl, foldl_costMin_some]
      rfl

theorem mvStep_lt {m : ℚ} {c : Option ℚ} {v : ℚ} {k : Nat} (h : m < v) :
    mvStep (m, c) v k = (v, some (k : ℚ)) := by
  unfold mvStep
  rw [if_pos h]

theorem mvStep_eq {m : ℚ} {c : Option ℚ} {k : Nat} :
    mvStep (m, c) m k = (m, costMin c (k : ℚ)) := by
  unfold mvStep
  rw [if_neg (lt_irrefl m), if_pos rfl]

theorem mvStep_gt {m : ℚ} {c : Option ℚ} {v : ℚ} {k : Nat} (h : v < m) :
    mvStep (m, c) v k = (m, c) := by
  unfold mvStep
  rw [if_neg (by exact not_lt_of_gt h), if_neg (by exact ne_of_lt h)]

theorem mvFold_char (l : List (ℚ × Nat)) : ∀ (m : ℚ) (c : Option ℚ),
    l.foldl (fun st vc => mvStep st vc.1 vc.2) (m, c) =
      ((l.map Prod.fst).foldl max m,
       ((l.filter (fun vc => decide (vc.1 = (l.map Prod.fst).foldl max m))).map
          (fun vc => (vc.2 : ℚ))).foldl costMin
         (if (l.map Prod.fst).foldl max m = m then c else none)) := by
  induction l with
  | nil =>
      intro m c
      simp
  | cons vc t ih =>
      intro m c
      simp only [List.foldl_cons, List.map_cons]
      rcases lt_trichotomy m vc.1 with hlt | heq | hgt
      · have hmax : max m vc.1 = vc.1 := max_eq_right (le_of_lt hlt)
        rw [mvStep_lt hlt, ih]
        simp only [hmax]
        have hMge : vc.1 ≤ (t.map Prod.fst).foldl max vc.1 := le_foldl_max _ _
        have hMne : ¬ (t.map Prod.fst).foldl max vc.1 = m := fun he =>
          absurd (lt_of_lt_of_le hlt hMge) (by rw [he]; exact lt_irrefl m)
        rw [if_neg hMne]
        by_cases hvcM : vc.1 = (t.map Prod.fst).foldl max vc.1
        · rw [List.filter_cons_of_pos (by simp only [decide_eq_true_eq]; exact hvcM),
            if_pos hvcM.symm]
          simp only [List.map_cons, List.foldl_cons]
          rfl
        · rw [List.filter_cons_of_neg (by simp only [decide_eq_true_eq]; exact hvcM),
            if_neg (fun he => hvcM he.symm)]
      · subst heq
        rw [mvStep_eq, ih]
        simp only [max_self]
        by_cases hMm : (t.map Prod.fst).foldl max vc.1 = vc.1
        · rw [List.filter_cons_of_pos (by simp only [decide_eq_true_eq]; exact hMm.symm),
            if_pos hMm, if_pos hMm]
          simp only [List.map_cons, List.foldl_cons]
        · rw [List.filter_cons_of_neg
              (by simp only [decide_eq_true_eq]; exact fun he => hMm he.symm),
            if_neg hMm, if_neg hMm]
      · have hmax : max m vc.1 = m := max_eq_left (le_of_lt hgt)
        rw [mvStep_gt hgt, ih]
        simp only [hmax]
        have hMge : m ≤ (t.map Prod.fst).foldl max m := le_foldl_max _ _
        have hvcM : ¬ vc.1 = (t.map Prod.fst).foldl max m := fun he =>
          absurd (lt_of_lt_of_le hgt hMge) (by rw [← he]; exact lt_irrefl vc.1)
        rw [List.filter_cons_of_neg (by simp only [decide_eq_true_eq]; exact hvcM)]

theorem get_max_package_value_eq (h : Heap) (e : Env) (robot opponent : Robot) :
    get_max_package_value h e robot opponent =
      (specOpportunity (mvCandidates h e robot opponent),
       specBestCost (mvCandidates h e robot opponent)) := by
  have hfilter : ∀ (l : List Nat) (st : ℚ × Option ℚ),
      l.foldl (fun st pr =>
        if (heapGet h pr).on_board &&
            is_package_available h robot pr opponent ((e.num_steps + 1).fdiv 2) then
          mvStep st (get_reward (heapGet h pr) / (get_cost h robot pr : ℚ))
            (get_cost h robot pr)
        else st) st =
      ((l.filter (fun pr => (heapGet h pr).on_board &&
          is_package_available h robot pr opponent ((e.num_steps + 1).fdiv 2))).map
        (fun pr => (get_reward (heapGet h pr) / (get_cost h robot pr : ℚ),
          get_cost h robot pr))).foldl (fun st vc => mvStep st vc.1 vc.2) st := by
    intro l
    induction l with
    | nil => intro st; rfl
    | cons pr t iht =>
        intro st
        simp only [List.foldl_cons, List.filter_cons]
        by_cases hp : ((heapGet h pr).on_board &&
            is_package_available h robot pr opponent ((e.num_steps + 1).fdiv 2)) = true
        · rw [if_pos hp, if_pos hp]
          simp only [List.map_cons, List.foldl_cons]
          exact iht _
        · rw [if_neg hp, if_neg hp]
          exact iht _
  have hmain : get_max_package_value h e robot opponent =
      (mvCandidates h e robot opponent).foldl (fun st vc => mvStep st vc.1 vc.2)
        ((0 : ℚ), (none : Option ℚ)) := by
    unfold get_max_package_value mvCandidates
    dsimp only
    rw [hfilter]
    rw [List.foldl_append]
    rcases hpk : robot.package with _ | pr
    · rfl
    · dsimp only
      split_ifs with hcnd
      · simp only [List.foldl_cons, List.foldl_nil]
      · rfl
  rw [hmain, mvFold_char]
  simp only [specOpportunity, specBestCost]
  rw [ite_self, foldl_costMin_none]

/-- C2, counterexample: a robot with battery 0 standing on a charge station
with positive credit has legal operators [park, charge], not exactly [park],
so get_legal_operators is not the one-element list the claim demands. -/
theorem claim2_counterexample :
    (getRobotD wC2.env 0).battery = 0 ∧
      get_legal_operators wC2.heap wC2.env 0 = ["park", "charge"] ∧
      get_legal_operators wC2.heap wC2.env 0 ≠ ["park"] := by decide

/-- C2, amended: with battery 0 the operator park is always legal and no
movement operator is legal, but charge, drop off and pick up may still be
offered when their own conditions hold (the battery gate only guards the
movement block). -/
theorem claim2_battery_zero_amended (h : Heap) (e : Env) (i : Nat)
    (hb : (getRobotD e i).battery = 0) :
    "park" ∈ get_legal_operators h e i ∧
      ∀ md ∈ moveTable, md.1 ∉ get_legal_operators h e i := by
  have hb' : ¬ (0 < (getRobotD e i).battery) := by rw [hb]; exact lt_irrefl 0
  simp only [get_legal_operators, if_neg hb']
  split_ifs <;> decide

/-- C2, witness for the amended theorem at the concrete stranded state. -/
theorem claim2_witness :
    (getRobotD wC2.env 0).battery = 0 ∧
      ("park" ∈ get_legal_operators wC2.heap wC2.env 0 ∧
        ∀ md ∈ moveTable, md.1 ∉ get_legal_operators wC2.heap wC2.env 0) :=
  ⟨by decide, claim2_battery_zero_amended wC2.heap wC2.env 0 (by decide)⟩

/-- C4, counterexample: in the scenario of the claim the final battery of
robot 0 is 3, not 2 (only the two movement operators cost battery; pick up
and drop off are free). -/
theorem claim4_counterexample :
    (applySeq rcTest wC4 seqC4).map (fun w => (getRobotD w.env 0).battery) = some 3 ∧
      (3 : Int) ≠ 2 := by decide

/-- C4, amended: the scenario ends with robot 0 at credit 2, robot 1 at
credit -2 and robot 0 at battery 3 (the two movements cost one battery
each; the claimed final battery 2 is off by one). -/
theorem claim4_scenario_amended :
    applySeq rcTest wC4 seqC4 = some wC4out ∧
      (getRobotD wC4out.env 0).credit = 2 ∧
      (getRobotD wC4out.env 1).credit = -2 ∧
      (getRobotD wC4out.env 0).battery = 3 := by decide

/-- C9: smart_heuristic is exactly the weighted sum
10*opportunity_self - 10*opportunity_opp + 10*credit_diff
+ battery_adv_self - battery_adv_opp + 3*proximity_self - 1*proximity_opp
+ 3*carrying_self - 1*carrying_opp, where opportunity is the maximum
reward/cost over the available packages (on-board ones and the carried
one), proximity is the negated cost of the best opportunity (0 when none
exists), battery advantage is battery minus the distance to the nearest
charge station, and the carrying bonus is the negated manhattan distance
to the carried destination (0 when not carrying). -/
theorem claim9_smart_heuristic_formula (hp : Heap) (e : Env) (robot_id : Nat)
    (dMe dOpp : Nat)
    (hdMe : get_min_charge_distance e (getRobotD e robot_id) = some dMe)
    (hdOpp : get_min_charge_distance e (getRobotD e ((robot_id + 1) % 2)) = some dOpp) :
    smart_heuristic hp e robot_id =
      some (10 * specOpportunity (mvCandidates hp e (getRobotD e robot_id)
              (getRobotD e ((robot_id + 1) % 2)))
        - 10 * specOpportunity (mvCandidates hp e (getRobotD e ((robot_id + 1) % 2))
              (getRobotD e robot_id))
        + 10 * (((getRobotD e robot_id).credit -
              (getRobotD e ((robot_id + 1) % 2)).credit : Int) : ℚ)
        + (((getRobotD e robot_id).battery - (dMe : Int) : Int) : ℚ)
        - (((getRobotD e ((robot_id + 1) % 2)).battery - (dOpp : Int) : Int) : ℚ)
        + 3 * specProximity (mvCandidates hp e (getRobotD e robot_id)
              (getRobotD e ((robot_id + 1) % 2)))
        - 1 * specProximity (mvCandidates hp e (getRobotD e ((robot_id + 1) % 2))
              (getRobotD e robot_id))
        + 3 * specCarryBonus hp (getRobotD e robot_id)
        - 1 * specCarryBonus hp (getRobotD e ((robot_id + 1) % 2))) := by
  unfold smart_heuristic
  simp only [get_max_package_value_eq, hdMe, hdOpp, specProximity, specCarryBonus]

/-- C9, witness: the formula at the concrete scenario state for robot 0
(nearest charge station at distance 6 for robot 0, 2 for robot 1). -/
theorem claim9_witness :
    get_min_charge_distance wC4.env (getRobotD wC4.env 0) = some 6 ∧
      get_min_charge_distance wC4.env (getRobotD wC4.env ((0 + 1) % 2)) = some 2 ∧
      smart_heuristic wC4.heap wC4.env 0 =
        some (10 * specOpportunity (mvCandidates wC4.heap wC4.env (getRobotD wC4.env 0)
                (getRobotD wC4.env ((0 + 1) % 2)))
          - 10 * specOpportunity (mvCandidates wC4.heap wC4.env
                (getRobotD wC4.env ((0 + 1) % 2)) (getRobotD wC4.env 0))
          + 10 * (((getRobotD wC4.env 0).credit -
                (getRobotD wC4.env ((0 + 1) % 2)).credit : Int) : ℚ)
          + (((getRobotD wC4.env 0).battery - (6 : Int) : Int) : ℚ)
          - (((getRobotD wC4.env ((0 + 1) % 2)).battery - (2 : Int) : Int) : ℚ)
          + 3 * specProximity (mvCandidates wC4.heap wC4.env (getRobotD wC4.env 0)
                (getRobotD wC4.env ((0 + 1) % 2)))
          - 1 * specProximity (mvCandidates wC4.heap wC4.env
                (getRobotD wC4.env ((0 + 1) % 2)) (getRobotD wC4.env 0))
          + 3 * specCarryBonus wC4.heap (getRobotD wC4.env 0)
          - 1 * specCarryBonus wC4.heap (getRobotD wC4.env ((0 + 1) % 2))) :=
  ⟨by decide, by decide,
    claim9_smart_heuristic_formula wC4.heap wC4.env 0 6 2 (by decide) (by decide)⟩

/-! ### Run-step soundness: clock, order and state helpers -/

theorem tick_fst_false {t : Timer} (h : t ≠ some 0) : (tick t).1 = false := by
  match t with
  | none => rfl
  | some 0 => exact absurd rfl h
  | some (k + 1) => rfl

theorem tick_fired : tick (some 0) = (true, some 0) := rfl

theorem xbot_lt_fin (q : ℚ) : XVal.bot < XVal.fin q := by
  show XVal.toW XVal.bot < XVal.toW (XVal.fin q)
  exact WithBot.bot_lt_coe _

theorem xfin_lt_top (q : ℚ) : XVal.fin q < XVal.top := by
  show XVal.toW (XVal.fin q) < XVal.toW XVal.top
  exact WithBot.coe_lt_coe.mpr (WithTop.coe_lt_top q)

theorem robots_get?_wf {e : Env} (i : Nat) (hlen : e.robots.length = 2) (hi : i < 2) :
    e.robots.get? i = some (getRobotD e i) := by
  have hlt : i < e.robots.length := by omega
  rw [List.get?_eq_getElem?, List.getElem?_eq_getElem hlt]
  unfold getRobotD
  rw [List.getD_eq_getElem?_getD, List.getElem?_eq_getElem hlt]
  rfl

theorem getRobotD_mem {e : Env} {i : Nat} (hi : i < e.robots.length) :
    getRobotD e i ∈ e.robots := by
  unfold getRobotD
  rw [List.getD_eq_getElem?_getD, List.getElem?_eq_getElem hi]
  exact List.getElem_mem hi

theorem get_robot_in_occupied {e : Env} {c : Cell}
    (h : get_robot_in e c ≠ none) : ∃ rr ∈ e.robots, rr.position = c := by
  unfold get_robot_in at h
  rcases hf : e.robots.filter (fun r => decide (r.position = c)) with _ | ⟨rr, tl⟩
  · rw [hf] at h
    exact absurd rfl h
  · have hm : rr ∈ e.robots.filter (fun r => decide (r.position = c)) := by
      rw [hf]
      exact List.mem_cons_self _ _
    rw [List.mem_filter] at hm
    exact ⟨rr, hm.1, of_decide_eq_true hm.2⟩

theorem moveBlock_cond {e : Env} {pos : Cell} {md : String × Cell} (hmd : md ∈ moveTable)
    (hmem : md.1 ∈ moveBlock e pos) :
    pos.1 + md.2.1 < board_size ∧ 0 ≤ pos.1 + md.2.1 ∧ pos.2 + md.2.2 < board_size ∧
      0 ≤ pos.2 + md.2.2 ∧ get_robot_in e (pos.1 + md.2.1, pos.2 + md.2.2) = none := by
  rcases List.mem_filterMap.mp hmem with ⟨md', hmd', hf⟩
  rcases Option.ite_none_right_eq_some.mp hf with ⟨hcond, heq⟩
  injection heq with heq
  have hsame : md' = md := by
    simp only [moveTable, List.mem_cons, List.not_mem_nil, or_false] at hmd hmd'
    rcases hmd with rfl | rfl | rfl | rfl <;> rcases hmd' with rfl | rfl | rfl | rfl <;>
      first
        | rfl
        | exact absurd heq (by decide)
  subst hsame
  exact hcond

theorem two_robot_free_neighbor (e : Env) (r0 r1 : Robot) (hrs : e.robots = [r0, r1])
    (pos cH cV : Cell) (hpos : pos = r0.position ∨ pos = r1.position)
    (hH : ∃ rr ∈ e.robots, rr.position = cH) (hV : ∃ rr ∈ e.robots, rr.position = cV)
    (hne1 : cH ≠ pos) (hne2 : cV ≠ pos) (hne3 : cH ≠ cV) : False := by
  have hkey : ∀ c : Cell, (∃ rr ∈ e.robots, rr.position = c) →
      c = r0.position ∨ c = r1.position := by
    rintro c ⟨rr, hm, hp⟩
    rw [hrs] at hm
    simp only [List.mem_cons, List.not_mem_nil, or_false] at hm
    rcases hm with rfl | rfl
    · exact Or.inl hp.symm
    · exact Or.inr hp.symm
  have hCH := hkey cH hH
  have hCV := hkey cV hV
  rcases hpos with h | h <;> rcases hCH with e1 | e1 <;> rcases hCV with e2 | e2 <;>
    first
      | exact hne1 (e1.trans h.symm)
      | exact hne2 (e2.trans h.symm)
      | exact hne3 (e1.trans e2.symm)

theorem moveBlock_ne_nil (e : Env) (r0 r1 : Robot) (hrs : e.robots = [r0, r1])
    (pos : Cell) (hpos : pos = r0.position ∨ pos = r1.position)
    (hin : inBoundsB pos = true) : moveBlock e pos ≠ [] := by
  intro hemp
  unfold moveBlock at hemp
  rw [List.filterMap_eq_nil_iff] at hemp
  simp only [inBoundsB, board_size, Bool.and_eq_true, decide_eq_true_eq] at hin
  obtain ⟨⟨⟨hx0, hx5⟩, hy0⟩, hy5⟩ := hin
  have hocc : ∀ (s : String) (dx dy : Int), (s, (dx, dy)) ∈ moveTable →
      pos.1 + dx < board_size → 0 ≤ pos.1 + dx →
      pos.2 + dy < board_size → 0 ≤ pos.2 + dy →
      ∃ rr ∈ e.robots, rr.position = (pos.1 + dx, pos.2 + dy) := by
    intro s dx dy hmd hb1 hb2 hb3 hb4
    rcases hg : get_robot_in e (pos.1 + dx, pos.2 + dy) with _ | rr
    · exfalso
      have h' := hemp (s, (dx, dy)) hmd
      rw [if_pos ⟨hb1, hb2, hb3, hb4, hg⟩] at h'
      cases h'
    · exact get_robot_in_occupied (by rw [hg]; exact fun hc => Option.noConfusion hc)
  have hbs : board_size = (5 : Int) := rfl
  by_cases hxe : pos.1 + 1 < 5
  · have hH := hocc "move east" 1 0 (by decide) (by rw [hbs]; exact hxe)
      (by omega) (by rw [hbs]; omega) (by omega)
    by_cases hys : pos.2 + 1 < 5
    · have hV := hocc "move south" 0 1 (by decide) (by rw [hbs]; omega)
        (by omega) (by rw [hbs]; exact hys) (by omega)
      exact two_robot_free_neighbor e r0 r1 hrs pos _ _ hpos hH hV
        (by intro hc; have h1 := congrArg Prod.fst hc; dsimp only at h1; omega)
        (by intro hc; have h1 := congrArg Prod.snd hc; dsimp only at h1; omega)
        (by intro hc; have h1 := congrArg Prod.fst hc; dsimp only at h1; omega)
    · have hV := hocc "move north" 0 (-1) (by decide) (by rw [hbs]; omega)
        (by omega) (by rw [hbs]; omega) (by omega)
      exact two_robot_free_neighbor e r0 r1 hrs pos _ _ hpos hH hV
        (by intro hc; have h1 := congrArg Prod.fst hc; dsimp only at h1; omega)
        (by intro hc; have h1 := congrArg Prod.snd hc; dsimp only at h1; omega)
        (by intro hc; have h1 := congrArg Prod.fst hc; dsimp only at h1; omega)
  · have hH := hocc "move west" (-1) 0 (by decide) (by rw [hbs]; omega)
      (by omega) (by rw [hbs]; omega) (by omega)
    by_cases hys : pos.2 + 1 < 5
    · have hV := hocc "move south" 0 1 (by decide) (by rw [hbs]; omega)
        (by omega) (by rw [hbs]; exact hys) (by omega)
      exact two_robot_free_neighbor e r0 r1 hrs pos _ _ hpos hH hV
        (by intro hc; have h1 := congrArg Prod.fst hc; dsimp only at h1; omega)
        (by intro hc; have h1 := congrArg Prod.snd hc; dsimp only at h1; omega)
        (by intro hc; have h1 := congrArg Prod.fst hc; dsimp only at h1; omega)
    · have hV := hocc "move north" 0 (-1) (by decide) (by rw [hbs]; omega)
        (by omega) (by rw [hbs]; omega) (by omega)
      exact two_robot_free_neighbor e r0 r1 hrs pos _ _ hpos hH hV
        (by intro hc; have h1 := congrArg Prod.fst hc; dsimp only at h1; omega)
        (by intro hc; have h1 := congrArg Prod.snd hc; dsimp only at h1; omega)
        (by intro hc; have h1 := congrArg Prod.fst hc; dsimp only at h1; omega)

theorem legal_nonempty (h : Heap) (e : Env) (i : Nat)
    (hlen : e.robots.length = 2)
    (hin : ∀ r ∈ e.robots, inBoundsB r.position = true) :
    get_legal_operators h e i ≠ [] := by
  intro hemp
  simp only [get_legal_operators] at hemp
  have h1 := (List.append_eq_nil.mp
    (List.append_eq_nil.mp (List.append_eq_nil.mp hemp).1).1).1
  by_cases hb : 0 < (getRobotD e i).battery
  · rw [if_pos hb] at h1
    have hi : i < e.robots.length := by
      by_contra hc
      push_neg at hc
      unfold getRobotD at hb
      rw [List.getD_eq_getElem?_getD, List.getElem?_eq_none (by omega)] at hb
      exact absurd hb (by decide)
    obtain ⟨r0, r1, he⟩ : ∃ r0 r1, e.robots = [r0, r1] := by
      rcases hx : e.robots with _ | ⟨a, _ | ⟨b, _ | ⟨c, t⟩⟩⟩ <;> rw [hx] at hlen <;>
        first
          | exact ⟨a, b, rfl⟩
          | simp at hlen
    have hi2 : i < 2 := by
      rw [he] at hi
      simpa using hi
    have hpos : (getRobotD e i).position = r0.position ∨
        (getRobotD e i).position = r1.position := by
      rcases (by omega : i = 0 ∨ i = 1) with rfl | rfl
      · left
        unfold getRobotD
        rw [he]
        rfl
      · right
        unfold getRobotD
        rw [he]
        rfl
    exact moveBlock_ne_nil e r0 r1 he _ hpos
      (hin _ (getRobotD_mem hi)) h1
  · rw [if_neg hb] at h1
    cases h1

theorem mem_legal_allOps (h : Heap) (e : Env) (i : Nat) (op : String)
    (hm : op ∈ get_legal_operators h e i) : op ∈ allOps := by
  rcases (mem_legal_iff h e i op).mp hm with hx | hx | hx | hx
  · split_ifs at hx
    · rcases mem_moveBlock_names _ _ _ hx with rfl | rfl | rfl | rfl <;> decide
    · simp only [List.mem_singleton] at hx
      subst hx
      decide
  · split_ifs at hx
    · simp only [List.mem_singleton] at hx
      subst hx
      decide
    · simp at hx
  · split_ifs at hx
    · simp only [List.mem_singleton] at hx
      subst hx
      decide
    · simp at hx
  · split_ifs at hx
    · simp only [List.mem_singleton] at hx
      subst hx
      decide
    · simp at hx

theorem smart_heuristic_isSome (h : Heap) (e : Env) (rid : Nat)
    (hcs : e.charge_stations ≠ []) : ∃ q, smart_heuristic h e rid = some q := by
  rcases hx : e.charge_stations with _ | ⟨c, t⟩
  · exact absurd hx hcs
  unfold smart_heuristic get_min_charge_distance
  rw [hx]
  exact ⟨_, rfl⟩

/-! ### Clone transfer and well-formedness preservation -/

theorem heapGet_append_add (h : Heap) (ps : List Package) (k : Nat) :
    heapGet (h ++ ps) (h.length + k) = ps.getD k ⟨(0, 0), (0, 0), false⟩ := by
  unfold heapGet
  rw [List.getD_eq_getElem?_getD, List.getD_eq_getElem?_getD,
    List.getElem?_append_right (Nat.le_add_right _ _), Nat.add_sub_cancel_left]

theorem getRobotD_package_valid {w : W} (i : Nat)
    (hrb : ∀ r ∈ w.env.robots, ∀ pr, r.package = some pr → pr < w.heap.length) :
    ∀ pr, (getRobotD w.env i).package = some pr → pr < w.heap.length := by
  intro pr hpr
  by_cases hi : i < w.env.robots.length
  · exact hrb _ (getRobotD_mem hi) pr hpr
  · unfold getRobotD at hpr
    rw [List.getD_eq_getElem?_getD, List.getElem?_eq_none (by omega)] at hpr
    cases hpr

theorem clone_dropoffCond (w : W) (robot : Robot)
    (hval : ∀ pr, robot.package = some pr → pr < w.heap.length) :
    dropoffCond (clone w).heap robot = dropoffCond w.heap robot := by
  unfold dropoffCond
  rcases hp : robot.package with _ | pr
  · rfl
  · show decide ((heapGet (w.heap ++ w.env.packages.map (heapGet w.heap)) pr).destination =
        robot.position) = _
    rw [heapGet_append_lt _ _ _ (hval pr hp)]

theorem clone_pickupCond (w : W) (robot : Robot)
    (_hpk : ∀ pr ∈ w.env.packages, pr < w.heap.length) :
    pickupCond (clone w).heap (clone w).env robot = pickupCond w.heap w.env robot := by
  have hcp : (clone w).heap = w.heap ++ w.env.packages.map (heapGet w.heap) := rfl
  have hcpk : (clone w).env.packages =
      (List.range w.env.packages.length).map (fun k => w.heap.length + k) := rfl
  unfold pickupCond get_package_in
  rw [hcp, hcpk]
  rcases hps : w.env.packages with _ | ⟨p0, tl⟩
  · rfl
  rcases tl with _ | ⟨p1, tl2⟩
  · have hg0z : heapGet (w.heap ++ [heapGet w.heap p0]) w.heap.length =
        heapGet w.heap p0 := heapGet_append_self _ _
    simp only [List.length_cons, List.length_nil, List.map_cons, List.map_nil]
    cases hb0 : decide ((heapGet w.heap p0).position = robot.position) <;>
      simp [List.filter, List.range_succ, hg0z, hb0]
  · have hg0z : heapGet (w.heap ++
        (heapGet w.heap p0 :: heapGet w.heap p1 :: tl2.map (heapGet w.heap)))
        w.heap.length = heapGet w.heap p0 := by
      rw [← Nat.add_zero w.heap.length, heapGet_append_add]
      rfl
    have hg1 : heapGet (w.heap ++
        (heapGet w.heap p0 :: heapGet w.heap p1 :: tl2.map (heapGet w.heap)))
        (w.heap.length + 1) = heapGet w.heap p1 := by
      rw [heapGet_append_add]
      rfl
    have htk : ((List.range (p0 :: p1 :: tl2).length).map
        (fun k => w.heap.length + k)).take 2 = [w.heap.length, w.heap.length + 1] := by
      rw [← List.map_take, List.length_cons, List.length_cons,
        List.range_succ_eq_map, List.range_succ_eq_map]
      simp
    rw [htk]
    cases hb0 : decide ((heapGet w.heap p0).position = robot.position) <;>
      cases hb1 : decide ((heapGet w.heap p1).position = robot.position) <;>
      simp [List.filter, hg0z, hg1, hb0, hb1]

theorem clone_legal_eq (w : W) (i : Nat)
    (hpk : ∀ pr ∈ w.env.packages, pr < w.heap.length)
    (hrb : ∀ r ∈ w.env.robots, ∀ pr, r.package = some pr → pr < w.heap.length) :
    get_legal_operators (clone w).heap (clone w).env i =
      get_legal_operators w.heap w.env i := by
  have hrob : getRobotD (clone w).env i = getRobotD w.env i := rfl
  unfold get_legal_operators
  rw [hrob]
  dsimp only
  have h1 : moveBlock (clone w).env (getRobotD w.env i).position =
      moveBlock w.env (getRobotD w.env i).position := rfl
  have h2 : get_charge_station_in (clone w).env (getRobotD w.env i).position =
      get_charge_station_in w.env (getRobotD w.env i).position := rfl
  have h3 := clone_dropoffCond w (getRobotD w.env i) (getRobotD_package_valid i hrb)
  have h4 := clone_pickupCond w (getRobotD w.env i) hpk
  rw [h1, h2, h3, h4]

theorem clone_WfW (w : W) (hwf : WfW w) : WfW (clone w) := by
  obtain ⟨hlen, hin, hcs, hpk, hrb⟩ := hwf
  have hclen : (clone w).heap.length = w.heap.length + w.env.packages.length := by
    show (w.heap ++ _).length = _
    rw [List.length_append, List.length_map]
  refine ⟨hlen, hin, hcs, ?_, ?_⟩
  · intro pr hpr
    have hpks : (clone w).env.packages =
        (List.range w.env.packages.length).map (fun k => w.heap.length + k) := rfl
    rw [hpks] at hpr
    rcases List.mem_map.mp hpr with ⟨k, hk, rfl⟩
    have hk2 := List.mem_range.mp hk
    omega
  · intro r hr pr hpr
    have h1 : pr < w.heap.length := hrb r hr pr hpr
    omega

theorem dropoff_respawn_heap_len (RC : RCStream) (w : W) (i : Nat) (w4 : W)
    (h : dropoff_respawn RC w i = some w4) :
    w4.heap.length = w.heap.length + 1 := by
  unfold dropoff_respawn spawn_package random_cells at h
  dsimp only at h
  rcases hrc : (RC w.env.seed 2).2 with _ | ⟨c0, _ | ⟨c1, rest⟩⟩ <;> rw [hrc] at h
  · simp at h
  · simp at h
  · simp only [] at h
    rcases hq0 : (w.env.packages ++ [w.heap.length]).get? 0 with _ | q0 <;> rw [hq0] at h
    · simp at h
    · dsimp only at h
      split_ifs at h with hob
      · dsimp only at h
        simp only [Option.some.injEq] at h
        subst h
        simp [heapSet]
      · rcases hq1 : (w.env.packages ++ [w.heap.length]).get? 1 with _ | q1 <;> rw [hq1] at h
        · simp at h
        · dsimp only at h
          simp only [Option.some.injEq] at h
          subst h
          simp [heapSet]

theorem dropoff_respawn_WfW (RC : RCStream) (w : W) (i : Nat) (w4 : W)
    (h : dropoff_respawn RC w i = some w4)
    (hlen : w.env.robots.length = 2)
    (hin : ∀ r ∈ w.env.robots, inBoundsB r.position = true)
    (hcs : w.env.charge_stations ≠ [])
    (hpk : ∀ pr ∈ w.env.packages, pr < w.heap.length)
    (hrb : ∀ r ∈ w.env.robots, ∀ pr, r.package = some pr → pr < w.heap.length) :
    WfW w4 := by
  obtain ⟨hrob, hpack, hst, hseed, hchg⟩ := dropoff_respawn_parts RC w i w4 h
  have hhl := dropoff_respawn_heap_len RC w i w4 h
  refine ⟨?_, ?_, ?_, ?_, ?_⟩
  · rw [hrob, List.length_set, hlen]
  · intro r hr
    rw [hrob] at hr
    rcases List.mem_or_eq_of_mem_set hr with hm | rfl
    · exact hin r hm
    · show inBoundsB (getRobotD w.env i).position = true
      by_cases hi : i < w.env.robots.length
      · exact hin _ (getRobotD_mem hi)
      · unfold getRobotD
        rw [List.getD_eq_getElem?_getD, List.getElem?_eq_none (by omega)]
        decide
  · rw [hchg]
    exact hcs
  · intro pr hpr
    rw [hpack] at hpr
    rcases List.mem_append.mp hpr with hm | hm
    · have := hpk pr hm
      omega
    · simp only [List.mem_singleton] at hm
      omega
  · intro r hr pr hpr
    rw [hrob] at hr
    rcases List.mem_or_eq_of_mem_set hr with hm | rfl
    · have := hrb r hm pr hpr
      omega
    · cases hpr

theorem get_package_in_mem {h : Heap} {e : Env} {pos : Cell} {r : Nat}
    (hg : get_package_in h e pos = some r) : r ∈ e.packages := by
  unfold get_package_in at hg
  rcases hf : (e.packages.take 2).filter
      (fun r => decide ((heapGet h r).position = pos)) with _ | ⟨a, tl⟩ <;>
    rw [hf] at hg
  · cases hg
  · injection hg with hg
    have hm : a ∈ (e.packages.take 2).filter
        (fun r => decide ((heapGet h r).position = pos)) := by
      rw [hf]
      exact List.mem_cons_self _ _
    have hmem := List.take_subset _ _ (List.mem_filter.mp hm).1
    rwa [hg] at hmem

theorem move_WfW (w : W) (i : Nat) (robot : Robot) (dx dy : Int)
    (hgi : w.env.robots.get? i = some robot)
    (hlen : w.env.robots.length = 2)
    (hin : ∀ r ∈ w.env.robots, inBoundsB r.position = true)
    (hcs : w.env.charge_stations ≠ [])
    (hpk : ∀ pr ∈ w.env.packages, pr < w.heap.length)
    (hrb : ∀ r ∈ w.env.robots, ∀ pr, r.package = some pr → pr < w.heap.length)
    (hb1 : robot.position.1 + dx < board_size) (hb2 : 0 ≤ robot.position.1 + dx)
    (hb3 : robot.position.2 + dy < board_size) (hb4 : 0 ≤ robot.position.2 + dy) :
    WfW ⟨w.heap, move_robot { w.env with num_steps := w.env.num_steps - 1 } i (dx, dy)⟩ := by
  have hrmem : robot ∈ w.env.robots := List.get?_mem hgi
  have hrob : getRobotD { w.env with num_steps := w.env.num_steps - 1 } i = robot :=
    getRobotD_of_get? hgi
  unfold move_robot
  dsimp only
  rw [hrob]
  refine ⟨?_, ?_, hcs, hpk, ?_⟩
  · simp only [List.length_set]
    exact hlen
  · intro r hr
    rcases List.mem_or_eq_of_mem_set hr with hmm | rfl
    · exact hin r hmm
    · simp only [inBoundsB, Bool.and_eq_true, decide_eq_true_eq]
      exact ⟨⟨⟨hb2, hb1⟩, hb4⟩, hb3⟩
  · intro r hr pr hpr
    rcases List.mem_or_eq_of_mem_set hr with hmm | rfl
    · exact hrb r hmm pr hpr
    · exact hrb robot hrmem pr hpr

/-- apply_operator preserves well-formedness: the robot count, the in-bounds
positions (movement is filtered by the board bounds), the charge stations and
the validity of every package reference. -/
theorem apply_operator_WfW (RC : RCStream) (w w2 : W) (i : Nat) (op : String)
    (happ : apply_operator RC w i op = some w2) (hwf : WfW w) : WfW w2 := by
  obtain ⟨hlen, hin, hcs, hpk, hrb⟩ := hwf
  unfold apply_operator at happ
  dsimp only at happ
  rcases hgi : w.env.robots.get? i with _ | robot <;> rw [hgi] at happ
  · cases happ
  rcases hgo : w.env.robots.get? ((i + 1) % 2) with _ | other <;> rw [hgo] at happ
  · cases happ
  dsimp only at happ
  by_cases hcond : (op ∈ get_legal_operators w.heap
      ({ robots := w.env.robots, packages := w.env.packages,
         charge_stations := w.env.charge_stations, seed := w.env.seed,
         num_steps := w.env.num_steps - 1 } : Env) i ∧ ¬ w.env.num_steps - 1 < 0)
  case neg =>
    rw [if_neg hcond] at happ
    cases happ
  rw [if_pos hcond] at happ
  have hrmem : robot ∈ w.env.robots := List.get?_mem hgi
  have homem : other ∈ w.env.robots := List.get?_mem hgo
  have hrob : getRobotD w.env i = robot := getRobotD_of_get? hgi
  have hleg : op ∈ get_legal_operators w.heap w.env i := hcond.1
  rcases (mem_legal_iff w.heap w.env i op).mp hleg with hm | hm | hm | hm
  · split_ifs at hm with hbat
    · rw [hrob] at hm
      rcases mem_moveBlock_names _ _ _ hm with rfl | rfl | rfl | rfl
      · rw [if_neg (by decide), if_pos rfl] at happ
        simp only [Option.some.injEq] at happ
        subst happ
        have hc := @moveBlock_cond w.env robot.position ("move north", (0, -1))
          (by decide) hm
        exact move_WfW w i robot 0 (-1) hgi hlen hin hcs hpk hrb
          hc.1 hc.2.1 hc.2.2.1 hc.2.2.2.1
      · rw [if_neg (by decide), if_neg (by decide), if_pos rfl] at happ
        simp only [Option.some.injEq] at happ
        subst happ
        have hc := @moveBlock_cond w.env robot.position ("move south", (0, 1))
          (by decide) hm
        exact move_WfW w i robot 0 1 hgi hlen hin hcs hpk hrb
          hc.1 hc.2.1 hc.2.2.1 hc.2.2.2.1
      · rw [if_neg (by decide), if_neg (by decide), if_neg (by decide), if_neg (by decide),
          if_pos rfl] at happ
        simp only [Option.some.injEq] at happ
        subst happ
        have hc := @moveBlock_cond w.env robot.position ("move west", (-1, 0))
          (by decide) hm
        exact move_WfW w i robot (-1) 0 hgi hlen hin hcs hpk hrb
          hc.1 hc.2.1 hc.2.2.1 hc.2.2.2.1
      · rw [if_neg (by decide), if_neg (by decide), if_neg (by decide), if_pos rfl] at happ
        simp only [Option.some.injEq] at happ
        subst happ
        have hc := @moveBlock_cond w.env robot.position ("move east", (1, 0))
          (by decide) hm
        exact move_WfW w i robot 1 0 hgi hlen hin hcs hpk hrb
          hc.1 hc.2.1 hc.2.2.1 hc.2.2.2.1
    · simp only [List.mem_singleton] at hm
      subst hm
      rw [if_pos rfl] at happ
      simp only [Option.some.injEq] at happ
      subst happ
      exact ⟨hlen, hin, hcs, hpk, hrb⟩
  · split_ifs at hm with hch
    · simp only [List.mem_singleton] at hm
      subst hm
      rw [if_neg (by decide), if_neg (by decide), if_neg (by decide), if_neg (by decide),
        if_neg (by decide), if_neg (by decide), if_pos rfl] at happ
      simp only [Option.some.injEq] at happ
      subst happ
      refine ⟨?_, ?_, hcs, hpk, ?_⟩
      · simp only [List.length_set]
        exact hlen
      · intro r hr
        rcases List.mem_or_eq_of_mem_set hr with hmm | rfl
        · exact hin r hmm
        · exact hin robot hrmem
      · intro r hr pr hpr
        rcases List.mem_or_eq_of_mem_set hr with hmm | rfl
        · exact hrb r hmm pr hpr
        · exact hrb robot hrmem pr hpr
    · simp at hm
  · split_ifs at hm with hdr
    · simp only [List.mem_singleton] at hm
      subst hm
      rw [if_neg (by decide), if_neg (by decide), if_neg (by decide), if_neg (by decide),
        if_neg (by decide), if_neg (by decide), if_neg (by decide), if_pos rfl] at happ
      rcases hpkg : robot.package with _ | pr <;> rw [hpkg] at happ
      · cases happ
      · dsimp only at happ
        refine dropoff_respawn_WfW RC _ i w2 happ ?_ ?_ hcs hpk ?_
        · simp only [List.length_set]
          exact hlen
        · intro r hr
          rcases List.mem_or_eq_of_mem_set hr with hmm | rfl
          · rcases List.mem_or_eq_of_mem_set hmm with hmm2 | rfl
            · exact hin r hmm2
            · exact hin robot hrmem
          · exact hin other homem
        · intro r hr pr2 hpr2
          rcases List.mem_or_eq_of_mem_set hr with hmm | rfl
          · rcases List.mem_or_eq_of_mem_set hmm with hmm2 | rfl
            · exact hrb r hmm2 pr2 hpr2
            · have hpr2e : pr = pr2 := by injection hpr2
              subst hpr2e
              exact hrb robot hrmem pr hpkg
          · exact hrb other homem pr2 hpr2
    · simp at hm
  · split_ifs at hm with hpu
    · simp only [List.mem_singleton] at hm
      subst hm
      rw [if_neg (by decide), if_neg (by decide), if_neg (by decide), if_neg (by decide),
        if_neg (by decide), if_pos rfl] at happ
      rcases hg : get_package_in w.heap
          { w.env with num_steps := w.env.num_steps - 1 } robot.position with _ | r <;>
        rw [hg] at happ
      · cases happ
      · dsimp only at happ
        simp only [Option.some.injEq] at happ
        subst happ
        have hrP : r ∈ w.env.packages := get_package_in_mem hg
        refine ⟨?_, ?_, hcs, ?_, ?_⟩
        · simp only [List.length_set]
          exact hlen
        · intro r2 hr2
          rcases List.mem_or_eq_of_mem_set hr2 with hmm | rfl
          · exact hin r2 hmm
          · exact hin robot hrmem
        · intro pr hpr
          exact hpk pr (List.mem_of_mem_erase hpr)
        · intro r2 hr2 pr hpr
          rcases List.mem_or_eq_of_mem_set hr2 with hmm | rfl
          · exact hrb r2 hmm pr hpr
          · have : r = pr := by
              injection hpr
            subst this
            exact hpk r hrP
    · simp at hm

/-! ### Successor generation and the children loops -/

theorem childrenOf_isSome (app : String → Option W) :
    ∀ l : List String, (∀ op ∈ l, ∃ c, app op = some c) →
      ∃ cs, childrenOf app l = some cs ∧ cs.length = l.length ∧
        ∀ pr ∈ l.zip cs, app pr.1 = some pr.2 := by
  intro l
  induction l with
  | nil =>
      intro _
      exact ⟨[], rfl, rfl, by intro pr hpr; cases hpr⟩
  | cons op rest ih =>
      intro hall
      obtain ⟨c, hc⟩ := hall op (List.mem_cons_self _ _)
      obtain ⟨cs, hcs, hlen, hzip⟩ := ih (fun o ho => hall o (List.mem_cons_of_mem _ ho))
      refine ⟨c :: cs, ?_, by simp [hlen], ?_⟩
      · unfold childrenOf
        rw [hc, hcs]
      · intro pr hpr
        simp only [List.zip_cons_cons, List.mem_cons] at hpr
        rcases hpr with rfl | hpr
        · exact hc
        · exact hzip pr hpr

theorem successors_ok (RC : RCStream) (w : W) (p : Nat)
    (hwf : WfW w) (hp : p < 2) (hst : 1 ≤ w.env.num_steps)
    (hrc : ∀ s, 2 ≤ (RC s 2).2.length) :
    ∃ children, successors RC w p = some (get_legal_operators w.heap w.env p, children) ∧
      children.length = (get_legal_operators w.heap w.env p).length ∧
      ∀ pr ∈ (get_legal_operators w.heap w.env p).zip children,
        apply_operator RC (clone w) p pr.1 = some pr.2 := by
  obtain ⟨hlen, hin, hcs, hpk, hrb⟩ := hwf
  have hcl := clone_legal_eq w p hpk hrb
  have happ_some : ∀ op ∈ get_legal_operators w.heap w.env p,
      ∃ c, apply_operator RC (clone w) p op = some c := by
    intro op hop
    have hopc : op ∈ get_legal_operators (clone w).heap (clone w).env p := by
      rw [hcl]
      exact hop
    exact apply_operator_isSome RC (clone w) p (getRobotD (clone w).env p)
      (getRobotD (clone w).env ((p + 1) % 2)) op
      (robots_get?_wf p hlen hp) (robots_get?_wf _ hlen (by omega)) hopc hst hrc
  obtain ⟨cs, hcs2, hlen2, hzip⟩ := childrenOf_isSome _ _ happ_some
  refine ⟨cs, ?_, hlen2, hzip⟩
  unfold successors
  dsimp only
  rw [hcs2]

theorem mm_fold_stopped (rec : W → Timer → Option ((XVal × Option String) × Timer))
    (isMax : Bool) :
    ∀ (l : List (String × W)) (bv : XVal) (bo : Option String) (st : Bool),
      ∃ st', l.foldl (mmStep rec isMax) (some (bv, bo, some 0, st)) =
        some (bv, bo, some 0, st') := by
  intro l
  induction l with
  | nil =>
      intro bv bo st
      exact ⟨st, rfl⟩
  | cons hd tl ih =>
      intro bv bo st
      rw [List.foldl_cons]
      cases st
      · have hstep : mmStep rec isMax (some (bv, bo, some 0, false)) hd =
            some (bv, bo, some 0, true) := rfl
        rw [hstep]
        exact ih bv bo true
      · have hstep : mmStep rec isMax (some (bv, bo, some 0, true)) hd =
            some (bv, bo, some 0, true) := rfl
        rw [hstep]
        exact ih bv bo true

theorem mmStep_run_max (rec : W → Timer → Option ((XVal × Option String) × Timer))
    (bv : XVal) (bo : Option String) (tcur : Timer) (hd : String × W)
    (ht : tcur ≠ some 0) {v : XVal} {mv : Option String} {t' : Timer}
    (hcall : rec hd.2 (tick tcur).2 = some ((v, mv), t')) :
    mmStep rec true (some (bv, bo, tcur, false)) hd =
      if bv < v then some (v, some hd.1, t', false) else some (bv, bo, t', false) := by
  unfold mmStep
  dsimp only
  simp only [Bool.false_eq_true, if_false, tick_fst_false ht, hcall, if_true]

theorem mmStep_run_min (rec : W → Timer → Option ((XVal × Option String) × Timer))
    (bv : XVal) (bo : Option String) (tcur : Timer) (hd : String × W)
    (ht : tcur ≠ some 0) {v : XVal} {mv : Option String} {t' : Timer}
    (hcall : rec hd.2 (tick tcur).2 = some ((v, mv), t')) :
    mmStep rec false (some (bv, bo, tcur, false)) hd =
      if v < bv then some (v, some hd.1, t', false) else some (bv, bo, t', false) := by
  unfold mmStep
  dsimp only
  simp only [Bool.false_eq_true, if_false, tick_fst_false ht, hcall]

theorem mm_fold_good (rec : W → Timer → Option ((XVal × Option String) × Timer))
    (isMax : Bool) (ops : List String) :
    ∀ (l : List (String × W)),
      (∀ pr ∈ l, pr.1 ∈ ops ∧ ∀ t : Timer, ∃ v mv t', rec pr.2 t = some ((v, mv), t') ∧
          (t' ≠ some 0 → ∃ q, v = XVal.fin q)) →
      ∀ (bv : XVal) (bo : Option String) (tcur : Timer),
      GoodMV ops (if isMax then XVal.bot else XVal.top) bv bo →
      ∃ bv' bo' tc' st',
        l.foldl (mmStep rec isMax) (some (bv, bo, tcur, false)) =
          some (bv', bo', tc', st') ∧
        (tc' ≠ some 0 →
          (((∃ q, bv' = XVal.fin q) ∧ ∃ op, bo' = some op ∧ op ∈ ops) ∨
            (bv' = bv ∧ bo' = bo ∧ l = []))) := by
  intro l
  induction l with
  | nil =>
      intro _ bv bo tcur _
      exact ⟨bv, bo, tcur, false, rfl, fun _ => Or.inr ⟨rfl, rfl, rfl⟩⟩
  | cons hd tl ih =>
      intro hrec bv bo tcur hGood
      obtain ⟨hop, hrec0⟩ := hrec hd (List.mem_cons_self _ _)
      have hrec' := fun pr hpr => hrec pr (List.mem_cons_of_mem _ hpr)
      rw [List.foldl_cons]
      by_cases ht : tcur = some 0
      · subst ht
        have hstep : mmStep rec isMax (some (bv, bo, some 0, false)) hd =
            some (bv, bo, some 0, true) := rfl
        rw [hstep]
        obtain ⟨st', hst'⟩ := mm_fold_stopped rec isMax tl bv bo true
        exact ⟨bv, bo, some 0, st', hst', fun hne => absurd rfl hne⟩
      · obtain ⟨v, mv, t', hcall, hfin⟩ := hrec0 (tick tcur).2
        cases isMax
        · rw [mmStep_run_min rec bv bo tcur hd ht hcall]
          by_cases hlt : v < bv
          · rw [if_pos hlt]
            by_cases ht' : t' = some 0
            · subst ht'
              obtain ⟨st', hst'⟩ := mm_fold_stopped rec false tl v (some hd.1) false
              exact ⟨v, some hd.1, some 0, st', hst', fun hne => absurd rfl hne⟩
            · obtain ⟨q, rfl⟩ := hfin ht'
              obtain ⟨bv', bo', tc', st', heq, hcon⟩ := ih hrec' (XVal.fin q)
                (some hd.1) t' (Or.inr ⟨⟨q, rfl⟩, hd.1, rfl, hop⟩)
              refine ⟨bv', bo', tc', st', heq, fun hne => ?_⟩
              rcases hcon hne with hstrong | ⟨h1, h2, -⟩
              · exact Or.inl hstrong
              · exact Or.inl ⟨⟨q, h1⟩, hd.1, h2, hop⟩
          · rw [if_neg hlt]
            by_cases ht' : t' = some 0
            · subst ht'
              obtain ⟨st', hst'⟩ := mm_fold_stopped rec false tl bv bo false
              exact ⟨bv, bo, some 0, st', hst', fun hne => absurd rfl hne⟩
            · obtain ⟨q, rfl⟩ := hfin ht'
              have hGood2 : (∃ q2, bv = XVal.fin q2) ∧ ∃ op, bo = some op ∧ op ∈ ops := by
                rcases hGood with ⟨hbv, -⟩ | hstrong
                · rw [if_neg (by decide : ¬ (false = true))] at hbv
                  subst hbv
                  exact absurd (xfin_lt_top q) hlt
                · exact hstrong
              obtain ⟨bv', bo', tc', st', heq, hcon⟩ := ih hrec' bv bo t'
                (Or.inr hGood2)
              refine ⟨bv', bo', tc', st', heq, fun hne => ?_⟩
              rcases hcon hne with hstrong | ⟨h1, h2, -⟩
              · exact Or.inl hstrong
              · exact Or.inl ⟨h1 ▸ hGood2.1, by
                  obtain ⟨op2, hop2, hops2⟩ := hGood2.2
                  exact ⟨op2, h2 ▸ hop2, hops2⟩⟩
        · rw [mmStep_run_max rec bv bo tcur hd ht hcall]
          by_cases hlt : bv < v
          · rw [if_pos hlt]
            by_cases ht' : t' = some 0
            · subst ht'
              obtain ⟨st', hst'⟩ := mm_fold_stopped rec true tl v (some hd.1) false
              exact ⟨v, some hd.1, some 0, st', hst', fun hne => absurd rfl hne⟩
            · obtain ⟨q, rfl⟩ := hfin ht'
              obtain ⟨bv', bo', tc', st', heq, hcon⟩ := ih hrec' (XVal.fin q)
                (some hd.1) t' (Or.inr ⟨⟨q, rfl⟩, hd.1, rfl, hop⟩)
              refine ⟨bv', bo', tc', st', heq, fun hne => ?_⟩
              rcases hcon hne with hstrong | ⟨h1, h2, -⟩
              · exact Or.inl hstrong
              · exact Or.inl ⟨⟨q, h1⟩, hd.1, h2, hop⟩
          · rw [if_neg hlt]
            by_cases ht' : t' = some 0
            · subst ht'
              obtain ⟨st', hst'⟩ := mm_fold_stopped rec true tl bv bo false
              exact ⟨bv, bo, some 0, st', hst', fun hne => absurd rfl hne⟩
            · obtain ⟨q, rfl⟩ := hfin ht'
              have hGood2 : (∃ q2, bv = XVal.fin q2) ∧ ∃ op, bo = some op ∧ op ∈ ops := by
                rcases hGood with ⟨hbv, -⟩ | hstrong
                · rw [if_pos rfl] at hbv
                  subst hbv
                  exact absurd (xbot_lt_fin q) hlt
                · exact hstrong
              obtain ⟨bv', bo', tc', st', heq, hcon⟩ := ih hrec' bv bo t'
                (Or.inr hGood2)
              refine ⟨bv', bo', tc', st', heq, fun hne => ?_⟩
              rcases hcon hne with hstrong | ⟨h1, h2, -⟩
              · exact Or.inl hstrong
              · exact Or.inl ⟨h1 ▸ hGood2.1, by
                  obtain ⟨op2, hop2, hops2⟩ := hGood2.2
                  exact ⟨op2, h2 ▸ hop2, hops2⟩⟩

theorem tick_fired_eq {t : Timer} (h : (tick t).1 = true) : t = some 0 := by
  match t with
  | none => cases h
  | some 0 => rfl
  | some (k + 1) => cases h

theorem done_false_steps {e : Env} (hdf : done e = false) : 1 ≤ e.num_steps := by
  unfold done at hdf
  rw [Bool.or_eq_false_iff] at hdf
  have h2 := of_decide_eq_false hdf.2
  omega

/-- minimaxSearch under a well-formed state never raises; and if its output
clock has not reached the deadline, the search ran to completion: its value
is finite and, at a live maximising node of positive depth, its move is one
of the legal operators of the node state. -/
theorem mm_ok (RC : RCStream) (agentId : Nat) (hrc : ∀ s, 2 ≤ (RC s 2).2.length) :
    ∀ (d p : Nat) (w : W) (isMax : Bool) (t : Timer), WfW w → p < 2 →
      ∃ v mv t', minimaxSearch RC agentId d p w isMax t = some ((v, mv), t') ∧
        (t' ≠ some 0 →
          (∃ q, v = XVal.fin q) ∧
          (done w.env = false → 0 < d →
            ∃ op, mv = some op ∧ op ∈ get_legal_operators w.heap w.env p)) := by
  intro d
  induction d with
  | zero =>
      intro p w isMax t hwf hp
      by_cases ht0 : t = some 0
      · subst ht0
        exact ⟨.fin 0, none, some 0, rfl, fun hne => absurd rfl hne⟩
      · obtain ⟨q, hq⟩ := smart_heuristic_isSome w.heap w.env agentId hwf.2.2.1
        refine ⟨.fin q, none, (tick t).2, ?_, ?_⟩
        · simp only [minimaxSearch]
          simp only [tick_fst_false ht0, Bool.false_eq_true, if_false, hq]
        · intro hne
          exact ⟨⟨q, rfl⟩, fun _ h0 => absurd h0 (by omega)⟩
  | succ d ih =>
      intro p w isMax t hwf hp
      by_cases ht0 : t = some 0
      · subst ht0
        exact ⟨.fin 0, none, some 0, rfl, fun hne => absurd rfl hne⟩
      · by_cases hdone : done w.env = true
        · obtain ⟨q, hq⟩ := smart_heuristic_isSome w.heap w.env agentId hwf.2.2.1
          refine ⟨.fin q, none, (tick t).2, ?_, ?_⟩
          · simp only [minimaxSearch]
            simp only [tick_fst_false ht0, Bool.false_eq_true, if_false, hdone, if_true, hq]
          · intro hne
            refine ⟨⟨q, rfl⟩, fun hdf _ => ?_⟩
            rw [hdone] at hdf
            cases hdf
        · have hdf : done w.env = false := by
            revert hdone
            cases done w.env <;> simp
          have hst : 1 ≤ w.env.num_steps := done_false_steps hdf
          obtain ⟨cs, hsucc, hlen2, hzip⟩ := successors_ok RC w p hwf hp hst hrc
          have hopsne := legal_nonempty w.heap w.env p hwf.1 hwf.2.1
          have hwfc := clone_WfW w hwf
          have hrecall : ∀ pr ∈ (get_legal_operators w.heap w.env p).zip cs,
              pr.1 ∈ get_legal_operators w.heap w.env p ∧
              ∀ t2 : Timer, ∃ v mv t',
                minimaxSearch RC agentId d ((p + 1) % 2) pr.2 (!isMax) t2 =
                  some ((v, mv), t') ∧
                (t' ≠ some 0 → ∃ q, v = XVal.fin q) := by
            intro pr hpr
            have hmem := List.of_mem_zip hpr
            refine ⟨hmem.1, ?_⟩
            intro t2
            have hwf2 : WfW pr.2 :=
              apply_operator_WfW RC (clone w) pr.2 p pr.1 (hzip pr hpr) hwfc
            obtain ⟨v, mv, t', heq, hcon⟩ := ih ((p + 1) % 2) pr.2 (!isMax) t2 hwf2 (by omega)
            exact ⟨v, mv, t', heq, fun hne => (hcon hne).1⟩
          obtain ⟨bv', bo', tc', st', hfold, hcon⟩ :=
            mm_fold_good (fun w2 t2 =>
                minimaxSearch RC agentId d ((p + 1) % 2) w2 (!isMax) t2) isMax
              (get_legal_operators w.heap w.env p)
              ((get_legal_operators w.heap w.env p).zip cs) hrecall
              (if isMax then XVal.bot else XVal.top) none (tick t).2 (Or.inl ⟨rfl, rfl⟩)
          refine ⟨bv', bo', tc', ?_, ?_⟩
          · simp only [minimaxSearch]
            simp only [tick_fst_false ht0, Bool.false_eq_true, if_false, hdf, hsucc]
            rw [hfold]
          · intro hne
            rcases hcon hne with ⟨hfin, hop⟩ | ⟨-, -, hnil⟩
            · exact ⟨hfin, fun _ _ => hop⟩
            · exfalso
              have hl := congrArg List.length hnil
              rw [List.length_zip, hlen2, Nat.min_self, List.length_nil] at hl
              exact hopsne (List.length_eq_zero.mp hl)

theorem em_fold_stopped (rec : W → Timer → Option ((XVal × Option String) × Timer)) :
    ∀ (l : List (String × W)) (ts : XVal) (tw : ℚ) (st : Bool),
      ∃ st', l.foldl (emStep rec) (some (ts, tw, some 0, st)) =
        some (ts, tw, some 0, st') := by
  intro l
  induction l with
  | nil =>
      intro ts tw st
      exact ⟨st, rfl⟩
  | cons hd tl ih =>
      intro ts tw st
      rw [List.foldl_cons]
      cases st
      · have hstep : emStep rec (some (ts, tw, some 0, false)) hd =
            some (ts, tw, some 0, true) := rfl
        rw [hstep]
        exact ih ts tw true
      · have hstep : emStep rec (some (ts, tw, some 0, true)) hd =
            some (ts, tw, some 0, true) := rfl
        rw [hstep]
        exact ih ts tw true

theorem emStep_run (rec : W → Timer → Option ((XVal × Option String) × Timer))
    (ts : XVal) (tw : ℚ) (tcur : Timer) (hd : String × W)
    (ht : tcur ≠ some 0) {v : XVal} {mv : Option String} {t' : Timer}
    (hcall : rec hd.2 (tick tcur).2 = some ((v, mv), t')) :
    emStep rec (some (ts, tw, tcur, false)) hd =
      some (xadd ts (xscale (if hd.1 = "move west" ∨ hd.1 = "pick up" then 3 else 1) v),
        tw + (if hd.1 = "move west" ∨ hd.1 = "pick up" then 3 else 1), t', false) := by
  unfold emStep
  dsimp only
  simp only [Bool.false_eq_true, if_false, tick_fst_false ht, hcall]

theorem em_fold_fin (rec : W → Timer → Option ((XVal × Option String) × Timer)) :
    ∀ (l : List (String × W)),
      (∀ pr ∈ l, ∀ t : Timer, ∃ v mv t', rec pr.2 t = some ((v, mv), t') ∧
          (t' ≠ some 0 → ∃ q, v = XVal.fin q)) →
      ∀ (ts : XVal) (tw : ℚ) (tcur : Timer), (∃ q, ts = XVal.fin q) →
      ∃ ts' tw' tc' st',
        l.foldl (emStep rec) (some (ts, tw, tcur, false)) = some (ts', tw', tc', st') ∧
        (tc' ≠ some 0 → ∃ q, ts' = XVal.fin q) := by
  intro l
  induction l with
  | nil =>
      intro _ ts tw tcur hts
      exact ⟨ts, tw, tcur, false, rfl, fun _ => hts⟩
  | cons hd tl ih =>
      intro hrec ts tw tcur hts
      have hrec' := fun pr hpr => hrec pr (List.mem_cons_of_mem _ hpr)
      rw [List.foldl_cons]
      by_cases ht : tcur = some 0
      · subst ht
        have hstep : emStep rec (some (ts, tw, some 0, false)) hd =
            some (ts, tw, some 0, true) := rfl
        rw [hstep]
        obtain ⟨st', hst'⟩ := em_fold_stopped rec tl ts tw true
        exact ⟨ts, tw, some 0, st', hst', fun hne => absurd rfl hne⟩
      · obtain ⟨v, mv, t', hcall, hfin⟩ := hrec hd (List.mem_cons_self _ _) (tick tcur).2
        rw [emStep_run rec ts tw tcur hd ht hcall]
        by_cases ht' : t' = some 0
        · subst ht'
          obtain ⟨st', hst'⟩ := em_fold_stopped rec tl
            (xadd ts (xscale (if hd.1 = "move west" ∨ hd.1 = "pick up" then 3 else 1) v))
            (tw + (if hd.1 = "move west" ∨ hd.1 = "pick up" then 3 else 1)) false
          exact ⟨_, _, some 0, st', hst', fun hne => absurd rfl hne⟩
        · obtain ⟨q, rfl⟩ := hfin ht'
          obtain ⟨q0, rfl⟩ := hts
          exact ih hrec' _ _ t' ⟨_, rfl⟩

/-- expectimaxSearch under a well-formed state never raises; if its output
clock has not reached the deadline, its value is finite and, at a live
maximising node of positive depth, its move is a legal operator. -/
theorem em_ok (RC : RCStream) (agentId : Nat) (hrc : ∀ s, 2 ≤ (RC s 2).2.length) :
    ∀ (d p : Nat) (w : W) (isMax : Bool) (t : Timer), WfW w → p < 2 →
      ∃ v mv t', expectimaxSearch RC agentId d p w isMax t = some ((v, mv), t') ∧
        (t' ≠ some 0 →
          (∃ q, v = XVal.fin q) ∧
          (done w.env = false → 0 < d → isMax = true →
            ∃ op, mv = some op ∧ op ∈ get_legal_operators w.heap w.env p)) := by
  intro d
  induction d with
  | zero =>
      intro p w isMax t hwf hp
      by_cases ht0 : t = some 0
      · subst ht0
        exact ⟨.fin 0, none, some 0, rfl, fun hne => absurd rfl hne⟩
      · obtain ⟨q, hq⟩ := smart_heuristic_isSome w.heap w.env agentId hwf.2.2.1
        refine ⟨.fin q, none, (tick t).2, ?_, ?_⟩
        · simp only [expectimaxSearch]
          simp only [tick_fst_false ht0, Bool.false_eq_true, if_false, hq]
        · intro hne
          exact ⟨⟨q, rfl⟩, fun _ h0 => absurd h0 (by omega)⟩
  | succ d ih =>
      intro p w isMax t hwf hp
      by_cases ht0 : t = some 0
      · subst ht0
        exact ⟨.fin 0, none, some 0, rfl, fun hne => absurd rfl hne⟩
      · by_cases hdone : done w.env = true
        · obtain ⟨q, hq⟩ := smart_heuristic_isSome w.heap w.env agentId hwf.2.2.1
          refine ⟨.fin q, none, (tick t).2, ?_, ?_⟩
          · simp only [expectimaxSearch]
            simp only [tick_fst_false ht0, Bool.false_eq_true, if_false, hdone, if_true, hq]
          · intro hne
            refine ⟨⟨q, rfl⟩, fun hdf _ => ?_⟩
            rw [hdone] at hdf
            cases hdf
        · have hdf : done w.env = false := by
            revert hdone
            cases done w.env <;> simp
          have hst : 1 ≤ w.env.num_steps := done_false_steps hdf
          obtain ⟨cs, hsucc, hlen2, hzip⟩ := successors_ok RC w p hwf hp hst hrc
          have hopsne := legal_nonempty w.heap w.env p hwf.1 hwf.2.1
          have hwfc := clone_WfW w hwf
          cases isMax
          · -- chance node
            have hrecall : ∀ pr ∈ (get_legal_operators w.heap w.env p).zip cs,
                ∀ t2 : Timer, ∃ v mv t',
                  expectimaxSearch RC agentId d ((p + 1) % 2) pr.2 true t2 =
                    some ((v, mv), t') ∧
                  (t' ≠ some 0 → ∃ q, v = XVal.fin q) := by
              intro pr hpr t2
              have hwf2 : WfW pr.2 :=
                apply_operator_WfW RC (clone w) pr.2 p pr.1 (hzip pr hpr) hwfc
              obtain ⟨v, mv, t', heq, hcon⟩ := ih ((p + 1) % 2) pr.2 true t2 hwf2 (by omega)
              exact ⟨v, mv, t', heq, fun hne => (hcon hne).1⟩
            obtain ⟨ts', tw', tc', st', hfold, hcon⟩ :=
              em_fold_fin (fun w2 t2 =>
                  expectimaxSearch RC agentId d ((p + 1) % 2) w2 true t2)
                ((get_legal_operators w.heap w.env p).zip cs) hrecall
                (XVal.fin 0) 0 (tick t).2 ⟨0, rfl⟩
            by_cases htw : tw' = 0
            · refine ⟨.fin 0, none, tc', ?_, ?_⟩
              · simp only [expectimaxSearch]
                simp only [tick_fst_false ht0, Bool.false_eq_true, if_false, hdf, hsucc]
                rw [hfold]
                simp only [htw, eq_self_iff_true, if_true]
              · intro hne
                exact ⟨⟨0, rfl⟩, fun _ _ hmax => by cases hmax⟩
            · refine ⟨xdivq ts' tw', none, tc', ?_, ?_⟩
              · simp only [expectimaxSearch]
                simp only [tick_fst_false ht0, Bool.false_eq_true, if_false, hdf, hsucc]
                rw [hfold]
                simp only [htw, if_false]
              · intro hne
                obtain ⟨q, hq⟩ := hcon hne
                refine ⟨⟨q / tw', by rw [hq]; rfl⟩, fun _ _ hmax => by cases hmax⟩
          · -- maximising node
            have hrecall : ∀ pr ∈ (get_legal_operators w.heap w.env p).zip cs,
                pr.1 ∈ get_legal_operators w.heap w.env p ∧
                ∀ t2 : Timer, ∃ v mv t',
                  expectimaxSearch RC agentId d ((p + 1) % 2) pr.2 false t2 =
                    some ((v, mv), t') ∧
                  (t' ≠ some 0 → ∃ q, v = XVal.fin q) := by
              intro pr hpr
              have hmem := List.of_mem_zip hpr
              refine ⟨hmem.1, ?_⟩
              intro t2
              have hwf2 : WfW pr.2 :=
                apply_operator_WfW RC (clone w) pr.2 p pr.1 (hzip pr hpr) hwfc
              obtain ⟨v, mv, t', heq, hcon⟩ := ih ((p + 1) % 2) pr.2 false t2 hwf2 (by omega)
              exact ⟨v, mv, t', heq, fun hne => (hcon hne).1⟩
            obtain ⟨bv', bo', tc', st', hfold, hcon⟩ :=
              mm_fold_good (fun w2 t2 =>
                  expectimaxSearch RC agentId d ((p + 1) % 2) w2 false t2) true
                (get_legal_operators w.heap w.env p)
                ((get_legal_operators w.heap w.env p).zip cs) hrecall
                XVal.bot none (tick t).2 (Or.inl ⟨rfl, rfl⟩)
            refine ⟨bv', bo', tc', ?_, ?_⟩
            · simp only [expectimaxSearch]
              simp only [tick_fst_false ht0, Bool.false_eq_true, if_false, hdf, hsucc,
                if_true]
              rw [hfold]
            · intro hne
              rcases hcon hne with ⟨hfin, hop⟩ | ⟨-, -, hnil⟩
              · exact ⟨hfin, fun _ _ _ => hop⟩
              · exfalso
                have hl := congrArg List.length hnil
                rw [List.length_zip, hlen2, Nat.min_self, List.length_nil] at hl
                exact hopsne (List.length_eq_zero.mp hl)

theorem clone_apply_some (RC : RCStream) (w : W) (p : Nat)
    (hwf : WfW w) (hp : p < 2) (hst : 1 ≤ w.env.num_steps)
    (hrc : ∀ s, 2 ≤ (RC s 2).2.length) :
    ∀ op ∈ get_legal_operators w.heap w.env p,
      ∃ c, apply_operator RC (clone w) p op = some c := by
  obtain ⟨hlen, hin, hcs, hpk, hrb⟩ := hwf
  intro op hop
  have hopc : op ∈ get_legal_operators (clone w).heap (clone w).env p := by
    rw [clone_legal_eq w p hpk hrb]
    exact hop
  exact apply_operator_isSome RC (clone w) p (getRobotD (clone w).env p)
    (getRobotD (clone w).env ((p + 1) % 2)) op
    (robots_get?_wf p hlen hp) (robots_get?_wf _ hlen (by omega)) hopc hst hrc

theorem abMax_fold_halted (app : String → Option W) (rec : W → XVal → XVal → Timer → ABOut)
    (beta : XVal) :
    ∀ (l : List String) (bv : XVal) (bo : Option String) (tc : Timer),
      l.foldl (abStepMax app rec beta) (ABAcc.halted bv bo tc) = ABAcc.halted bv bo tc := by
  intro l
  induction l with
  | nil =>
      intro bv bo tc
      rfl
  | cons op rest ih =>
      intro bv bo tc
      rw [List.foldl_cons]
      exact ih bv bo tc

theorem abMax_fold_failed (app : String → Option W) (rec : W → XVal → XVal → Timer → ABOut)
    (beta : XVal) :
    ∀ (l : List String) (o : ABOut),
      l.foldl (abStepMax app rec beta) (ABAcc.failed o) = ABAcc.failed o := by
  intro l
  induction l with
  | nil =>
      intro o
      rfl
  | cons op rest ih =>
      intro o
      rw [List.foldl_cons]
      exact ih o

theorem abMin_fold_halted (app : String → Option W) (rec : W → XVal → XVal → Timer → ABOut)
    (alpha : XVal) :
    ∀ (l : List String) (bv : XVal) (bo : Option String) (tc : Timer),
      l.foldl (abStepMin app rec alpha) (ABAcc.halted bv bo tc) = ABAcc.halted bv bo tc := by
  intro l
  induction l with
  | nil =>
      intro bv bo tc
      rfl
  | cons op rest ih =>
      intro bv bo tc
      rw [List.foldl_cons]
      exact ih bv bo tc

theorem abMin_fold_failed (app : String → Option W) (rec : W → XVal → XVal → Timer → ABOut)
    (alpha : XVal) :
    ∀ (l : List String) (o : ABOut),
      l.foldl (abStepMin app rec alpha) (ABAcc.failed o) = ABAcc.failed o := by
  intro l
  induction l with
  | nil =>
      intro o
      rfl
  | cons op rest ih =>
      intro o
      rw [List.foldl_cons]
      exact ih o

theorem ab_fold_max (app : String → Option W) (rec : W → XVal → XVal → Timer → ABOut)
    (beta : XVal) (ops : List String) :
    ∀ (l : List String),
      (∀ op ∈ l, op ∈ ops ∧ ∃ child, app op = some child ∧
        ∀ a b tc, (rec child a b tc ≠ ABOut.crash) ∧
          ∀ v mv t2, rec child a b tc = ABOut.ok v mv t2 → ∃ q, v = XVal.fin q) →
      ∀ (bv : XVal) (bo : Option String) (ca : XVal) (tc : Timer),
      GoodMV ops XVal.bot bv bo →
      (∃ bv' bo' ca' tc2,
        l.foldl (abStepMax app rec beta) (ABAcc.run bv bo ca tc) =
          ABAcc.run bv' bo' ca' tc2 ∧
        (((∃ q, bv' = XVal.fin q) ∧ ∃ op, bo' = some op ∧ op ∈ ops) ∨
          (bv' = bv ∧ bo' = bo ∧ l = []))) ∨
      (∃ bv' bo' tc2,
        l.foldl (abStepMax app rec beta) (ABAcc.run bv bo ca tc) =
          ABAcc.halted bv' bo' tc2 ∧
        (∃ q, bv' = XVal.fin q) ∧ ∃ op, bo' = some op ∧ op ∈ ops) ∨
      (∃ t2, l.foldl (abStepMax app rec beta) (ABAcc.run bv bo ca tc) =
        ABAcc.failed (ABOut.timedout t2)) := by
  intro l
  induction l with
  | nil =>
      intro _ bv bo ca tc _
      exact Or.inl ⟨bv, bo, ca, tc, rfl, Or.inr ⟨rfl, rfl, rfl⟩⟩
  | cons op rest ih =>
      intro hrec bv bo ca tc hGood
      obtain ⟨hop, child, hchild, hrecc⟩ := hrec op (List.mem_cons_self _ _)
      have hrec' := fun o ho => hrec o (List.mem_cons_of_mem _ ho)
      rw [List.foldl_cons]
      have hstep0 : abStepMax app rec beta (ABAcc.run bv bo ca tc) op =
          match rec child ca beta tc with
          | .crash => ABAcc.failed .crash
          | .timedout t2 => ABAcc.failed (.timedout t2)
          | .ok val _ t2 =>
              if beta ≤ max ca (if bv < val then val else bv) then
                ABAcc.halted (if bv < val then val else bv)
                  (if bv < val then some op else bo) t2
              else
                ABAcc.run (if bv < val then val else bv)
                  (if bv < val then some op else bo) (max ca (if bv < val then val else bv)) t2 := by
        unfold abStepMax
        rw [hchild]
      rcases hout : rec child ca beta tc with _ | t2 | ⟨v, mvv, t2⟩
      · exact absurd hout (hrecc ca beta tc).1
      · have hstep1 : abStepMax app rec beta (ABAcc.run bv bo ca tc) op =
            ABAcc.failed (ABOut.timedout t2) := by
          rw [hstep0, hout]
        rw [hstep1]
        exact Or.inr (Or.inr ⟨t2, by rw [abMax_fold_failed]⟩)
      · obtain ⟨q, rfl⟩ := (hrecc ca beta tc).2 v mvv t2 hout
        have hstep1 : abStepMax app rec beta (ABAcc.run bv bo ca tc) op =
            (if beta ≤ max ca (if bv < XVal.fin q then XVal.fin q else bv) then
              ABAcc.halted (if bv < XVal.fin q then XVal.fin q else bv)
                (if bv < XVal.fin q then some op else bo) t2
            else
              ABAcc.run (if bv < XVal.fin q then XVal.fin q else bv)
                (if bv < XVal.fin q then some op else bo)
                (max ca (if bv < XVal.fin q then XVal.fin q else bv)) t2) := by
          rw [hstep0, hout]
        rw [hstep1]
        have hGood2 : (∃ q2, (if bv < XVal.fin q then XVal.fin q else bv) = XVal.fin q2) ∧
            ∃ op2, (if bv < XVal.fin q then some op else bo) = some op2 ∧ op2 ∈ ops := by
          by_cases hlt : bv < XVal.fin q
          · rw [if_pos hlt, if_pos hlt]
            exact ⟨⟨q, rfl⟩, op, rfl, hop⟩
          · rw [if_neg hlt, if_neg hlt]
            rcases hGood with ⟨rfl, rfl⟩ | hstrong
            · exact absurd (xbot_lt_fin q) hlt
            · exact hstrong
        by_cases hcut : beta ≤ max ca (if bv < XVal.fin q then XVal.fin q else bv)
        · rw [if_pos hcut]
          exact Or.inr (Or.inl ⟨_, _, t2, by rw [abMax_fold_halted], hGood2.1, hGood2.2⟩)
        · rw [if_neg hcut]
          rcases ih hrec' _ _ _ t2 (Or.inr hGood2) with
            ⟨bv', bo', ca', tc2, heq, hcon⟩ | hrest | hrest
          · refine Or.inl ⟨bv', bo', ca', tc2, heq, ?_⟩
            rcases hcon with hstrong | ⟨h1, h2, -⟩
            · exact Or.inl hstrong
            · refine Or.inl ⟨h1 ▸ hGood2.1, ?_⟩
              obtain ⟨op2, ho2, hm2⟩ := hGood2.2
              exact ⟨op2, h2 ▸ ho2, hm2⟩
          · exact Or.inr (Or.inl hrest)
          · exact Or.inr (Or.inr hrest)

theorem ab_fold_min (app : String → Option W) (rec : W → XVal → XVal → Timer → ABOut)
    (alpha : XVal) (ops : List String) :
    ∀ (l : List String),
      (∀ op ∈ l, op ∈ ops ∧ ∃ child, app op = some child ∧
        ∀ a b tc, (rec child a b tc ≠ ABOut.crash) ∧
          ∀ v mv t2, rec child a b tc = ABOut.ok v mv t2 → ∃ q, v = XVal.fin q) →
      ∀ (bv : XVal) (bo : Option String) (cb : XVal) (tc : Timer),
      GoodMV ops XVal.top bv bo →
      (∃ bv' bo' cb' tc2,
        l.foldl (abStepMin app rec alpha) (ABAcc.run bv bo cb tc) =
          ABAcc.run bv' bo' cb' tc2 ∧
        (((∃ q, bv' = XVal.fin q) ∧ ∃ op, bo' = some op ∧ op ∈ ops) ∨
          (bv' = bv ∧ bo' = bo ∧ l = []))) ∨
      (∃ bv' bo' tc2,
        l.foldl (abStepMin app rec alpha) (ABAcc.run bv bo cb tc) =
          ABAcc.halted bv' bo' tc2 ∧
        (∃ q, bv' = XVal.fin q) ∧ ∃ op, bo' = some op ∧ op ∈ ops) ∨
      (∃ t2, l.foldl (abStepMin app rec alpha) (ABAcc.run bv bo cb tc) =
        ABAcc.failed (ABOut.timedout t2)) := by
  intro l
  induction l with
  | nil =>
      intro _ bv bo cb tc _
      exact Or.inl ⟨bv, bo, cb, tc, rfl, Or.inr ⟨rfl, rfl, rfl⟩⟩
  | cons op rest ih =>
      intro hrec bv bo cb tc hGood
      obtain ⟨hop, child, hchild, hrecc⟩ := hrec op (List.mem_cons_self _ _)
      have hrec' := fun o ho => hrec o (List.mem_cons_of_mem _ ho)
      rw [List.foldl_cons]
      have hstep0 : abStepMin app rec alpha (ABAcc.run bv bo cb tc) op =
          match rec child alpha cb tc with
          | .crash => ABAcc.failed .crash
          | .timedout t2 => ABAcc.failed (.timedout t2)
          | .ok val _ t2 =>
              if min cb (if val < bv then val else bv) ≤ alpha then
                ABAcc.halted (if val < bv then val else bv)
                  (if val < bv then some op else bo) t2
              else
                ABAcc.run (if val < bv then val else bv)
                  (if val < bv then some op else bo) (min cb (if val < bv then val else bv)) t2 := by
        unfold abStepMin
        rw [hchild]
      rcases hout : rec child alpha cb tc with _ | t2 | ⟨v, mvv, t2⟩
      · exact absurd hout (hrecc alpha cb tc).1
      · have hstep1 : abStepMin app rec alpha (ABAcc.run bv bo cb tc) op =
            ABAcc.failed (ABOut.timedout t2) := by
          rw [hstep0, hout]
        rw [hstep1]
        exact Or.inr (Or.inr ⟨t2, by rw [abMin_fold_failed]⟩)
      · obtain ⟨q, rfl⟩ := (hrecc alpha cb tc).2 v mvv t2 hout
        have hstep1 : abStepMin app rec alpha (ABAcc.run bv bo cb tc) op =
            (if min cb (if XVal.fin q < bv then XVal.fin q else bv) ≤ alpha then
              ABAcc.halted (if XVal.fin q < bv then XVal.fin q else bv)
                (if XVal.fin q < bv then some op else bo) t2
            else
              ABAcc.run (if XVal.fin q < bv then XVal.fin q else bv)
                (if XVal.fin q < bv then some op else bo)
                (min cb (if XVal.fin q < bv then XVal.fin q else bv)) t2) := by
          rw [hstep0, hout]
        rw [hstep1]
        have hGood2 : (∃ q2, (if XVal.fin q < bv then XVal.fin q else bv) = XVal.fin q2) ∧
            ∃ op2, (if XVal.fin q < bv then some op else bo) = some op2 ∧ op2 ∈ ops := by
          by_cases hlt : XVal.fin q < bv
          · rw [if_pos hlt, if_pos hlt]
            exact ⟨⟨q, rfl⟩, op, rfl, hop⟩
          · rw [if_neg hlt, if_neg hlt]
            rcases hGood with ⟨rfl, rfl⟩ | hstrong
            · exact absurd (xfin_lt_top q) hlt
            · exact hstrong
        by_cases hcut : min cb (if XVal.fin q < bv then XVal.fin q else bv) ≤ alpha
        · rw [if_pos hcut]
          exact Or.inr (Or.inl ⟨_, _, t2, by rw [abMin_fold_halted], hGood2.1, hGood2.2⟩)
        · rw [if_neg hcut]
          rcases ih hrec' _ _ _ t2 (Or.inr hGood2) with
            ⟨bv', bo', cb', tc2, heq, hcon⟩ | hrest | hrest
          · refine Or.inl ⟨bv', bo', cb', tc2, heq, ?_⟩
            rcases hcon with hstrong | ⟨h1, h2, -⟩
            · exact Or.inl hstrong
            · refine Or.inl ⟨h1 ▸ hGood2.1, ?_⟩
              obtain ⟨op2, ho2, hm2⟩ := hGood2.2
              exact ⟨op2, h2 ▸ ho2, hm2⟩
          · exact Or.inr (Or.inl hrest)
          · exact Or.inr (Or.inr hrest)

/-- alphaBetaSearch under a well-formed state never crashes; every normal
(ok) return carries a finite value and, at a live node of positive depth, a
move that is one of the node's legal operators (a timeout propagates as the
SearchTimeout exception instead). -/
theorem ab_ok (RC : RCStream) (agentId : Nat) (hrc : ∀ s, 2 ≤ (RC s 2).2.length) :
    ∀ (d p : Nat) (w : W) (isMax : Bool) (alpha beta : XVal) (t : Timer), WfW w → p < 2 →
      (alphaBetaSearch RC agentId d p w isMax alpha beta t ≠ ABOut.crash) ∧
      (∀ v mv t', alphaBetaSearch RC agentId d p w isMax alpha beta t = ABOut.ok v mv t' →
        (∃ q, v = XVal.fin q) ∧
        (done w.env = false → 0 < d →
          ∃ op, mv = some op ∧ op ∈ get_legal_operators w.heap w.env p)) := by
  intro d
  induction d with
  | zero =>
      intro p w isMax alpha beta t hwf hp
      by_cases ht0 : t = some 0
      · subst ht0
        refine ⟨?_, ?_⟩
        · intro h
          rw [show alphaBetaSearch RC agentId 0 p w isMax alpha beta (some 0) =
              ABOut.timedout (some 0) from rfl] at h
          cases h
        · intro v mv t' h
          rw [show alphaBetaSearch RC agentId 0 p w isMax alpha beta (some 0) =
              ABOut.timedout (some 0) from rfl] at h
          cases h
      · obtain ⟨q, hq⟩ := smart_heuristic_isSome w.heap w.env agentId hwf.2.2.1
        have heq : alphaBetaSearch RC agentId 0 p w isMax alpha beta t =
            ABOut.ok (XVal.fin q) none (tick t).2 := by
          simp only [alphaBetaSearch]
          simp only [tick_fst_false ht0, Bool.false_eq_true, if_false, hq]
        refine ⟨?_, ?_⟩
        · rw [heq]
          intro h
          cases h
        · intro v mv t' h
          rw [heq] at h
          injection h with h1 h2 h3
          subst h1
          exact ⟨⟨q, rfl⟩, fun _ h0 => absurd h0 (by omega)⟩
  | succ d ih =>
      intro p w isMax alpha beta t hwf hp
      by_cases ht0 : t = some 0
      · subst ht0
        refine ⟨?_, ?_⟩
        · intro h
          rw [show alphaBetaSearch RC agentId (d + 1) p w isMax alpha beta (some 0) =
              ABOut.timedout (some 0) from rfl] at h
          cases h
        · intro v mv t' h
          rw [show alphaBetaSearch RC agentId (d + 1) p w isMax alpha beta (some 0) =
              ABOut.timedout (some 0) from rfl] at h
          cases h
      · by_cases hdone : done w.env = true
        · obtain ⟨q, hq⟩ := smart_heuristic_isSome w.heap w.env agentId hwf.2.2.1
          have heq : alphaBetaSearch RC agentId (d + 1) p w isMax alpha beta t =
              ABOut.ok (XVal.fin q) none (tick t).2 := by
            simp only [alphaBetaSearch]
            simp only [tick_fst_false ht0, Bool.false_eq_true, if_false, hdone, if_true, hq]
          refine ⟨?_, ?_⟩
          · rw [heq]
            intro h
            cases h
          · intro v mv t' h
            rw [heq] at h
            injection h with h1 h2 h3
            subst h1
            refine ⟨⟨q, rfl⟩, fun hdf _ => ?_⟩
            rw [hdone] at hdf
            cases hdf
        · have hdf : done w.env = false := by
            revert hdone
            cases done w.env <;> simp
          have hst : 1 ≤ w.env.num_steps := done_false_steps hdf
          have hops_ne := legal_nonempty w.heap w.env p hwf.1 hwf.2.1
          have happ := clone_apply_some RC w p hwf hp hst hrc
          have hwfc := clone_WfW w hwf
          have hsortne : (get_legal_operators w.heap w.env p).mergeSort
              (fun a b => decide (move_priority a ≤ move_priority b)) ≠ [] := by
            intro hnil
            have hl := congrArg List.length hnil
            rw [List.length_mergeSort, List.length_nil] at hl
            exact hops_ne (List.length_eq_zero.mp hl)
          cases isMax
          · have hrecf : ∀ op ∈ (get_legal_operators w.heap w.env p).mergeSort
                (fun a b => decide (move_priority a ≤ move_priority b)),
                op ∈ get_legal_operators w.heap w.env p ∧
                ∃ child, apply_operator RC (clone w) p op = some child ∧
                  ∀ a b tc,
                    (alphaBetaSearch RC agentId d ((p + 1) % 2) child true a b tc ≠
                      ABOut.crash) ∧
                    ∀ v mv t2, alphaBetaSearch RC agentId d ((p + 1) % 2) child true a b tc =
                      ABOut.ok v mv t2 → ∃ q, v = XVal.fin q := by
              intro op hop
              have hmem : op ∈ get_legal_operators w.heap w.env p :=
                (List.mem_mergeSort).mp hop
              obtain ⟨child, hchild⟩ := happ op hmem
              refine ⟨hmem, child, hchild, ?_⟩
              intro a b tc
              have hwf2 : WfW child := apply_operator_WfW RC (clone w) child p op hchild hwfc
              obtain ⟨hcr, hok⟩ := ih ((p + 1) % 2) child true a b tc hwf2 (by omega)
              exact ⟨hcr, fun v mv t2 hh => (hok v mv t2 hh).1⟩
            rcases ab_fold_min (fun op => apply_operator RC (clone w) p op)
                (fun child a b t2 =>
                  alphaBetaSearch RC agentId d ((p + 1) % 2) child true a b t2)
                alpha (get_legal_operators w.heap w.env p)
                ((get_legal_operators w.heap w.env p).mergeSort
                  (fun a b => decide (move_priority a ≤ move_priority b))) hrecf
                XVal.top none beta (tick t).2 (Or.inl ⟨rfl, rfl⟩) with
              ⟨bv', bo', cb', tc2, hfold, hcon⟩ | ⟨bv', bo', tc2, hfold, hfin2, hop2⟩ |
              ⟨t2, hfold⟩
            · have heq : alphaBetaSearch RC agentId (d + 1) p w false alpha beta t =
                  ABOut.ok bv' bo' tc2 := by
                simp only [alphaBetaSearch]
                simp only [tick_fst_false ht0, Bool.false_eq_true, if_false, hdf]
                rw [hfold]
              refine ⟨?_, ?_⟩
              · rw [heq]
                intro h
                cases h
              · intro v mv t' h
                rw [heq] at h
                injection h with h1 h2 h3
                subst h1
                subst h2
                rcases hcon with ⟨hfin2, hop2⟩ | ⟨-, -, hnil⟩
                · exact ⟨hfin2, fun _ _ => hop2⟩
                · exact absurd hnil hsortne
            · have heq : alphaBetaSearch RC agentId (d + 1) p w false alpha beta t =
                  ABOut.ok bv' bo' tc2 := by
                simp only [alphaBetaSearch]
                simp only [tick_fst_false ht0, Bool.false_eq_true, if_false, hdf]
                rw [hfold]
              refine ⟨?_, ?_⟩
              · rw [heq]
                intro h
                cases h
              · intro v mv t' h
                rw [heq] at h
                injection h with h1 h2 h3
                subst h1
                subst h2
                exact ⟨hfin2, fun _ _ => hop2⟩
            · have heq : alphaBetaSearch RC agentId (d + 1) p w false alpha beta t =
                  ABOut.timedout t2 := by
                simp only [alphaBetaSearch]
                simp only [tick_fst_false ht0, Bool.false_eq_true, if_false, hdf]
                rw [hfold]
              refine ⟨?_, ?_⟩
              · rw [heq]
                intro h
                cases h
              · intro v mv t' h
                rw [heq] at h
                cases h
          · have hrecf : ∀ op ∈ (get_legal_operators w.heap w.env p).mergeSort
                (fun a b => decide (move_priority a ≤ move_priority b)),
                op ∈ get_legal_operators w.heap w.env p ∧
                ∃ child, apply_operator RC (clone w) p op = some child ∧
                  ∀ a b tc,
                    (alphaBetaSearch RC agentId d ((p + 1) % 2) child false a b tc ≠
                      ABOut.crash) ∧
                    ∀ v mv t2, alphaBetaSearch RC agentId d ((p + 1) % 2) child false a b tc =
                      ABOut.ok v mv t2 → ∃ q, v = XVal.fin q := by
              intro op hop
              have hmem : op ∈ get_legal_operators w.heap w.env p :=
                (List.mem_mergeSort).mp hop
              obtain ⟨child, hchild⟩ := happ op hmem
              refine ⟨hmem, child, hchild, ?_⟩
              intro a b tc
              have hwf2 : WfW child := apply_operator_WfW RC (clone w) child p op hchild hwfc
              obtain ⟨hcr, hok⟩ := ih ((p + 1) % 2) child false a b tc hwf2 (by omega)
              exact ⟨hcr, fun v mv t2 hh => (hok v mv t2 hh).1⟩
            rcases ab_fold_max (fun op => apply_operator RC (clone w) p op)
                (fun child a b t2 =>
                  alphaBetaSearch RC agentId d ((p + 1) % 2) child false a b t2)
                beta (get_legal_operators w.heap w.env p)
                ((get_legal_operators w.heap w.env p).mergeSort
                  (fun a b => decide (move_priority a ≤ move_priority b))) hrecf
                XVal.bot none alpha (tick t).2 (Or.inl ⟨rfl, rfl⟩) with
              ⟨bv', bo', ca', tc2, hfold, hcon⟩ | ⟨bv', bo', tc2, hfold, hfin2, hop2⟩ |
              ⟨t2, hfold⟩
            · have heq : alphaBetaSearch RC agentId (d + 1) p w true alpha beta t =
                  ABOut.ok bv' bo' tc2 := by
                simp only [alphaBetaSearch]
                simp only [tick_fst_false ht0, Bool.false_eq_true, if_false, hdf, if_true]
                rw [hfold]
              refine ⟨?_, ?_⟩
              · rw [heq]
                intro h
                cases h
              · intro v mv t' h
                rw [heq] at h
                injection h with h1 h2 h3
                subst h1
                subst h2
                rcases hcon with ⟨hfin2, hop2⟩ | ⟨-, -, hnil⟩
                · exact ⟨hfin2, fun _ _ => hop2⟩
                · exact absurd hnil hsortne
            · have heq : alphaBetaSearch RC agentId (d + 1) p w true alpha beta t =
                  ABOut.ok bv' bo' tc2 := by
                simp only [alphaBetaSearch]
                simp only [tick_fst_false ht0, Bool.false_eq_true, if_false, hdf, if_true]
                rw [hfold]
              refine ⟨?_, ?_⟩
              · rw [heq]
                intro h
                cases h
              · intro v mv t' h
                rw [heq] at h
                injection h with h1 h2 h3
                subst h1
                subst h2
                exact ⟨hfin2, fun _ _ => hop2⟩
            · have heq : alphaBetaSearch RC agentId (d + 1) p w true alpha beta t =
                  ABOut.timedout t2 := by
                simp only [alphaBetaSearch]
                simp only [tick_fst_false ht0, Bool.false_eq_true, if_false, hdf, if_true]
                rw [hfold]
              refine ⟨?_, ?_⟩
              · rw [heq]
                intro h
                cases h
              · intro v mv t' h
                rw [heq] at h
                cases h

/-! ### The iterative-deepening loops and run_step -/

theorem mmLoop_ok (RC : RCStream) (agentId : Nat) (w : W)
    (hrc : ∀ s, 2 ≤ (RC s 2).2.length) (hwf : WfW w) (hA : agentId < 2)
    (hdone : done w.env = false) :
    ∀ (fuel depth : Nat) (best : Option String) (t : Timer), 0 < depth →
      (∃ op, best = some op ∧ op ∈ get_legal_operators w.heap w.env agentId) →
      ∃ op', mmLoop RC agentId w fuel depth best t = some (some op') ∧
        op' ∈ get_legal_operators w.heap w.env agentId := by
  intro fuel
  induction fuel with
  | zero =>
      intro depth best t hd hbest
      obtain ⟨op, rfl, hmem⟩ := hbest
      exact ⟨op, rfl, hmem⟩
  | succ fuel ih =>
      intro depth best t hd hbest
      obtain ⟨op, rfl, hmem⟩ := hbest
      by_cases hf : (tick t).1 = true
      · refine ⟨op, ?_, hmem⟩
        simp only [mmLoop]
        simp only [hf, if_true]
      · have hfb : (tick t).1 = false := by
          revert hf
          cases (tick t).1 <;> simp
        obtain ⟨v, mv, t', hsearch, hcon⟩ :=
          mm_ok RC agentId hrc depth agentId w true (tick t).2 hwf hA
        by_cases hft' : (tick t').1 = true
        · refine ⟨op, ?_, hmem⟩
          simp only [mmLoop]
          simp only [hfb, Bool.false_eq_true, if_false, hsearch]
          simp only [hft', if_true]
        · have hfb' : (tick t').1 = false := by
            revert hft'
            cases (tick t').1 <;> simp
          have ht'ne : t' ≠ some 0 := by
            intro hh
            rw [hh] at hfb'
            cases hfb'
          obtain ⟨-, hmv⟩ := hcon ht'ne
          obtain ⟨op2, rfl, hmem2⟩ := hmv hdone hd
          obtain ⟨op', hloop, hmem'⟩ := ih (depth + 1) (some op2) (tick t').2 (by omega)
            ⟨op2, rfl, hmem2⟩
          refine ⟨op', ?_, hmem'⟩
          simp only [mmLoop]
          simp only [hfb, Bool.false_eq_true, if_false, hsearch]
          simp only [hfb', Bool.false_eq_true, if_false]
          exact hloop

theorem emLoop_ok (RC : RCStream) (agentId : Nat) (w : W)
    (hrc : ∀ s, 2 ≤ (RC s 2).2.length) (hwf : WfW w) (hA : agentId < 2)
    (hdone : done w.env = false) :
    ∀ (fuel depth : Nat) (best : Option String) (t : Timer), 0 < depth →
      (∃ op, best = some op ∧ op ∈ get_legal_operators w.heap w.env agentId) →
      ∃ op', emLoop RC agentId w fuel depth best t = some (some op') ∧
        op' ∈ get_legal_operators w.heap w.env agentId := by
  intro fuel
  induction fuel with
  | zero =>
      intro depth best t hd hbest
      obtain ⟨op, rfl, hmem⟩ := hbest
      exact ⟨op, rfl, hmem⟩
  | succ fuel ih =>
      intro depth best t hd hbest
      obtain ⟨op, rfl, hmem⟩ := hbest
      by_cases hf : (tick t).1 = true
      · refine ⟨op, ?_, hmem⟩
        simp only [emLoop]
        simp only [hf, if_true]
      · have hfb : (tick t).1 = false := by
          revert hf
          cases (tick t).1 <;> simp
        obtain ⟨v, mv, t', hsearch, hcon⟩ :=
          em_ok RC agentId hrc depth agentId w true (tick t).2 hwf hA
        by_cases hft' : (tick t').1 = true
        · refine ⟨op, ?_, hmem⟩
          simp only [emLoop]
          simp only [hfb, Bool.false_eq_true, if_false, hsearch]
          simp only [hft', if_true]
        · have hfb' : (tick t').1 = false := by
            revert hft'
            cases (tick t').1 <;> simp
          have ht'ne : t' ≠ some 0 := by
            intro hh
            rw [hh] at hfb'
            cases hfb'
          obtain ⟨-, hmv⟩ := hcon ht'ne
          obtain ⟨op2, rfl, hmem2⟩ := hmv hdone hd rfl
          obtain ⟨op', hloop, hmem'⟩ := ih (depth + 1) (some op2) (tick t').2 (by omega)
            ⟨op2, rfl, hmem2⟩
          refine ⟨op', ?_, hmem'⟩
          simp only [emLoop]
          simp only [hfb, Bool.false_eq_true, if_false, hsearch]
          simp only [hfb', Bool.false_eq_true, if_false]
          exact hloop

theorem abLoop_ok (RC : RCStream) (agentId : Nat) (w : W)
    (hrc : ∀ s, 2 ≤ (RC s 2).2.length) (hwf : WfW w) (hA : agentId < 2)
    (hdone : done w.env = false) :
    ∀ (fuel depth : Nat) (best : Option String) (t : Timer), 0 < depth →
      (∃ op, best = some op ∧ op ∈ get_legal_operators w.heap w.env agentId) →
      ∃ op', abLoop RC agentId w fuel depth best t = some (some op') ∧
        op' ∈ get_legal_operators w.heap w.env agentId := by
  intro fuel
  induction fuel with
  | zero =>
      intro depth best t hd hbest
      obtain ⟨op, rfl, hmem⟩ := hbest
      exact ⟨op, rfl, hmem⟩
  | succ fuel ih =>
      intro depth best t hd hbest
      obtain ⟨op, rfl, hmem⟩ := hbest
      by_cases hf : (tick t).1 = true
      · refine ⟨op, ?_, hmem⟩
        simp only [abLoop]
        simp only [hf, if_true]
      · have hfb : (tick t).1 = false := by
          revert hf
          cases (tick t).1 <;> simp
        obtain ⟨hcr, hok⟩ :=
          ab_ok RC agentId hrc depth agentId w true XVal.bot XVal.top (tick t).2 hwf hA
        rcases hout : alphaBetaSearch RC agentId depth agentId w true XVal.bot XVal.top
            (tick t).2 with _ | t2 | ⟨v, mv, t2⟩
        · exact absurd hout hcr
        · refine ⟨op, ?_, hmem⟩
          simp only [abLoop]
          simp only [hfb, Bool.false_eq_true, if_false, hout]
        · obtain ⟨-, hmv⟩ := hok v mv t2 hout
          obtain ⟨op2, rfl, hmem2⟩ := hmv hdone hd
          obtain ⟨op', hloop, hmem'⟩ := ih (depth + 1) (some op2) t2 (by omega)
            ⟨op2, rfl, hmem2⟩
          refine ⟨op', ?_, hmem'⟩
          simp only [abLoop]
          simp only [hfb, Bool.false_eq_true, if_false, hout]
          exact hloop

theorem runStepMM_ok (RC : RCStream) (agentId : Nat) (w : W) (budget : Nat)
    (hrc : ∀ s, 2 ≤ (RC s 2).2.length) (hwf : WfW w) (hA : agentId < 2)
    (hdone : done w.env = false) :
    ∃ op, runStepMM RC agentId w budget = some (some op) ∧
      op ∈ get_legal_operators w.heap w.env agentId := by
  have hst : 1 ≤ w.env.num_steps := done_false_steps hdone
  obtain ⟨cs, hsucc, hlen2, hzip⟩ := successors_ok RC w agentId hwf hA hst hrc
  have hops_ne := legal_nonempty w.heap w.env agentId hwf.1 hwf.2.1
  rcases hops : get_legal_operators w.heap w.env agentId with _ | ⟨op0, rest⟩
  · exact absurd hops hops_ne
  · rw [hops] at hsucc
    obtain ⟨op', hloop, hmem'⟩ := mmLoop_ok RC agentId w hrc hwf hA hdone
      (budget + 2) 1 (some op0) (some budget) (by omega)
      ⟨op0, rfl, by rw [hops]; exact List.mem_cons_self _ _⟩
    refine ⟨op', ?_, hops ▸ hmem'⟩
    unfold runStepMM
    rw [hsucc]
    exact hloop

theorem runStepEM_ok (RC : RCStream) (agentId : Nat) (w : W) (budget : Nat)
    (hrc : ∀ s, 2 ≤ (RC s 2).2.length) (hwf : WfW w) (hA : agentId < 2)
    (hdone : done w.env = false) :
    ∃ op, runStepEM RC agentId w budget = some (some op) ∧
      op ∈ get_legal_operators w.heap w.env agentId := by
  have hst : 1 ≤ w.env.num_steps := done_false_steps hdone
  obtain ⟨cs, hsucc, hlen2, hzip⟩ := successors_ok RC w agentId hwf hA hst hrc
  have hops_ne := legal_nonempty w.heap w.env agentId hwf.1 hwf.2.1
  rcases hops : get_legal_operators w.heap w.env agentId with _ | ⟨op0, rest⟩
  · exact absurd hops hops_ne
  · rw [hops] at hsucc
    obtain ⟨op', hloop, hmem'⟩ := emLoop_ok RC agentId w hrc hwf hA hdone
      (budget + 2) 1 (some op0) (some budget) (by omega)
      ⟨op0, rfl, by rw [hops]; exact List.mem_cons_self _ _⟩
    refine ⟨op', ?_, hops ▸ hmem'⟩
    unfold runStepEM
    rw [hsucc]
    exact hloop

theorem runStepAB_ok (RC : RCStream) (agentId : Nat) (w : W) (budget : Nat)
    (hrc : ∀ s, 2 ≤ (RC s 2).2.length) (hwf : WfW w) (hA : agentId < 2)
    (hdone : done w.env = false) :
    ∃ op, runStepAB RC agentId w budget = some (some op) ∧
      op ∈ get_legal_operators w.heap w.env agentId := by
  have hops_ne := legal_nonempty w.heap w.env agentId hwf.1 hwf.2.1
  rcases hops : get_legal_operators w.heap w.env agentId with _ | ⟨op0, rest⟩
  · exact absurd hops hops_ne
  · obtain ⟨op', hloop, hmem'⟩ := abLoop_ok RC agentId w hrc hwf hA hdone
      (budget + 2) 1 (some op0) (some budget) (by omega)
      ⟨op0, rfl, by rw [hops]; exact List.mem_cons_self _ _⟩
    refine ⟨op', ?_, hops ▸ hmem'⟩
    unfold runStepAB
    rw [hops]
    exact hloop

/-- C5, counterexample: on a finished input state (num_steps 0) the
AgentAlphaBeta run_step completes normally and returns Python None — at
every depth the search hits the done check and returns (heuristic, None),
the loop stores that move and finally returns it — which is not one of the
eight operator strings, let alone a legal one.  (The other two agents fare
worse: they crash in successors, since apply_operator asserts on the
exhausted step budget.) -/
theorem claim5_counterexample :
    done wC5done.env = true ∧ runStepAB rcTest 0 wC5done 2 = some none ∧
      ∀ op : String, runStepAB rcTest 0 wC5done 2 ≠ some (some op) := by
  refine ⟨by decide, by decide, ?_⟩
  intro op h
  rw [show runStepAB rcTest 0 wC5done 2 = some none from by decide] at h
  exact Option.noConfusion (Option.some.inj h)

/-- C5, amended (spec-modelled successors): on every well-formed live input
state (two robots on the board, a charge station, valid package references,
game not done), each of the three agents' run_step returns normally, the
returned value is an operator string (one of the eight), and that operator
is legal for the robot on the unmutated input state — for every clock
budget, i.e. no matter when the time limit expires, including immediately.
On done states the property fails (see the counterexample). -/
theorem claim5_run_step_legal_amended (RC : RCStream) (w : W) (agent_id budget : Nat)
    (hrc : ∀ s, 2 ≤ (RC s 2).2.length) (hwf : WfW w) (hA : agent_id < 2)
    (hdone : done w.env = false) :
    (∃ op, runStepMM RC agent_id w budget = some (some op) ∧
      op ∈ get_legal_operators w.heap w.env agent_id ∧ op ∈ allOps) ∧
    (∃ op, runStepAB RC agent_id w budget = some (some op) ∧
      op ∈ get_legal_operators w.heap w.env agent_id ∧ op ∈ allOps) ∧
    (∃ op, runStepEM RC agent_id w budget = some (some op) ∧
      op ∈ get_legal_operators w.heap w.env agent_id ∧ op ∈ allOps) := by
  obtain ⟨o1, h1, m1⟩ := runStepMM_ok RC agent_id w budget hrc hwf hA hdone
  obtain ⟨o2, h2, m2⟩ := runStepAB_ok RC agent_id w budget hrc hwf hA hdone
  obtain ⟨o3, h3, m3⟩ := runStepEM_ok RC agent_id w budget hrc hwf hA hdone
  exact ⟨⟨o1, h1, m1, mem_legal_allOps _ _ _ _ m1⟩,
    ⟨o2, h2, m2, mem_legal_allOps _ _ _ _ m2⟩,
    ⟨o3, h3, m3, mem_legal_allOps _ _ _ _ m3⟩⟩

/-- C5, witness: the scenario state is well formed and live, and all three
agents return a legal operator with a one-step clock budget. -/
theorem claim5_witness :
    WfW wC4 ∧ done wC4.env = false ∧
      ((∃ op, runStepMM rcTest 0 wC4 1 = some (some op) ∧
          op ∈ get_legal_operators wC4.heap wC4.env 0 ∧ op ∈ allOps) ∧
       (∃ op, runStepAB rcTest 0 wC4 1 = some (some op) ∧
          op ∈ get_legal_operators wC4.heap wC4.env 0 ∧ op ∈ allOps) ∧
       (∃ op, runStepEM rcTest 0 wC4 1 = some (some op) ∧
          op ∈ get_legal_operators wC4.heap wC4.env 0 ∧ op ∈ allOps)) :=
  ⟨⟨by decide, by decide, by decide, by decide, by
      intro r hr pr hpr
      have hr2 : r ∈ [(⟨(0, 0), 5, 0, none⟩ : Robot), ⟨(4, 4), 20, 0, none⟩] := hr
      simp only [List.mem_cons, List.not_mem_nil, or_false] at hr2
      rcases hr2 with rfl | rfl <;> cases hpr⟩,
   by decide,
   claim5_run_step_legal_amended rcTest wC4 0 1 (fun s => Nat.le_refl 2)
     ⟨by decide, by decide, by decide, by decide, by
        intro r hr pr hpr
        have hr2 : r ∈ [(⟨(0, 0), 5, 0, none⟩ : Robot), ⟨(4, 4), 20, 0, none⟩] := hr
        simp only [List.mem_cons, List.not_mem_nil, or_false] at hr2
        rcases hr2 with rfl | rfl <;> cases hpr⟩
     (by decide) (by decide)⟩

/-! ### Alpha-beta versus minimax: the reference value function -/

theorem xbot_le (x : XVal) : XVal.bot ≤ x := by
  show XVal.toW XVal.bot ≤ XVal.toW x
  exact bot_le

theorem xle_top (x : XVal) : x ≤ XVal.top := by
  cases x
  · show XVal.toW XVal.bot ≤ XVal.toW XVal.top
    exact bot_le
  · show XVal.toW (XVal.fin _) ≤ XVal.toW XVal.top
    exact WithBot.coe_le_coe.mpr le_top
  · exact le_refl _

theorem xbot_lt_top : XVal.bot < XVal.top := by
  show XVal.toW XVal.bot < XVal.toW XVal.top
  exact WithBot.bot_lt_coe _

theorem if_lt_max (bv v : XVal) : (if bv < v then v else bv) = max bv v := by
  by_cases h : bv < v
  · rw [if_pos h, max_eq_right (le_of_lt h)]
  · rw [if_neg h, max_eq_left (le_of_not_lt h)]

theorem if_lt_min (bv v : XVal) : (if v < bv then v else bv) = min bv v := by
  by_cases h : v < bv
  · rw [if_pos h, min_eq_right (le_of_lt h)]
  · rw [if_neg h, min_eq_left (le_of_not_lt h)]

theorem le_foldl_max_x (l : List XVal) : ∀ m : XVal, m ≤ l.foldl max m := by
  induction l with
  | nil => exact fun m => le_refl m
  | cons a t ih => exact fun m => le_trans (le_max_left m a) (ih (max m a))

theorem foldl_min_le_x (l : List XVal) : ∀ m : XVal, l.foldl min m ≤ m := by
  induction l with
  | nil => exact fun m => le_refl m
  | cons a t ih => exact fun m => le_trans (ih (min m a)) (min_le_left m a)

theorem foldl_max_perm {l1 l2 : List XVal} (hp : l1.Perm l2) (init : XVal) :
    l1.foldl max init = l2.foldl max init :=
  hp.foldl_eq init

theorem foldl_min_perm {l1 l2 : List XVal} (hp : l1.Perm l2) (init : XVal) :
    l1.foldl min init = l2.foldl min init :=
  hp.foldl_eq init

theorem foldl_max_fin : ∀ (l : List XVal) (a : XVal), (∃ q, a = XVal.fin q) →
    (∀ x ∈ l, ∃ q, x = XVal.fin q) → ∃ q, l.foldl max a = XVal.fin q := by
  intro l
  induction l with
  | nil =>
      intro a ha _
      exact ha
  | cons x t ih =>
      intro a ha hall
      rw [List.foldl_cons]
      refine ih (max a x) ?_ (fun y hy => hall y (List.mem_cons_of_mem _ hy))
      rcases max_choice a x with h | h
      · rw [h]
        exact ha
      · rw [h]
        exact hall x (List.mem_cons_self _ _)

theorem foldl_min_fin : ∀ (l : List XVal) (a : XVal), (∃ q, a = XVal.fin q) →
    (∀ x ∈ l, ∃ q, x = XVal.fin q) → ∃ q, l.foldl min a = XVal.fin q := by
  intro l
  induction l with
  | nil =>
      intro a ha _
      exact ha
  | cons x t ih =>
      intro a ha hall
      rw [List.foldl_cons]
      refine ih (min a x) ?_ (fun y hy => hall y (List.mem_cons_of_mem _ hy))
      rcases min_choice a x with h | h
      · rw [h]
        exact ha
      · rw [h]
        exact hall x (List.mem_cons_self _ _)

theorem foldl_max_bot_fin (l : List XVal) (hne : l ≠ [])
    (hall : ∀ x ∈ l, ∃ q, x = XVal.fin q) : ∃ q, l.foldl max XVal.bot = XVal.fin q := by
  rcases l with _ | ⟨x, t⟩
  · exact absurd rfl hne
  · rw [List.foldl_cons, max_eq_right (xbot_le x)]
    exact foldl_max_fin t x (hall x (List.mem_cons_self _ _))
      (fun y hy => hall y (List.mem_cons_of_mem _ hy))

theorem foldl_min_top_fin (l : List XVal) (hne : l ≠ [])
    (hall : ∀ x ∈ l, ∃ q, x = XVal.fin q) : ∃ q, l.foldl min XVal.top = XVal.fin q := by
  rcases l with _ | ⟨x, t⟩
  · exact absurd rfl hne
  · rw [List.foldl_cons, min_eq_right (xle_top x)]
    exact foldl_min_fin t x (hall x (List.mem_cons_self _ _))
      (fun y hy => hall y (List.mem_cons_of_mem _ hy))

/-- The reference minimax value is finite on well-formed states. -/
theorem mmv_fin (RC : RCStream) (agentId : Nat) (hrc : ∀ s, 2 ≤ (RC s 2).2.length) :
    ∀ (d p : Nat) (w : W) (isMax : Bool), WfW w → p < 2 →
      ∃ q, mmv RC agentId d p w isMax = XVal.fin q := by
  intro d
  induction d with
  | zero =>
      intro p w isMax hwf hp
      obtain ⟨q, hq⟩ := smart_heuristic_isSome w.heap w.env agentId hwf.2.2.1
      refine ⟨q, ?_⟩
      simp only [mmv, hq]
  | succ d ih =>
      intro p w isMax hwf hp
      by_cases hdone : done w.env = true
      · obtain ⟨q, hq⟩ := smart_heuristic_isSome w.heap w.env agentId hwf.2.2.1
        refine ⟨q, ?_⟩
        simp only [mmv, hdone, if_true, hq]
      · have hdf : done w.env = false := by
          revert hdone
          cases done w.env <;> simp
        have hst := done_false_steps hdf
        have hops_ne := legal_nonempty w.heap w.env p hwf.1 hwf.2.1
        have happ := clone_apply_some RC w p hwf hp hst hrc
        have hwfc := clone_WfW w hwf
        have hvals : ∀ x ∈ (get_legal_operators w.heap w.env p).map
            (fun op => match apply_operator RC (clone w) p op with
              | some c => mmv RC agentId d ((p + 1) % 2) c (!isMax)
              | none => XVal.fin 0), ∃ q, x = XVal.fin q := by
          intro x hx
          rcases List.mem_map.mp hx with ⟨op, hop, rfl⟩
          obtain ⟨c, hc⟩ := happ op hop
          simp only [hc]
          exact ih ((p + 1) % 2) c (!isMax)
            (apply_operator_WfW RC (clone w) c p op hc hwfc) (by omega)
        have hmapne : (get_legal_operators w.heap w.env p).map
            (fun op => match apply_operator RC (clone w) p op with
              | some c => mmv RC agentId d ((p + 1) % 2) c (!isMax)
              | none => XVal.fin 0) ≠ [] := by
          intro hv
          exact hops_ne (List.map_eq_nil_iff.mp hv)
        simp only [mmv, hdf, Bool.false_eq_true, if_false]
        cases isMax
        · exact foldl_min_top_fin _ hmapne hvals
        · exact foldl_max_bot_fin _ hmapne hvals

theorem zip_map_vals {α : Type} (app : String → Option W) (h : W → α) (junk : α) :
    ∀ (ops : List String) (cs : List W), cs.length = ops.length →
      (∀ pr ∈ ops.zip cs, app pr.1 = some pr.2) →
      (ops.zip cs).map (fun pr => h pr.2) =
        ops.map (fun op => match app op with | some c => h c | none => junk) := by
  intro ops
  induction ops with
  | nil =>
      intro cs _ _
      rfl
  | cons op rest ih =>
      intro cs hlen hzip
      rcases cs with _ | ⟨c, cs'⟩
      · simp at hlen
      · simp only [List.zip_cons_cons, List.map_cons]
        have h0 := hzip (op, c) (by simp)
        simp only at h0
        rw [ih cs' (by simpa using hlen)
          (fun pr hpr => hzip pr (by simp only [List.zip_cons_cons, List.mem_cons]; exact Or.inr hpr))]
        simp only [h0]

theorem mm_fold_none_max (rec : W → Timer → Option ((XVal × Option String) × Timer))
    (f : String × W → XVal) :
    ∀ (l : List (String × W)),
      (∀ pr ∈ l, ∃ mv, rec pr.2 none = some ((f pr, mv), none)) →
      ∀ (bv : XVal) (bo : Option String),
      ∃ bo', l.foldl (mmStep rec true) (some (bv, bo, none, false)) =
        some ((l.map f).foldl max bv, bo', none, false) := by
  intro l
  induction l with
  | nil =>
      intro _ bv bo
      exact ⟨bo, rfl⟩
  | cons hd tl ih =>
      intro hrec bv bo
      obtain ⟨mv, hcall⟩ := hrec hd (List.mem_cons_self _ _)
      rw [List.foldl_cons, mmStep_run_max rec bv bo none hd (fun h => Option.noConfusion h) hcall]
      simp only [List.map_cons, List.foldl_cons]
      by_cases hlt : bv < f hd
      · rw [if_pos hlt, max_eq_right (le_of_lt hlt)]
        exact ih (fun pr hpr => hrec pr (List.mem_cons_of_mem _ hpr)) (f hd) (some hd.1)
      · rw [if_neg hlt, max_eq_left (le_of_not_lt hlt)]
        exact ih (fun pr hpr => hrec pr (List.mem_cons_of_mem _ hpr)) bv bo

theorem mm_fold_none_min (rec : W → Timer → Option ((XVal × Option String) × Timer))
    (f : String × W → XVal) :
    ∀ (l : List (String × W)),
      (∀ pr ∈ l, ∃ mv, rec pr.2 none = some ((f pr, mv), none)) →
      ∀ (bv : XVal) (bo : Option String),
      ∃ bo', l.foldl (mmStep rec false) (some (bv, bo, none, false)) =
        some ((l.map f).foldl min bv, bo', none, false) := by
  intro l
  induction l with
  | nil =>
      intro _ bv bo
      exact ⟨bo, rfl⟩
  | cons hd tl ih =>
      intro hrec bv bo
      obtain ⟨mv, hcall⟩ := hrec hd (List.mem_cons_self _ _)
      rw [List.foldl_cons, mmStep_run_min rec bv bo none hd (fun h => Option.noConfusion h) hcall]
      simp only [List.map_cons, List.foldl_cons]
      by_cases hlt : f hd < bv
      · rw [if_pos hlt, min_eq_right (le_of_lt hlt)]
        exact ih (fun pr hpr => hrec pr (List.mem_cons_of_mem _ hpr)) (f hd) (some hd.1)
      · rw [if_neg hlt, min_eq_left (le_of_not_lt hlt)]
        exact ih (fun pr hpr => hrec pr (List.mem_cons_of_mem _ hpr)) bv bo

/-- Without a deadline (clock none), minimaxSearch computes exactly the
reference minimax value. -/
theorem mm_eq_mmv (RC : RCStream) (agentId : Nat) (hrc : ∀ s, 2 ≤ (RC s 2).2.length) :
    ∀ (d p : Nat) (w : W) (isMax : Bool), WfW w → p < 2 →
      ∃ mv, minimaxSearch RC agentId d p w isMax none =
        some ((mmv RC agentId d p w isMax, mv), none) := by
  intro d
  induction d with
  | zero =>
      intro p w isMax hwf hp
      obtain ⟨q, hq⟩ := smart_heuristic_isSome w.heap w.env agentId hwf.2.2.1
      refine ⟨none, ?_⟩
      simp only [minimaxSearch, mmv, tick, Bool.false_eq_true, if_false, hq]
  | succ d ih =>
      intro p w isMax hwf hp
      by_cases hdone : done w.env = true
      · obtain ⟨q, hq⟩ := smart_heuristic_isSome w.heap w.env agentId hwf.2.2.1
        refine ⟨none, ?_⟩
        simp only [minimaxSearch, mmv, tick, Bool.false_eq_true, if_false, hdone, if_true, hq]
      · have hdf : done w.env = false := by
          revert hdone
          cases done w.env <;> simp
        have hst := done_false_steps hdf
        obtain ⟨cs, hsucc, hlen2, hzip⟩ := successors_ok RC w p hwf hp hst hrc
        have hwfc := clone_WfW w hwf
        have hrecall : ∀ pr ∈ (get_legal_operators w.heap w.env p).zip cs,
            ∃ mv, minimaxSearch RC agentId d ((p + 1) % 2) pr.2 (!isMax) none =
              some ((mmv RC agentId d ((p + 1) % 2) pr.2 (!isMax), mv), none) := by
          intro pr hpr
          exact ih ((p + 1) % 2) pr.2 (!isMax)
            (apply_operator_WfW RC (clone w) pr.2 p pr.1 (hzip pr hpr) hwfc) (by omega)
        have hzipmap := zip_map_vals (fun op => apply_operator RC (clone w) p op)
          (fun c => mmv RC agentId d ((p + 1) % 2) c (!isMax)) (XVal.fin 0)
          (get_legal_operators w.heap w.env p) cs hlen2 hzip
        cases isMax
        · obtain ⟨bo', hfold⟩ := mm_fold_none_min
            (fun w2 t2 => minimaxSearch RC agentId d ((p + 1) % 2) w2 (!false) t2)
            (fun pr => mmv RC agentId d ((p + 1) % 2) pr.2 (!false))
            ((get_legal_operators w.heap w.env p).zip cs) hrecall XVal.top none
          refine ⟨bo', ?_⟩
          simp only [minimaxSearch, tick, Bool.false_eq_true, if_false, hdf, hsucc, if_true]
          rw [hfold]
          simp only [mmv, hdf, Bool.false_eq_true, if_false, if_true]
          rw [hzipmap]
        · obtain ⟨bo', hfold⟩ := mm_fold_none_max
            (fun w2 t2 => minimaxSearch RC agentId d ((p + 1) % 2) w2 (!true) t2)
            (fun pr => mmv RC agentId d ((p + 1) % 2) pr.2 (!true))
            ((get_legal_operators w.heap w.env p).zip cs) hrecall XVal.bot none
          refine ⟨bo', ?_⟩
          simp only [minimaxSearch, tick, Bool.false_eq_true, if_false, hdf, hsucc, if_true]
          rw [hfold]
          simp only [mmv, hdf, Bool.false_eq_true, if_false, if_true]
          rw [hzipmap]

/-- Knuth-Moore loop invariant for the maximising alpha-beta children loop:
with a correct window and a best-so-far that fail-soft-approximates the true
running maximum, the loop either runs to the end with a value that
approximates the full maximum in the same sense, or halts by beta cutoff
with a value at least beta and at most the true maximum. -/
theorem ab_km_fold_max (app : String → Option W) (rec : W → XVal → XVal → Timer → ABOut)
    (alpha beta : XVal) (g : String → XVal) :
    ∀ (l : List String),
      (∀ op ∈ l, ∃ child, app op = some child ∧
        ∀ a b : XVal, a < b →
          ∃ r mv, rec child a b none = ABOut.ok r mv none ∧
            (a < r → r < b → r = g op) ∧ (r ≤ a → g op ≤ r) ∧ (b ≤ r → r ≤ g op)) →
      ∀ (bv : XVal) (bo : Option String) (ca m : XVal),
      ca = max alpha bv → ¬ beta ≤ ca →
      (bv ≤ alpha → m ≤ bv) → (alpha < bv → bv = m) →
      (∃ bv' bo' ca',
        l.foldl (abStepMax app rec beta) (ABAcc.run bv bo ca none) =
          ABAcc.run bv' bo' ca' none ∧
        ¬ beta ≤ bv' ∧
        (bv' ≤ alpha → (l.map g).foldl max m ≤ bv') ∧
        (alpha < bv' → bv' = (l.map g).foldl max m)) ∨
      (∃ bv' bo',
        l.foldl (abStepMax app rec beta) (ABAcc.run bv bo ca none) =
          ABAcc.halted bv' bo' none ∧
        beta ≤ bv' ∧ bv' ≤ (l.map g).foldl max m) := by
  intro l
  induction l with
  | nil =>
      intro _ bv bo ca m hca hcb hI3 hI4
      refine Or.inl ⟨bv, bo, ca, rfl, ?_, hI3, hI4⟩
      intro hc
      refine hcb ?_
      rw [hca]
      exact le_trans hc (le_max_right alpha bv)
  | cons op rest ih =>
      intro hrec bv bo ca m hca hcb hI3 hI4
      obtain ⟨child, hchild, hKMc⟩ := hrec op (List.mem_cons_self _ _)
      have hrec' := fun o ho => hrec o (List.mem_cons_of_mem _ ho)
      obtain ⟨r, mvr, hcall, hK1, hK2, hK3⟩ := hKMc ca beta (not_le.mp hcb)
      rw [List.foldl_cons]
      have hstep1 : abStepMax app rec beta (ABAcc.run bv bo ca none) op =
          (if beta ≤ max ca (max bv r) then
            ABAcc.halted (max bv r) (if bv < r then some op else bo) none
          else
            ABAcc.run (max bv r) (if bv < r then some op else bo)
              (max ca (max bv r)) none) := by
        unfold abStepMax
        dsimp only
        rw [hchild]
        dsimp only
        rw [hcall]
        dsimp only
        rw [if_lt_max]
      have hbvca : bv ≤ ca := by
        rw [hca]
        exact le_max_right alpha bv
      by_cases hhalt : beta ≤ max ca (max bv r)
      · have hble : beta ≤ max bv r := by
          rcases max_choice ca (max bv r) with hc | hc
          · rw [hc] at hhalt
            exact absurd hhalt hcb
          · rw [hc] at hhalt
            exact hhalt
        have hmaxr : max bv r = r := by
          rcases max_choice bv r with h | h
          · exfalso
            rw [h] at hble
            exact hcb (le_trans hble hbvca)
          · exact h
        rw [hstep1, if_pos hhalt, abMax_fold_halted]
        refine Or.inr ⟨max bv r, _, rfl, hble, ?_⟩
        rw [hmaxr]
        have hrg : r ≤ g op := hK3 (by rw [← hmaxr]; exact hble)
        calc r ≤ g op := hrg
          _ ≤ max m (g op) := le_max_right _ _
          _ ≤ (rest.map g).foldl max (max m (g op)) := le_foldl_max_x _ _
          _ = ((op :: rest).map g).foldl max m := by
              rw [List.map_cons, List.foldl_cons]
      · rw [hstep1, if_neg hhalt]
        have hca2 : max ca (max bv r) = max alpha (max bv r) := by
          rw [hca, max_assoc alpha bv (max bv r), ← max_assoc bv bv r, max_self]
        have hI3₂ : max bv r ≤ alpha → max m (g op) ≤ max bv r := by
          intro hle
          have hr_le : r ≤ alpha := le_trans (le_max_right bv r) hle
          have hbv_le : bv ≤ alpha := le_trans (le_max_left bv r) hle
          have hg_le : g op ≤ r := hK2 (le_trans hr_le (by rw [hca]; exact le_max_left alpha bv))
          exact max_le (le_trans (hI3 hbv_le) (le_max_left bv r))
            (le_trans hg_le (le_max_right bv r))
        have hI4₂ : alpha < max bv r → max bv r = max m (g op) := by
          intro hlt
          by_cases hbr : bv < r
          · have hbmr : max bv r = r := max_eq_right (le_of_lt hbr)
            rw [hbmr] at hlt ⊢
            have hrca : ca < r := by
              rw [hca]
              exact max_lt hlt hbr
            have hrb : r < beta := by
              by_contra hc
              push_neg at hc
              exact hhalt (le_trans hc (le_trans (le_max_right bv r) (le_max_right ca _)))
            have hreq : r = g op := hK1 hrca hrb
            rw [hreq]
            refine (max_eq_right ?_).symm
            by_cases halb : alpha < bv
            · calc m = bv := (hI4 halb).symm
                _ ≤ g op := le_of_lt (hreq ▸ hbr)
            · calc m ≤ bv := hI3 (le_of_not_lt halb)
                _ ≤ alpha := le_of_not_lt halb
                _ ≤ g op := le_of_lt (hreq ▸ hlt)
          · have hbmr : max bv r = bv := max_eq_left (le_of_not_lt hbr)
            rw [hbmr] at hlt ⊢
            have hm := hI4 hlt
            have hrca : r ≤ ca := le_trans (le_of_not_lt hbr) hbvca
            rw [← hm]
            exact (max_eq_left (le_trans (hK2 hrca) (le_of_not_lt hbr))).symm
        rcases ih hrec' (max bv r) (if bv < r then some op else bo)
            (max ca (max bv r)) (max m (g op)) hca2 hhalt hI3₂ hI4₂ with
          ⟨bv', bo', ca', heq, hnb, h3, h4⟩ | ⟨bv', bo', heq, hb, hle⟩
        · refine Or.inl ⟨bv', bo', ca', heq, hnb, ?_, ?_⟩
          · intro hle2
            rw [List.map_cons, List.foldl_cons]
            exact h3 hle2
          · intro hlt2
            rw [List.map_cons, List.foldl_cons]
            exact h4 hlt2
        · refine Or.inr ⟨bv', bo', heq, hb, ?_⟩
          rw [List.map_cons, List.foldl_cons]
          exact hle

/-- Dual Knuth-Moore loop invariant for the minimising loop. -/
theorem ab_km_fold_min (app : String → Option W) (rec : W → XVal → XVal → Timer → ABOut)
    (alpha beta : XVal) (g : String → XVal) :
    ∀ (l : List String),
      (∀ op ∈ l, ∃ child, app op = some child ∧
        ∀ a b : XVal, a < b →
          ∃ r mv, rec child a b none = ABOut.ok r mv none ∧
            (a < r → r < b → r = g op) ∧ (r ≤ a → g op ≤ r) ∧ (b ≤ r → r ≤ g op)) →
      ∀ (bv : XVal) (bo : Option String) (cb m : XVal),
      cb = min beta bv → ¬ cb ≤ alpha →
      (beta ≤ bv → bv ≤ m) → (bv < beta → bv = m) →
      (∃ bv' bo' cb',
        l.foldl (abStepMin app rec alpha) (ABAcc.run bv bo cb none) =
          ABAcc.run bv' bo' cb' none ∧
        ¬ bv' ≤ alpha ∧
        (beta ≤ bv' → bv' ≤ (l.map g).foldl min m) ∧
        (bv' < beta → bv' = (l.map g).foldl min m)) ∨
      (∃ bv' bo',
        l.foldl (abStepMin app rec alpha) (ABAcc.run bv bo cb none) =
          ABAcc.halted bv' bo' none ∧
        bv' ≤ alpha ∧ (l.map g).foldl min m ≤ bv') := by
  intro l
  induction l with
  | nil =>
      intro _ bv bo cb m hcb hca hI3 hI4
      refine Or.inl ⟨bv, bo, cb, rfl, ?_, hI3, hI4⟩
      intro hc
      refine hca ?_
      rw [hcb]
      exact le_trans (min_le_right beta bv) hc
  | cons op rest ih =>
      intro hrec bv bo cb m hcb hca hI3 hI4
      obtain ⟨child, hchild, hKMc⟩ := hrec op (List.mem_cons_self _ _)
      have hrec' := fun o ho => hrec o (List.mem_cons_of_mem _ ho)
      obtain ⟨r, mvr, hcall, hK1, hK2, hK3⟩ := hKMc alpha cb (not_le.mp hca)
      rw [List.foldl_cons]
      have hstep1 : abStepMin app rec alpha (ABAcc.run bv bo cb none) op =
          (if min cb (min bv r) ≤ alpha then
            ABAcc.halted (min bv r) (if r < bv then some op else bo) none
          else
            ABAcc.run (min bv r) (if r < bv then some op else bo)
              (min cb (min bv r)) none) := by
        unfold abStepMin
        dsimp only
        rw [hchild]
        dsimp only
        rw [hcall]
        dsimp only
        rw [if_lt_min]
      have hbvcb : cb ≤ bv := by
        rw [hcb]
        exact min_le_right beta bv
      by_cases hhalt : min cb (min bv r) ≤ alpha
      · have hble : min bv r ≤ alpha := by
          rcases min_choice cb (min bv r) with hc | hc
          · rw [hc] at hhalt
            exact absurd hhalt hca
          · rw [hc] at hhalt
            exact hhalt
        have hminr : min bv r = r := by
          rcases min_choice bv r with h | h
          · exfalso
            rw [h] at hble
            exact hca (le_trans hbvcb hble)
          · exact h
        rw [hstep1, if_pos hhalt, abMin_fold_halted]
        refine Or.inr ⟨min bv r, _, rfl, hble, ?_⟩
        rw [hminr]
        have hrg : g op ≤ r := hK2 (by rw [← hminr]; exact hble)
        calc ((op :: rest).map g).foldl min m
            = (rest.map g).foldl min (min m (g op)) := by
              rw [List.map_cons, List.foldl_cons]
          _ ≤ min m (g op) := foldl_min_le_x _ _
          _ ≤ g op := min_le_right _ _
          _ ≤ r := hrg
      · rw [hstep1, if_neg hhalt]
        have hcb2 : min cb (min bv r) = min beta (min bv r) := by
          rw [hcb, min_assoc beta bv (min bv r), ← min_assoc bv bv r, min_self]
        have hI3₂ : beta ≤ min bv r → min bv r ≤ min m (g op) := by
          intro hle
          have hr_le : beta ≤ r := le_trans hle (min_le_right bv r)
          have hbv_le : beta ≤ bv := le_trans hle (min_le_left bv r)
          have hg_le : r ≤ g op := hK3 (le_trans (by rw [hcb]; exact min_le_left beta bv) hr_le)
          exact le_min (le_trans (min_le_left bv r) (hI3 hbv_le))
            (le_trans (min_le_right bv r) hg_le)
        have hI4₂ : min bv r < beta → min bv r = min m (g op) := by
          intro hlt
          by_cases hbr : r < bv
          · have hbmr : min bv r = r := min_eq_right (le_of_lt hbr)
            rw [hbmr] at hlt ⊢
            have hrcb : r < cb := by
              rw [hcb]
              exact lt_min hlt hbr
            have hra : alpha < r := by
              by_contra hc
              push_neg at hc
              exact hhalt (le_trans (le_trans (min_le_right cb _) (min_le_right bv r)) hc)
            have hreq : r = g op := hK1 hra hrcb
            rw [hreq]
            refine (min_eq_right ?_).symm
            by_cases halb : bv < beta
            · calc g op ≤ bv := le_of_lt (hreq ▸ hbr)
                _ = m := hI4 halb
            · calc g op ≤ beta := le_of_lt (hreq ▸ hlt)
                _ ≤ bv := le_of_not_lt halb
                _ ≤ m := hI3 (le_of_not_lt halb)
          · have hbmr : min bv r = bv := min_eq_left (le_of_not_lt hbr)
            rw [hbmr] at hlt ⊢
            have hm := hI4 hlt
            have hrcb : cb ≤ r := le_trans hbvcb (le_of_not_lt hbr)
            rw [← hm]
            exact (min_eq_left (le_trans (le_of_not_lt hbr) (hK3 hrcb))).symm
        rcases ih hrec' (min bv r) (if r < bv then some op else bo)
            (min cb (min bv r)) (min m (g op)) hcb2 hhalt hI3₂ hI4₂ with
          ⟨bv', bo', cb', heq, hnb, h3, h4⟩ | ⟨bv', bo', heq, hb, hle⟩
        · refine Or.inl ⟨bv', bo', cb', heq, hnb, ?_, ?_⟩
          · intro hle2
            rw [List.map_cons, List.foldl_cons]
            exact h3 hle2
          · intro hlt2
            rw [List.map_cons, List.foldl_cons]
            exact h4 hlt2
        · refine Or.inr ⟨bv', bo', heq, hb, ?_⟩
          rw [List.map_cons, List.foldl_cons]
          exact hle

/-- Knuth-Moore correctness of alphaBetaSearch without a deadline: the
returned value approximates the reference minimax value in the fail-soft
sense — exact inside the window, an upper bound on it when failing low, a
lower bound when failing high. -/
theorem ab_km (RC : RCStream) (agentId : Nat) (hrc : ∀ s, 2 ≤ (RC s 2).2.length) :
    ∀ (d p : Nat) (w : W) (isMax : Bool) (alpha beta : XVal), WfW w → p < 2 →
      alpha < beta →
      ∃ v mv, alphaBetaSearch RC agentId d p w isMax alpha beta none = ABOut.ok v mv none ∧
        (alpha < v → v < beta → v = mmv RC agentId d p w isMax) ∧
        (v ≤ alpha → mmv RC agentId d p w isMax ≤ v) ∧
        (beta ≤ v → v ≤ mmv RC agentId d p w isMax) := by
  intro d
  induction d with
  | zero =>
      intro p w isMax alpha beta hwf hp hab
      obtain ⟨q, hq⟩ := smart_heuristic_isSome w.heap w.env agentId hwf.2.2.1
      refine ⟨XVal.fin q, none, ?_, ?_, ?_, ?_⟩
      · simp only [alphaBetaSearch, tick, Bool.false_eq_true, if_false, hq]
      · intro _ _
        simp only [mmv, hq]
      · intro _
        simp only [mmv, hq]
        exact le_refl _
      · intro _
        simp only [mmv, hq]
        exact le_refl _
  | succ d ih =>
      intro p w isMax alpha beta hwf hp hab
      by_cases hdone : done w.env = true
      · obtain ⟨q, hq⟩ := smart_heuristic_isSome w.heap w.env agentId hwf.2.2.1
        refine ⟨XVal.fin q, none, ?_, ?_, ?_, ?_⟩
        · simp only [alphaBetaSearch, tick, Bool.false_eq_true, if_false, hdone, if_true, hq]
        · intro _ _
          simp only [mmv, hdone, if_true, hq]
        · intro _
          simp only [mmv, hdone, if_true, hq]
          exact le_refl _
        · intro _
          simp only [mmv, hdone, if_true, hq]
          exact le_refl _
      · have hdf : done w.env = false := by
          revert hdone
          cases done w.env <;> simp
        have hst := done_false_steps hdf
        have happ := clone_apply_some RC w p hwf hp hst hrc
        have hwfc := clone_WfW w hwf
        have hperm := List.mergeSort_perm (get_legal_operators w.heap w.env p)
          (fun a b => decide (move_priority a ≤ move_priority b))
        cases isMax
        · -- minimising node
          have hchild : ∀ op ∈ (get_legal_operators w.heap w.env p).mergeSort
              (fun a b => decide (move_priority a ≤ move_priority b)),
              ∃ child, apply_operator RC (clone w) p op = some child ∧
                ∀ a b : XVal, a < b →
                  ∃ r mv, alphaBetaSearch RC agentId d ((p + 1) % 2) child true a b none =
                      ABOut.ok r mv none ∧
                    (a < r → r < b →
                      r = (match apply_operator RC (clone w) p op with
                        | some c => mmv RC agentId d ((p + 1) % 2) c (!false)
                        | none => XVal.fin 0)) ∧
                    (r ≤ a →
                      (match apply_operator RC (clone w) p op with
                        | some c => mmv RC agentId d ((p + 1) % 2) c (!false)
                        | none => XVal.fin 0) ≤ r) ∧
                    (b ≤ r →
                      r ≤ (match apply_operator RC (clone w) p op with
                        | some c => mmv RC agentId d ((p + 1) % 2) c (!false)
                        | none => XVal.fin 0)) := by
            intro op hop
            have hmem : op ∈ get_legal_operators w.heap w.env p :=
              (List.mem_mergeSort).mp hop
            obtain ⟨child, hchild0⟩ := happ op hmem
            have hwf2 : WfW child := apply_operator_WfW RC (clone w) child p op hchild0 hwfc
            refine ⟨child, hchild0, ?_⟩
            intro a b habw
            obtain ⟨r, mv, hr, k1, k2, k3⟩ := ih ((p + 1) % 2) child true a b hwf2
              (by omega) habw
            have hg : (match apply_operator RC (clone w) p op with
                | some c => mmv RC agentId d ((p + 1) % 2) c (!false)
                | none => XVal.fin 0) = mmv RC agentId d ((p + 1) % 2) child true := by
              rw [hchild0]
              rfl
            refine ⟨r, mv, hr, ?_, ?_, ?_⟩
            · intro h1 h2
              rw [hg]
              exact k1 h1 h2
            · intro h1
              rw [hg]
              exact k2 h1
            · intro h1
              rw [hg]
              exact k3 h1
          have hmmv : mmv RC agentId (d + 1) p w false =
              ((get_legal_operators w.heap w.env p).map
                (fun op => match apply_operator RC (clone w) p op with
                  | some c => mmv RC agentId d ((p + 1) % 2) c (!false)
                  | none => XVal.fin 0)).foldl min XVal.top := by
            simp only [mmv, hdf, Bool.false_eq_true, if_false]
          have hpermM := foldl_min_perm (hperm.map
            (fun op => match apply_operator RC (clone w) p op with
              | some c => mmv RC agentId d ((p + 1) % 2) c (!false)
              | none => XVal.fin 0)) XVal.top
          rcases ab_km_fold_min (fun op => apply_operator RC (clone w) p op)
              (fun child a b t2 =>
                alphaBetaSearch RC agentId d ((p + 1) % 2) child true a b t2)
              alpha beta
              (fun op => match apply_operator RC (clone w) p op with
                | some c => mmv RC agentId d ((p + 1) % 2) c (!false)
                | none => XVal.fin 0)
              ((get_legal_operators w.heap w.env p).mergeSort
                (fun a b => decide (move_priority a ≤ move_priority b))) hchild
              XVal.top none beta XVal.top
              (min_eq_left (xle_top beta)).symm (not_le.mpr hab)
              (fun _ => le_refl _)
              (fun h => absurd h (not_lt.mpr (xle_top beta))) with
            ⟨bv', bo', cb', heq, hnal, h3, h4⟩ | ⟨bv', bo', heq, hba, hM⟩
          · have heqn : alphaBetaSearch RC agentId (d + 1) p w false alpha beta none =
                ABOut.ok bv' bo' none := by
              simp only [alphaBetaSearch, tick, Bool.false_eq_true, if_false, hdf]
              rw [heq]
            refine ⟨bv', bo', heqn, ?_, ?_, ?_⟩
            · intro _ hb
              rw [hmmv, ← hpermM]
              exact h4 hb
            · intro h
              exact absurd h hnal
            · intro h
              rw [hmmv, ← hpermM]
              exact h3 h
          · have heqn : alphaBetaSearch RC agentId (d + 1) p w false alpha beta none =
                ABOut.ok bv' bo' none := by
              simp only [alphaBetaSearch, tick, Bool.false_eq_true, if_false, hdf]
              rw [heq]
            refine ⟨bv', bo', heqn, ?_, ?_, ?_⟩
            · intro h _
              exact absurd hba (not_le.mpr h)
            · intro _
              rw [hmmv, ← hpermM]
              exact hM
            · intro h
              exact absurd (lt_of_le_of_lt hba hab) (not_lt.mpr h)
        · -- maximising node
          have hchild : ∀ op ∈ (get_legal_operators w.heap w.env p).mergeSort
              (fun a b => decide (move_priority a ≤ move_priority b)),
              ∃ child, apply_operator RC (clone w) p op = some child ∧
                ∀ a b : XVal, a < b →
                  ∃ r mv, alphaBetaSearch RC agentId d ((p + 1) % 2) child false a b none =
                      ABOut.ok r mv none ∧
                    (a < r → r < b →
                      r = (match apply_operator RC (clone w) p op with
                        | some c => mmv RC agentId d ((p + 1) % 2) c (!true)
                        | none => XVal.fin 0)) ∧
                    (r ≤ a →
                      (match apply_operator RC (clone w) p op with
                        | some c => mmv RC agentId d ((p + 1) % 2) c (!true)
                        | none => XVal.fin 0) ≤ r) ∧
                    (b ≤ r →
                      r ≤ (match apply_operator RC (clone w) p op with
                        | some c => mmv RC agentId d ((p + 1) % 2) c (!true)
                        | none => XVal.fin 0)) := by
            intro op hop
            have hmem : op ∈ get_legal_operators w.heap w.env p :=
              (List.mem_mergeSort).mp hop
            obtain ⟨child, hchild0⟩ := happ op hmem
            have hwf2 : WfW child := apply_operator_WfW RC (clone w) child p op hchild0 hwfc
            refine ⟨child, hchild0, ?_⟩
            intro a b habw
            obtain ⟨r, mv, hr, k1, k2, k3⟩ := ih ((p + 1) % 2) child false a b hwf2
              (by omega) habw
            have hg : (match apply_operator RC (clone w) p op with
                | some c => mmv RC agentId d ((p + 1) % 2) c (!true)
                | none => XVal.fin 0) = mmv RC agentId d ((p + 1) % 2) child false := by
              rw [hchild0]
              rfl
            refine ⟨r, mv, hr, ?_, ?_, ?_⟩
            · intro h1 h2
              rw [hg]
              exact k1 h1 h2
            · intro h1
              rw [hg]
              exact k2 h1
            · intro h1
              rw [hg]
              exact k3 h1
          have hmmv : mmv RC agentId (d + 1) p w true =
              ((get_legal_operators w.heap w.env p).map
                (fun op => match apply_operator RC (clone w) p op with
                  | some c => mmv RC agentId d ((p + 1) % 2) c (!true)
                  | none => XVal.fin 0)).foldl max XVal.bot := by
            simp only [mmv, hdf, Bool.false_eq_true, if_false, if_true]
          have hpermM := foldl_max_perm (hperm.map
            (fun op => match apply_operator RC (clone w) p op with
              | some c => mmv RC agentId d ((p + 1) % 2) c (!true)
              | none => XVal.fin 0)) XVal.bot
          rcases ab_km_fold_max (fun op => apply_operator RC (clone w) p op)
              (fun child a b t2 =>
                alphaBetaSearch RC agentId d ((p + 1) % 2) child false a b t2)
              alpha beta
              (fun op => match apply_operator RC (clone w) p op with
                | some c => mmv RC agentId d ((p + 1) % 2) c (!true)
                | none => XVal.fin 0)
              ((get_legal_operators w.heap w.env p).mergeSort
                (fun a b => decide (move_priority a ≤ move_priority b))) hchild
              XVal.bot none alpha XVal.bot
              (max_eq_left (xbot_le alpha)).symm (not_le.mpr hab)
              (fun _ => le_refl _)
              (fun h => absurd h (not_lt.mpr (xbot_le alpha))) with
            ⟨bv', bo', ca', heq, hnb, h3, h4⟩ | ⟨bv', bo', heq, hbb, hM⟩
          · have heqn : alphaBetaSearch RC agentId (d + 1) p w true alpha beta none =
                ABOut.ok bv' bo' none := by
              simp only [alphaBetaSearch, tick, Bool.false_eq_true, if_false, hdf, if_true]
              rw [heq]
            refine ⟨bv', bo', heqn, ?_, ?_, ?_⟩
            · intro ha _
              rw [hmmv, ← hpermM]
              exact h4 ha
            · intro h
              rw [hmmv, ← hpermM]
              exact h3 h
            · intro h
              exact absurd h hnb
          · have heqn : alphaBetaSearch RC agentId (d + 1) p w true alpha beta none =
                ABOut.ok bv' bo' none := by
              simp only [alphaBetaSearch, tick, Bool.false_eq_true, if_false, hdf, if_true]
              rw [heq]
            refine ⟨bv', bo', heqn, ?_, ?_, ?_⟩
            · intro _ h
              exact absurd hbb (not_le.mpr h)
            · intro h
              exact absurd (lt_of_lt_of_le hab hbb) (not_lt.mpr h)
            · intro _
              rw [hmmv, ← hpermM]
              exact hM

/-- C6: with no timeout firing (an infinite deadline), on every well-formed
two-robot state and for every depth, the root value returned by
alphaBetaSearch with the full (-inf, +inf) window equals the root value
returned by minimaxSearch at the same depth — pruning changes neither the
value nor, therefore, the heuristic value of the selected move. -/
theorem claim6_alphabeta_equals_minimax (RC : RCStream) (w : W) (agentId d : Nat)
    (hrc : ∀ s, 2 ≤ (RC s 2).2.length) (hwf : WfW w) (hA : agentId < 2) :
    ∃ v mvM mvA,
      minimaxSearch RC agentId d agentId w true none = some ((v, mvM), none) ∧
      alphaBetaSearch RC agentId d agentId w true XVal.bot XVal.top none =
        ABOut.ok v mvA none := by
  obtain ⟨mvM, hmm⟩ := mm_eq_mmv RC agentId hrc d agentId w true hwf hA
  obtain ⟨vA, mvA, hab, hK1, hK2, hK3⟩ :=
    ab_km RC agentId hrc d agentId w true XVal.bot XVal.top hwf hA xbot_lt_top
  obtain ⟨q, hq⟩ := mmv_fin RC agentId hrc d agentId w true hwf hA
  have hv : vA = mmv RC agentId d agentId w true := by
    by_cases h1 : vA ≤ XVal.bot
    · exfalso
      have h2 := hK2 h1
      rw [hq] at h2
      exact absurd (lt_of_lt_of_le (xbot_lt_fin q) (le_trans h2 h1)) (lt_irrefl _)
    · by_cases h2 : XVal.top ≤ vA
      · exfalso
        have h3 := hK3 h2
        rw [hq] at h3
        exact absurd (lt_of_le_of_lt h2 (lt_of_le_of_lt h3 (xfin_lt_top q)))
          (lt_irrefl _)
      · exact hK1 (not_le.mp h1) (not_le.mp h2)
  rw [hv] at hab
  exact ⟨mmv RC agentId d agentId w true, mvM, mvA, hmm, hab⟩

/-- C6, witness: on the concrete scenario state at depth 2 both searches
return the same root value. -/
theorem claim6_witness :
    ∃ v mvM mvA,
      minimaxSearch rcTest 0 2 0 wC4 true none = some ((v, mvM), none) ∧
      alphaBetaSearch rcTest 0 2 0 wC4 true XVal.bot XVal.top none =
        ABOut.ok v mvA none :=
  claim6_alphabeta_equals_minimax rcTest wC4 0 2 (fun s => Nat.le_refl 2)
    ⟨by decide, by decide, by decide, by decide, by
      intro r hr pr hpr
      have hr2 : r ∈ [(⟨(0, 0), 5, 0, none⟩ : Robot), ⟨(4, 4), 20, 0, none⟩] := hr
      simp only [List.mem_cons, List.not_mem_nil, or_false] at hr2
      rcases hr2 with rfl | rfl <;> cases hpr⟩
    (by decide)

end Warehouse
